import Mathlib

/-! # The maze generator of Dying-is-an-option

A shallow embedding of `Maze.cpp` (`generate`, `regenerate`, `exploreNode`,
`getUnvisitedNeighbours`, `getAvailableDirections`, `getRandomDirection`) and the
properties of the mazes it carves.

Conventions of the embedding.

* `unsigned int` values are natural numbers; the arithmetic that can wrap (`--`, `++`,
  `+ 1` on a coordinate, `size() - 1` on a `size_t`) is written with its wrap-around.
* `std::vector<std::vector<...>>` is a list of lists indexed `[x][y]`.  `operator[]` is
  unchecked in C++; an index past the end yields `Fault.outOfRange` here.
* `std::mt19937` and `std::uniform_int_distribution` belong to the C++ standard library,
  not to the repository: they are the parameter `RandomLib`.
* The loops that redraw a direction and the recursion of `exploreNode` take a step budget
  (`fuel`); `Fault.outOfFuel` says that the budget was too small, never what the program does.
* A `float` is the rational number it denotes.  Every `float` operation of the source
  (`*`, `+`, `-`, the conversion of an `unsigned int`, the constants) is the exact
  operation followed by IEEE 754 rounding to the nearest binary32 value, ties to even
  (each operation rounded on its own, as when `float` expressions are evaluated in `float`).
-/

namespace DyingIsAnOption

/-! ## Data model -/

/-- `sf::Vector2u`: a pair of `unsigned int`. -/
structure Vector2u where
  x : Nat
  y : Nat
  deriving DecidableEq, Repr

/-- Modelled from the spec: the node type of `MazeNode.hpp`, which is not among the
sources.  A cell has a `visited` flag, initially false, and the bitmask
`availableDirections` of its open directions, initially empty. -/
structure MazeNode where
  visited : Bool := false
  availableDirections : Nat := 0
  deriving DecidableEq, Repr

/-- Modelled from the spec: the enumerator `Up` of `Direction` (declared in `MazeNode.hpp`). -/
def Up : Nat := 1

/-- Modelled from the spec: the enumerator `Down` of `Direction`. -/
def Down : Nat := 2

/-- Modelled from the spec: the enumerator `Left` of `Direction`. -/
def Left : Nat := 4

/-- Modelled from the spec: the enumerator `Right` of `Direction`. -/
def Right : Nat := 8

/-- Modelled from the spec: `getOppositeDirection`, whose definition is not among the
sources: `Up ↔ Down`, `Left ↔ Right`.  The spec says nothing about other values; they are
returned unchanged. -/
def getOppositeDirection (d : Nat) : Nat :=
  if d = Up then Down
  else if d = Down then Up
  else if d = Left then Right
  else if d = Right then Left
  else d

/-- `sf::Vertex` as far as the maze uses it: a position and texture coordinates. -/
structure Vertex where
  position : ℚ × ℚ
  texCoords : ℚ × ℚ := (0, 0)
  deriving DecidableEq, Repr

/-- What can be observed while `generate` runs; the list of these events is a ghost
field of the state, written and never read by the program. -/
inductive Event where
  /-- `exploreNode` was called on the cell. -/
  | enter (position : Vector2u)
  /-- The condition of `while (availableNeighbours)` was evaluated at the cell. -/
  | test (position : Vector2u) (availableNeighbours : Nat)
  /-- The function `getRandomDirection` returned the value. -/
  | draw (direction : Nat)
  /-- The edge from `position` in `direction` to `nextPosition` was carved. -/
  | carve (position : Vector2u) (direction : Nat) (nextPosition : Vector2u)
  deriving DecidableEq, Repr

/-- How a call can end other than by returning. -/
inductive Fault where
  /-- An unchecked `operator[]` past the end of a vector was reached.  In C++ the behaviour
  is undefined from there on (a crash, or a stale value read as if it were a node); the
  embedding stops at the access and says nothing about what the program does next. -/
  | outOfRange
  /-- An assertion or contract check of the program fired. -/
  | assertion
  /-- The step budget of the embedding ran out (says nothing about the program). -/
  | outOfFuel
  deriving DecidableEq, Repr

/-- The standard-library random facilities the maze uses.  An engine state is coded as a
natural number; `seed s` is the state after `randomEngine.seed(s)`, and `sample lo hi e`
is the value drawn by a `uniform_int_distribution(lo, hi)` from engine state `e`, with the
engine state that follows. -/
structure RandomLib where
  seed : Int → Nat
  sample : Nat → Nat → Nat → Nat × Nat
  sample_range : ∀ lo hi e, lo ≤ hi → lo ≤ (sample lo hi e).1 ∧ (sample lo hi e).1 ≤ hi

/-- The data members of `class Maze` (the texture apart) and the ghost event list. -/
structure Maze where
  mazeNodes : List (List MazeNode) := []
  randomEngine : Nat := 0
  randomDistribution : Nat × Nat := (0, 0)
  maze : List Vertex := []
  trace : List Event := []
  deriving DecidableEq, Repr

/-! ## Machine arithmetic -/

/-- `--v` on an `unsigned int`: zero wraps around to `2^32 - 1`. -/
def decU32 (v : Nat) : Nat := if v = 0 then 4294967295 else v - 1

/-- `++v` and `v + 1` on an `unsigned int`. -/
def incU32 (v : Nat) : Nat := (v + 1) % 4294967296

/-- `n - 1` on a `size_t`, as in `mazeNodes.size() - 1`: zero wraps around to `2^64 - 1`. -/
def sizeMinusOne (n : Nat) : Nat := if n = 0 then 18446744073709551615 else n - 1

/-- Conversion of an `unsigned int` to `int`. -/
def toInt32 (v : Nat) : Int :=
  if v % 4294967296 < 2147483648 then (v % 4294967296 : Nat) else (v % 4294967296 : Nat) - 4294967296

/-! ## Grid access -/

/-- `mazeNodes[p.x][p.y]`, read. -/
def nodeAt (g : List (List MazeNode)) (p : Vector2u) : Except Fault MazeNode :=
  match g[p.x]? with
  | none => .error .outOfRange
  | some column =>
    match column[p.y]? with
    | none => .error .outOfRange
    | some node => .ok node

/-- `mazeNodes[p.x][p.y]`, written through a reference obtained earlier. -/
def setNode (g : List (List MazeNode)) (p : Vector2u) (node : MazeNode) : List (List MazeNode) :=
  match g[p.x]? with
  | none => g
  | some column => g.set p.x (column.set p.y node)

/-- `std::vector::resize`. -/
def resize {α : Type} (v : List α) (n : Nat) (fresh : α) : List α :=
  v.take n ++ List.replicate (n - v.length) fresh

/-! ## Floating point -/

/-- The integer nearest to a rational, the even one of the two on a tie. -/
def roundHalfEven (r : ℚ) : ℤ :=
  if r - ⌊r⌋ < 1 / 2 then ⌊r⌋
  else if 1 / 2 < r - ⌊r⌋ then ⌊r⌋ + 1
  else if ⌊r⌋ % 2 = 0 then ⌊r⌋ else ⌊r⌋ + 1

/-- The power `2 ^ z` of an integer exponent, computed on natural numbers. -/
def pow2 (z : ℤ) : ℚ :=
  if 0 ≤ z then ((2 ^ z.toNat : ℕ) : ℚ) else 1 / ((2 ^ (-z).toNat : ℕ) : ℚ)

/-- The number of halvings that take `n` below two, at most `fuel` of them. -/
def log2Fuel : ℕ → ℕ → ℕ
  | 0, _ => 0
  | fuel + 1, n => if 2 ≤ n then log2Fuel fuel (n / 2) + 1 else 0

/-- The binary logarithm of a positive natural number, rounded down. -/
def log2 (n : ℕ) : ℕ := log2Fuel n n

/-- The binary exponent of a nonzero rational `q`: the `e` with `2 ^ e ≤ |q| < 2 ^ (e + 1)`. -/
def binaryExponent (q : ℚ) : ℤ :=
  if q.den * 2 ^ log2 q.num.natAbs ≤ q.num.natAbs * 2 ^ log2 q.den
  then (log2 q.num.natAbs : ℤ) - log2 q.den
  else (log2 q.num.natAbs : ℤ) - log2 q.den - 1

/-- IEEE 754 rounding to the nearest value of a binary format with `prec` significant bits
and least normal exponent `emin`, ties to the even significand.  Overflow is left out: the
values of this program stay below `2 ^ 39`. -/
def binaryRound (prec : ℕ) (emin : ℤ) (q : ℚ) : ℚ :=
  if q = 0 then 0
  else roundHalfEven (q / pow2 (max (binaryExponent q) emin - (prec - 1)))
    * pow2 (max (binaryExponent q) emin - (prec - 1))

/-- The `double` nearest to a number (binary64). -/
def toDouble (q : ℚ) : ℚ := binaryRound 53 (-1022) q

/-- The `float` nearest to a number (binary32). -/
def toFloat (q : ℚ) : ℚ := binaryRound 24 (-126) q

/-- The conversion of an `unsigned int` operand to `float`. -/
def ofUnsigned (n : Nat) : ℚ := toFloat n

/-- `a * b` on `float`. -/
def fmul (a b : ℚ) : ℚ := toFloat (a * b)

/-- `a + b` on `float`. -/
def fadd (a b : ℚ) : ℚ := toFloat (a + b)

/-- `a - b` on `float`. -/
def fsub (a b : ℚ) : ℚ := toFloat (a - b)

/-! ## Geometry -/

/-- `constexpr float nodeSize = 50;`. -/
def nodeSize : ℚ := toFloat 50

/-- `constexpr float corridorWidthFactor = 0.4;`: the literal is a `double`, converted to
`float`. -/
def corridorWidthFactor : ℚ := toFloat (toDouble (2 / 5))

/-- `maze.append(sf::Vector2f(px, py))`: the vertex is built from its position alone. -/
def vertexAt (px py : ℚ) : Vertex := { position := (px, py) }

/-- `c * nodeSize - nodeSize * corridorWidthFactor` for an `unsigned int` coordinate `c`. -/
def lowEdge (c : Nat) : ℚ :=
  fsub (fmul (ofUnsigned c) nodeSize) (fmul nodeSize corridorWidthFactor)

/-- `c * nodeSize + nodeSize * corridorWidthFactor` for an `unsigned int` coordinate `c`. -/
def highEdge (c : Nat) : ℚ :=
  fadd (fmul (ofUnsigned c) nodeSize) (fmul nodeSize corridorWidthFactor)

/-- The quad of a cell (lines 73-76). -/
def nodeQuad (position : Vector2u) : List Vertex :=
  [ vertexAt (lowEdge position.x) (lowEdge position.y),
    vertexAt (highEdge position.x) (lowEdge position.y),
    vertexAt (highEdge position.x) (highEdge position.y),
    vertexAt (lowEdge position.x) (highEdge position.y) ]

/-- The first `switch` of `exploreNode` (lines 98-113). -/
def nextPositionOf (position : Vector2u) (randomDirection : Nat) : Vector2u :=
  if randomDirection = Up then { position with y := decU32 position.y }
  else if randomDirection = Down then { position with y := incU32 position.y }
  else if randomDirection = Left then { position with x := decU32 position.x }
  else if randomDirection = Right then { position with x := incU32 position.x }
  else position

/-- The second `switch` of `exploreNode` (lines 117-143): the quad of a connection. -/
def connectionQuad (position nextPosition : Vector2u) (randomDirection : Nat) : List Vertex :=
  if randomDirection = Up then
    [ vertexAt (lowEdge position.x) (highEdge nextPosition.y),
      vertexAt (highEdge position.x) (highEdge nextPosition.y),
      vertexAt (highEdge position.x) (lowEdge position.y),
      vertexAt (lowEdge position.x) (lowEdge position.y) ]
  else if randomDirection = Down then
    [ vertexAt (lowEdge position.x) (highEdge position.y),
      vertexAt (highEdge position.x) (highEdge position.y),
      vertexAt (highEdge position.x) (lowEdge nextPosition.y),
      vertexAt (lowEdge position.x) (lowEdge nextPosition.y) ]
  else if randomDirection = Left then
    [ vertexAt (highEdge nextPosition.x) (highEdge position.y),
      vertexAt (lowEdge position.x) (highEdge position.y),
      vertexAt (lowEdge position.x) (lowEdge position.y),
      vertexAt (highEdge nextPosition.x) (lowEdge position.y) ]
  else if randomDirection = Right then
    [ vertexAt (highEdge position.x) (highEdge position.y),
      vertexAt (lowEdge nextPosition.x) (highEdge position.y),
      vertexAt (lowEdge nextPosition.x) (lowEdge position.y),
      vertexAt (highEdge position.x) (lowEdge position.y) ]
  else []

/-! ## The operations of `Maze.cpp` -/

/-- One test of `getUnvisitedNeighbours`: `if (!mazeNodes[p.x][p.y]->visited) acc |= bit`. -/
def probe (g : List (List MazeNode)) (p : Vector2u) (bit acc : Nat) : Except Fault Nat :=
  match nodeAt g p with
  | .error e => .error e
  | .ok node => .ok (if node.visited then acc else acc ||| bit)

/-- `Maze::getUnvisitedNeighbours` (lines 159-201). -/
def getUnvisitedNeighbours (g : List (List MazeNode)) (position : Vector2u) :
    Except Fault Nat :=
  match (if position.y ≠ 0 then probe g ⟨position.x, position.y - 1⟩ Up 0 else .ok 0) with
  | .error e => .error e
  | .ok a1 =>
    match g[position.x]? with
    | none => .error .outOfRange
    | some column =>
      match (if position.y < sizeMinusOne column.length
              then probe g ⟨position.x, incU32 position.y⟩ Down a1 else .ok a1) with
      | .error e => .error e
      | .ok a2 =>
        match (if position.x ≠ 0 then probe g ⟨position.x - 1, position.y⟩ Left a2
                else .ok a2) with
        | .error e => .error e
        | .ok a3 =>
          if position.x < sizeMinusOne g.length
          then probe g ⟨incU32 position.x, position.y⟩ Right a3 else .ok a3

/-- `Maze::getAvailableDirections` (lines 203-206).  For a position outside the grid the
read `mazeNodes[pos.x][pos.y]` is unchecked: `Fault.outOfRange` marks that the access was
reached, not what the call then returns. -/
def getAvailableDirections (m : Maze) (pos : Vector2u) : Except Fault Nat :=
  match nodeAt m.mazeNodes pos with
  | .error e => .error e
  | .ok node => .ok node.availableDirections

/-- `Maze::getRandomDirection` (lines 208-211): `1 << randomDistribution(randomEngine)`. -/
def getRandomDirection (R : RandomLib) (m : Maze) : Nat × Maze :=
  let r := R.sample m.randomDistribution.1 m.randomDistribution.2 m.randomEngine
  (1 <<< r.1, { m with randomEngine := r.2, trace := m.trace ++ [Event.draw (1 <<< r.1)] })

/-- The inner loop of `exploreNode` (lines 91-95), entered with the direction drawn at
line 89: redraw until the direction meets `availableNeighbours`. -/
def redraw (R : RandomLib) (availableNeighbours : Nat) : Nat → Nat × Maze → Except Fault (Nat × Maze)
  | fuel, (randomDirection, m) =>
    if randomDirection &&& availableNeighbours ≠ 0 then .ok (randomDirection, m)
    else match fuel with
      | 0 => .error .outOfFuel
      | fuel + 1 => redraw R availableNeighbours fuel (getRandomDirection R m)

/-- The head of `exploreNode` (lines 69-76): mark the cell visited and append its quad. -/
def visit (m : Maze) (position : Vector2u) (thisNode : MazeNode) : Maze :=
  { m with
    mazeNodes := setNode m.mazeNodes position { thisNode with visited := true }
    maze := m.maze ++ nodeQuad position
    trace := m.trace ++ [Event.enter position] }

/-- The test of line 79: is `position` the exit node?  The right operand of `&&` is
evaluated only when the left one holds. -/
def isExit (g : List (List MazeNode)) (position : Vector2u) : Except Fault Bool :=
  if position.x = sizeMinusOne g.length then
    match g[sizeMinusOne g.length]? with
    | none => .error .outOfRange
    | some column => .ok (decide (position.y = sizeMinusOne column.length))
  else .ok false

/-- One carving (lines 97-149): the next position, the connection quad and the two
direction bits.  Returns the next position with the new state. -/
def carve (m : Maze) (position : Vector2u) (randomDirection : Nat) :
    Except Fault (Vector2u × Maze) :=
  let nextPosition := nextPositionOf position randomDirection
  let quad := connectionQuad position nextPosition randomDirection
  match nodeAt m.mazeNodes position with
  | .error e => .error e
  | .ok thisNode =>
    let g1 := setNode m.mazeNodes position
      { thisNode with availableDirections := thisNode.availableDirections ||| randomDirection }
    match nodeAt g1 nextPosition with
    | .error e => .error e
    | .ok nextNode =>
      let g2 := setNode g1 nextPosition
        { nextNode with availableDirections :=
            nextNode.availableDirections ||| getOppositeDirection randomDirection }
      .ok (nextPosition,
        { m with
          mazeNodes := g2
          maze := m.maze ++ quad
          trace := m.trace ++ [Event.carve position randomDirection nextPosition] })

mutual

/-- `Maze::exploreNode` (lines 66-157). -/
def exploreNode (R : RandomLib) : Nat → Vector2u → Maze → Except Fault Maze
  | 0, _, _ => .error .outOfFuel
  | fuel + 1, position, m =>
    match nodeAt m.mazeNodes position with
    | .error e => .error e
    | .ok thisNode =>
      let m1 := visit m position thisNode
      match isExit m1.mazeNodes position with
      | .error e => .error e
      | .ok true => .ok m1
      | .ok false => exploreLoop R fuel position m1

/-- The loop `while (availableNeighbours)` of `exploreNode` (lines 84-156), from the
computation of `availableNeighbours` on. -/
def exploreLoop (R : RandomLib) : Nat → Vector2u → Maze → Except Fault Maze
  | 0, _, _ => .error .outOfFuel
  | fuel + 1, position, m =>
    match getUnvisitedNeighbours m.mazeNodes position with
    | .error e => .error e
    | .ok availableNeighbours =>
      let m0 := { m with trace := m.trace ++ [Event.test position availableNeighbours] }
      if availableNeighbours = 0 then .ok m0
      else
        match redraw R availableNeighbours fuel (getRandomDirection R m0) with
        | .error e => .error e
        | .ok (randomDirection, m1) =>
          match carve m1 position randomDirection with
          | .error e => .error e
          | .ok (nextPosition, m2) =>
            match exploreNode R fuel nextPosition m2 with
            | .error e => .error e
            | .ok m3 => exploreLoop R fuel position m3

end

/-- `Maze::generate` (lines 12-40). -/
def generate (R : RandomLib) (fuel : Nat) (m : Maze) (size : Vector2u) (seed : Int) :
    Except Fault Maze :=
  let mazeNodes := (resize m.mazeNodes size.x []).map fun column =>
    (resize column size.y {}).map fun _ => ({} : MazeNode)
  let m1 : Maze :=
    { mazeNodes := mazeNodes
      randomEngine := R.seed seed
      randomDistribution := (0, 4)
      maze := []
      trace := [] }
  match exploreNode R fuel ⟨0, 0⟩ m1 with
  | .error e => .error e
  | .ok m2 => .ok { m2 with maze := m2.maze.map fun v => { v with texCoords := v.position } }

/-- `Maze::regenerate` (lines 42-46). -/
def regenerate (R : RandomLib) (fuel : Nat) (m : Maze) : Except Fault Maze :=
  match m.mazeNodes[0]? with
  | none => .error .outOfRange
  | some column =>
    let r := R.sample 0 4294967295 m.randomEngine
    generate R fuel { m with randomDistribution := (0, 4294967295), randomEngine := r.2 }
      ⟨m.mazeNodes.length % 4294967296, column.length % 4294967296⟩ (toInt32 r.1)

/-- A small random library to run the embedding on: the engine state is a counter and a
draw from `lo..hi` is `lo + e mod (hi - lo + 1)`. -/
def counterLib : RandomLib where
  seed s := s.toNat
  sample lo hi e := (lo + e % (hi - lo + 1), e + 1)
  sample_range lo hi e h := by
    have := Nat.mod_lt e (Nat.succ_pos (hi - lo))
    simp only [Nat.succ_eq_add_one] at this
    constructor <;> simp only <;> omega

/-! ## Specification vocabulary -/

/-- The grid is a rectangle of `w` columns of `h` nodes. -/
def Rect (w h : Nat) (g : List (List MazeNode)) : Prop :=
  g.length = w ∧ ∀ column ∈ g, column.length = h

/-- The position lies inside a `w × h` grid. -/
def InGrid (w h : Nat) (p : Vector2u) : Prop := p.x < w ∧ p.y < h

instance (w h : Nat) (p : Vector2u) : Decidable (InGrid w h p) := by
  unfold InGrid; infer_instance

/-- The `visited` flag of a cell (false outside the grid). -/
def visitedAt (g : List (List MazeNode)) (p : Vector2u) : Bool :=
  match nodeAt g p with
  | .ok node => node.visited
  | .error _ => false

/-- The `availableDirections` of a cell (empty outside the grid). -/
def dirsAt (g : List (List MazeNode)) (p : Vector2u) : Nat :=
  match nodeAt g p with
  | .ok node => node.availableDirections
  | .error _ => 0

/-- Dimensions a caller can pass as an `sf::Vector2u` with both extents at least one. -/
def Dim (w h : Nat) : Prop := 1 ≤ w ∧ w < 4294967296 ∧ 1 ≤ h ∧ h < 4294967296

instance (w h : Nat) : Decidable (Dim w h) := by
  unfold Dim; infer_instance

/-- The state `exploreNode` runs on: a `w × h` grid and the distribution set by `generate`. -/
structure Shape (w h : Nat) (m : Maze) : Prop where
  dim : Dim w h
  rect : Rect w h m.mazeNodes
  dist : m.randomDistribution = (0, 4)

/-- The exit cell `(w - 1, h - 1)`. -/
def exitOf (w h : Nat) : Vector2u := ⟨w - 1, h - 1⟩

/-- The four direction bits. -/
def directions : List Nat := [Up, Down, Left, Right]

/-- The neighbour of a cell in a direction, on the unbounded quarter plane. -/
def neighbourOf (p : Vector2u) (d : Nat) : Option Vector2u :=
  if d = Up then (if p.y = 0 then none else some ⟨p.x, p.y - 1⟩)
  else if d = Down then some ⟨p.x, p.y + 1⟩
  else if d = Left then (if p.x = 0 then none else some ⟨p.x - 1, p.y⟩)
  else if d = Right then some ⟨p.x + 1, p.y⟩
  else none

/-- The bit `d` if the neighbour of `p` in direction `d` is an unvisited cell of the
grid, and `0` otherwise. -/
def unvisitedBit (w h : Nat) (g : List (List MazeNode)) (p : Vector2u) (d : Nat) : Nat :=
  match neighbourOf p d with
  | some n => if InGrid w h n ∧ visitedAt g n = false then d else 0
  | none => 0

/-- The mask of the directions that lead from `p` to an unvisited cell of the grid. -/
def unvisitedMask (w h : Nat) (g : List (List MazeNode)) (p : Vector2u) : Nat :=
  unvisitedBit w h g p Up ||| unvisitedBit w h g p Down
    ||| unvisitedBit w h g p Left ||| unvisitedBit w h g p Right

/-- The grid after `mazeNodes[p.x][p.y]->visited = true`. -/
def markVisited (g : List (List MazeNode)) (p : Vector2u) : List (List MazeNode) :=
  match nodeAt g p with
  | .ok node => setNode g p { node with visited := true }
  | .error _ => g

/-- The grid after `mazeNodes[p.x][p.y]->availableDirections |= d`. -/
def openDirection (g : List (List MazeNode)) (p : Vector2u) (d : Nat) : List (List MazeNode) :=
  match nodeAt g p with
  | .ok node => setNode g p { node with availableDirections := node.availableDirections ||| d }
  | .error _ => g

/-- The two phases of `exploreNode`: the whole call, and its `while` loop. -/
inductive Phase where
  | node
  | loop
  deriving DecidableEq, Repr

/-- The runs of `exploreNode` (phase `node`) and of its loop (phase `loop`) on `w × h`
grids, as a derivation: `Run R w h k position m m'` says that the phase `k`, started at
`position` in state `m`, returns in state `m'`. -/
inductive Run (R : RandomLib) (w h : Nat) : Phase → Vector2u → Maze → Maze → Prop
  | exit {position : Vector2u} {m : Maze} {thisNode : MazeNode} :
      Shape w h m → InGrid w h position → nodeAt m.mazeNodes position = .ok thisNode →
      position = exitOf w h → Run R w h .node position m (visit m position thisNode)
  | inner {position : Vector2u} {m m' : Maze} {thisNode : MazeNode} :
      Shape w h m → InGrid w h position → nodeAt m.mazeNodes position = .ok thisNode →
      position ≠ exitOf w h → Run R w h .loop position (visit m position thisNode) m' →
      Run R w h .node position m m'
  | done {position : Vector2u} {m : Maze} :
      Shape w h m → InGrid w h position → unvisitedMask w h m.mazeNodes position = 0 →
      Run R w h .loop position m { m with trace := m.trace ++ [Event.test position 0] }
  | step {position nextPosition : Vector2u} {m m1 m2 m3 m' : Maze} {d : Nat} (fuel : Nat) :
      Shape w h m → InGrid w h position → unvisitedMask w h m.mazeNodes position ≠ 0 →
      redraw R (unvisitedMask w h m.mazeNodes position) fuel
        (getRandomDirection R { m with trace := m.trace ++
          [Event.test position (unvisitedMask w h m.mazeNodes position)] }) = .ok (d, m1) →
      carve m1 position d = .ok (nextPosition, m2) →
      Run R w h .node nextPosition m2 m3 → Run R w h .loop position m3 m' →
      Run R w h .loop position m m'

/-- What the redraw loop of `exploreNode` establishes: from state `m` it leaves the
direction `d`, a single bit that meets `availableNeighbours`, and the state `m1`, in which
only the engine has advanced. -/
structure Drawn (availableNeighbours : Nat) (m : Maze) (d : Nat) (m1 : Maze) : Prop where
  hit : d &&& availableNeighbours ≠ 0
  bit : ∃ k, k ≤ 4 ∧ d = 1 <<< k
  nodes : m1.mazeNodes = m.mazeNodes
  maze : m1.maze = m.maze
  dist : m1.randomDistribution = m.randomDistribution
  trace : ∃ ds : List Nat, m1.trace = m.trace ++ ds.map Event.draw ∧
    ∀ v ∈ ds, ∃ k, k ≤ 4 ∧ v = 1 <<< k

/-- The state after one carving from `position` in direction `d` to `n`. -/
def carved (m : Maze) (position : Vector2u) (d : Nat) (n : Vector2u) : Maze :=
  { m with
    mazeNodes := openDirection (openDirection m.mazeNodes position d) n (getOppositeDirection d)
    maze := m.maze ++ connectionQuad position n d
    trace := m.trace ++ [Event.carve position d n] }

/-- What one iteration of the loop of `exploreNode` does up to its recursive call: from
state `m` at `p` it carves in direction `d` to the unvisited cell `n`, leaving `m2`. -/
structure Carving (w h : Nat) (p : Vector2u) (m : Maze) (d : Nat) (n : Vector2u) (m2 : Maze) :
    Prop where
  dir : d ∈ directions
  nb : neighbourOf p d = some n
  inGrid : InGrid w h n
  fresh : visitedAt m.mazeNodes n = false
  nodes : m2.mazeNodes =
    openDirection (openDirection m.mazeNodes p d) n (getOppositeDirection d)
  maze : m2.maze = m.maze ++ connectionQuad p n d
  dist : m2.randomDistribution = m.randomDistribution
  trace : ∃ ds : List Nat, m2.trace = m.trace ++
      (Event.test p (unvisitedMask w h m.mazeNodes p) :: ds.map Event.draw) ++
      [Event.carve p d n] ∧ ∀ v ∈ ds, ∃ k, k ≤ 4 ∧ v = 1 <<< k

/-- Every in-grid neighbour of the cell is visited. -/
def Closed (w h : Nat) (g : List (List MazeNode)) (c : Vector2u) : Prop :=
  ∀ d ∈ directions, ∀ n, neighbourOf c d = some n → InGrid w h n → visitedAt g n = true

/-- The cells of a `w × h` grid. -/
def cells (w h : Nat) : Finset Vector2u :=
  (Finset.range w ×ˢ Finset.range h).image fun c => ⟨c.1, c.2⟩

/-- The number of cells of the grid that are not visited. -/
def unvisitedCount (w h : Nat) (g : List (List MazeNode)) : Nat :=
  ((cells w h).filter fun c => visitedAt g c = false).card

/-- The engine state after `n` draws of the distribution set by `generate`. -/
def engineAfter (R : RandomLib) (n : Nat) (e : Nat) : Nat :=
  (fun s => (R.sample 0 4 s).2)^[n] e

/-- The random library is fair: from every engine state, each of the four exponents
`0, 1, 2, 3` is drawn after finitely many draws. -/
def Fair (R : RandomLib) : Prop :=
  ∀ e k, k < 4 → ∃ n, (R.sample 0 4 (engineAfter R n e)).1 = k

/-- The state in which `generate` calls `exploreNode`: a fresh `w × h` grid, the engine
seeded, the distribution over `0..4`, no vertex and no event. -/
def initial (R : RandomLib) (w h : Nat) (seed : Int) : Maze :=
  { mazeNodes := List.replicate w (List.replicate h {})
    randomEngine := R.seed seed
    randomDistribution := (0, 4)
    maze := []
    trace := [] }

/-- The last loop of `generate` (lines 36-39): every vertex gets its position as
texture coordinates. -/
def withTexCoords (m : Maze) : Maze :=
  { m with maze := m.maze.map fun v => { v with texCoords := v.position } }

/-- The cells on which `exploreNode` was called, in the order of the calls. -/
def entered : List Event → List Vector2u
  | [] => []
  | Event.enter p :: t => p :: entered t
  | _ :: t => entered t

/-- The symmetry invariant of the grid: every open direction of a cell leads to a cell of
the grid in which the opposite direction is open. -/
def Symmetric (w h : Nat) (g : List (List MazeNode)) : Prop :=
  ∀ c, ∀ d ∈ directions, dirsAt g c &&& d ≠ 0 →
    ∃ n, neighbourOf c d = some n ∧ InGrid w h n ∧ dirsAt g n &&& getOppositeDirection d ≠ 0

/-- Only direction bits are set in the `availableDirections` of the cells. -/
def OnlyDirections (g : List (List MazeNode)) : Prop := ∀ c, dirsAt g c < 16

/-- The position of a vertex of the maze graph. -/
def cellPos {w h : Nat} (a : Fin w × Fin h) : Vector2u := ⟨a.1, a.2⟩

/-- An open-direction bit of cell `a` leads to cell `b`. -/
def Open (g : List (List MazeNode)) (a b : Vector2u) : Prop :=
  ∃ d ∈ directions, dirsAt g a &&& d ≠ 0 ∧ neighbourOf a d = some b

instance (g : List (List MazeNode)) (a b : Vector2u) : Decidable (Open g a b) := by
  unfold Open; infer_instance

/-- The undirected graph on the cells of the grid whose edges are the open-direction bits. -/
def mazeGraph (w h : Nat) (g : List (List MazeNode)) : SimpleGraph (Fin w × Fin h) :=
  SimpleGraph.fromRel fun a b => Open g (cellPos a) (cellPos b)

instance (w h : Nat) (g : List (List MazeNode)) : DecidableRel (mazeGraph w h g).Adj :=
  fun a b => inferInstanceAs
    (Decidable (a ≠ b ∧ (Open g (cellPos a) (cellPos b) ∨ Open g (cellPos b) (cellPos a))))

/-- The invariant of carving: the open directions are symmetric, the maze graph has no
cycle, every cell with an open direction is live, and any two live cells are joined by a
path of the maze graph.  The live cells are the visited ones and, between a carving and
the call that follows, the cell carved into. -/
structure Forest (w h : Nat) (g : List (List MazeNode)) (live : Vector2u → Prop) : Prop where
  sym : Symmetric w h g
  acyclic : (mazeGraph w h g).IsAcyclic
  open_live : ∀ c, dirsAt g c ≠ 0 → live c
  reach : ∀ a b : Fin w × Fin h, live (cellPos a) → live (cellPos b) →
    (mazeGraph w h g).Reachable a b

/-- The cell at which an event of the loop of `exploreNode` happens: the cell whose
neighbours are tested, or out of which an edge is carved. -/
def Event.source : Event → Option Vector2u
  | Event.test p _ => some p
  | Event.carve p _ _ => some p
  | _ => none

/-- The properties of a maze carved on a `w × h` grid. -/
structure Carved (w h : Nat) (m : Maze) : Prop where
  rect : Rect w h m.mazeNodes
  visited : ∀ c, InGrid w h c → visitedAt m.mazeNodes c = true
  symmetric : Symmetric w h m.mazeNodes
  onlyDirections : OnlyDirections m.mazeNodes
  tree : (mazeGraph w h m.mazeNodes).IsTree
  length : m.maze.length = 4 * (w * h + w * h - 1)
  entered_nodup : (entered m.trace).Nodup
  entered_cells : ∀ c, c ∈ entered m.trace ↔ InGrid w h c
  exit_leaf : ∀ e ∈ m.trace, e.source ≠ some (exitOf w h)
  texCoords : ∀ v ∈ m.maze, v.texCoords = v.position

/-- The edges carved, in the order of the carvings: source cell, direction, target cell. -/
def carvings : List Event → List (Vector2u × Nat × Vector2u)
  | [] => []
  | Event.carve p d n :: t => (p, d, n) :: carvings t
  | _ :: t => carvings t

/-- Every carving of the trace goes to the neighbour in the carved direction, which is a
cell of the grid that `exploreNode` was not called on before. -/
def CarvesFresh (w h : Nat) (t : List Event) : Prop :=
  ∀ pre post p d n, t = pre ++ Event.carve p d n :: post →
    d ∈ directions ∧ neighbourOf p d = some n ∧ nextPositionOf p d = n ∧ InGrid w h n ∧
      n ∉ entered pre

/-- `Maze::getNodeSize` (lines 56-59). -/
def getNodeSize : ℚ := nodeSize

/-- The largest cell coordinate whose edges `50 c ± 20` the `float` computation yields
exactly: `50 * 671088 + 20` is below `2 ^ 25`, and from `671089` on the products
`c * nodeSize` are rounded. -/
def maxExactCell : Nat := 671088

/-- The points of a quad, in order. -/
def points (quad : List Vertex) : List (ℚ × ℚ) := quad.map fun v => v.position

/-- The point lies in the closed bounding box of the quad (for an axis-aligned rectangle:
in the rectangle, border included). -/
def Covers (quad : List Vertex) (pt : ℚ × ℚ) : Prop :=
  (∃ v ∈ quad, v.position.1 ≤ pt.1) ∧ (∃ v ∈ quad, pt.1 ≤ v.position.1) ∧
    (∃ v ∈ quad, v.position.2 ≤ pt.2) ∧ (∃ v ∈ quad, pt.2 ≤ v.position.2)

/-- The point lies strictly inside the bounding box of the quad. -/
def Inside (quad : List Vertex) (pt : ℚ × ℚ) : Prop :=
  (∃ v ∈ quad, v.position.1 < pt.1) ∧ (∃ v ∈ quad, pt.1 < v.position.1) ∧
    (∃ v ∈ quad, v.position.2 < pt.2) ∧ (∃ v ∈ quad, pt.2 < v.position.2)

/-- The carvings of the trace that go into the cell `c`. -/
def carvingsInto (c : Vector2u) (t : List Event) : List (Vector2u × Nat × Vector2u) :=
  (carvings t).filter fun e => decide (e.2.2 = c)

/-- The state of the exit cell during carving: either it is untouched (not visited, no
open direction, no carving into it), or it is visited and the one carving into it has
left the opposite of its direction as the only open direction of the cell. -/
def ExitEntered (w h : Nat) (m : Maze) : Prop :=
  (visitedAt m.mazeNodes (exitOf w h) = false ∧ dirsAt m.mazeNodes (exitOf w h) = 0 ∧
      carvingsInto (exitOf w h) m.trace = []) ∨
    (visitedAt m.mazeNodes (exitOf w h) = true ∧ ∃ p d, d ∈ directions ∧
      carvingsInto (exitOf w h) m.trace = [(p, d, exitOf w h)] ∧
      dirsAt m.mazeNodes (exitOf w h) = getOppositeDirection d)

/-- Every neighbour test recorded in the trace found at most one direction available. -/
def SingleBitTests (t : List Event) : Prop :=
  ∀ p a, Event.test p a ∈ t → a = 0 ∨ a ∈ directions

/-- The vertex buffer read as `sf::Quads`: consecutive groups of four vertices. -/
def quadsOf : List Vertex → List (List Vertex)
  | a :: b :: c :: d :: rest => [a, b, c, d] :: quadsOf rest
  | _ => []

/-- The quads of the vertex buffer as a multiset, each quad being its four points in
order. -/
def bufferQuads (maze : List Vertex) : Multiset (List (ℚ × ℚ)) :=
  Multiset.ofList ((quadsOf maze).map points)

/-- The connector quad between the cell `c` and its neighbour in direction `d`, if the
cell has one. -/
def connectorAt (c : Vector2u) (d : Nat) : Multiset (List (ℚ × ℚ)) :=
  match neighbourOf c d with
  | some n => {points (connectionQuad c n d)}
  | none => 0

/-- The connector quads of the cell `c` whose open directions are `dirs`: one for each of
the directions `Up` and `Left` whose bit is set. -/
def connectorsOf (c : Vector2u) (dirs : Nat) : Multiset (List (ℚ × ℚ)) :=
  (if dirs &&& Up ≠ 0 then connectorAt c Up else 0) +
    (if dirs &&& Left ≠ 0 then connectorAt c Left else 0)

/-- The connector quads of a grid: those of all its cells. -/
def connectors (w h : Nat) (g : List (List MazeNode)) : Multiset (List (ℚ × ℚ)) :=
  (cells w h).val.bind fun c => connectorsOf c (dirsAt g c)

/-- The quads emitted from the final grid alone, as the spec describes it: one body quad
per cell, and for every cell and every direction in `{Up, Left}` whose bit is set in the
`availableDirections` of the cell, the connector quad between the cell and its neighbour
in that direction. -/
def gridQuads (w h : Nat) (g : List (List MazeNode)) : Multiset (List (ℚ × ℚ)) :=
  (cells w h).val.map (fun c => points (nodeQuad c)) + connectors w h g

/-- The quads appended to the vertex buffer by the events of a trace, in order. -/
def emitted : List Event → List (List Vertex)
  | [] => []
  | Event.enter p :: t => nodeQuad p :: emitted t
  | Event.carve p d n :: t => connectionQuad p n d :: emitted t
  | _ :: t => emitted t

/-- The connector quads appended by the carvings of a trace. -/
def carvedQuads (t : List Event) : Multiset (List (ℚ × ℚ)) :=
  Multiset.ofList ((carvings t).map fun e => points (connectionQuad e.1 e.2.2 e.2.1))

/-! ### End of the definitions -/

/-! ## Grid lemmas -/

theorem nodeAt_of_inGrid {w h : Nat} {g : List (List MazeNode)} {p : Vector2u}
    (hg : Rect w h g) (hp : InGrid w h p) : ∃ node, nodeAt g p = .ok node := by
  obtain ⟨hlen, hcol⟩ := hg
  obtain ⟨hx, hy⟩ := hp
  have hx' : p.x < g.length := by omega
  have hc : (g[p.x]).length = h := hcol _ (List.getElem_mem hx')
  have hy' : p.y < (g[p.x]).length := by omega
  refine ⟨(g[p.x])[p.y], ?_⟩
  simp [nodeAt, List.getElem?_eq_getElem hx', List.getElem?_eq_getElem hy']

theorem inGrid_of_nodeAt {w h : Nat} {g : List (List MazeNode)} {p : Vector2u} {node : MazeNode}
    (hg : Rect w h g) (hp : nodeAt g p = .ok node) : InGrid w h p := by
  obtain ⟨hlen, hcol⟩ := hg
  unfold nodeAt at hp
  split at hp
  · cases hp
  · rename_i column hc
    split at hp
    · cases hp
    · rename_i n hn
      have h1 := List.getElem?_eq_some_iff.mp hc
      have h2 := List.getElem?_eq_some_iff.mp hn
      obtain ⟨hx, hxe⟩ := h1
      obtain ⟨hy, _⟩ := h2
      have := hcol column (hxe ▸ List.getElem_mem hx)
      exact ⟨by omega, by omega⟩

theorem rect_setNode {w h : Nat} {g : List (List MazeNode)} (p : Vector2u) (node : MazeNode)
    (hg : Rect w h g) : Rect w h (setNode g p node) := by
  obtain ⟨hlen, hcol⟩ := hg
  unfold setNode
  split
  · exact ⟨hlen, hcol⟩
  · rename_i column hc
    refine ⟨by simpa using hlen, ?_⟩
    intro c hcmem
    rcases List.mem_or_eq_of_mem_set hcmem with h1 | h1
    · exact hcol c h1
    · have h1' := List.getElem?_eq_some_iff.mp hc
      obtain ⟨hx, hxe⟩ := h1'
      have := hcol column (hxe ▸ List.getElem_mem hx)
      simp [h1, this]

theorem nodeAt_setNode_self {g : List (List MazeNode)} {p : Vector2u} {n0 : MazeNode}
    (node : MazeNode) (hp : nodeAt g p = .ok n0) : nodeAt (setNode g p node) p = .ok node := by
  unfold nodeAt at hp
  split at hp
  · cases hp
  · rename_i column hc
    split at hp
    · cases hp
    · rename_i n hn
      obtain ⟨hx, hxe⟩ := List.getElem?_eq_some_iff.mp hc
      obtain ⟨hy, _⟩ := List.getElem?_eq_some_iff.mp hn
      simp [nodeAt, setNode, hc, hx, hy]

theorem nodeAt_setNode_ne {g : List (List MazeNode)} {p q : Vector2u}
    (node : MazeNode) (hne : q ≠ p) : nodeAt (setNode g p node) q = nodeAt g q := by
  unfold setNode
  split
  · rfl
  · rename_i column hc
    obtain ⟨hx, hxe⟩ := List.getElem?_eq_some_iff.mp hc
    by_cases hqx : p.x = q.x
    · have hqy : p.y ≠ q.y := by
        intro hqy; apply hne; cases p; cases q; simp_all
      simp only [nodeAt, List.getElem?_set, hqx, if_true]
      rw [← hqx]
      simp [hx, hc, List.getElem?_set, hqy]
    · simp [nodeAt, List.getElem?_set, hqx]

/-! ## Machine arithmetic without wrap-around -/

theorem sizeMinusOne_eq {n : Nat} (h1 : 1 ≤ n) : sizeMinusOne n = n - 1 := by
  unfold sizeMinusOne; rw [if_neg (by omega)]

theorem incU32_eq {v n : Nat} (h1 : v < n) (h2 : n < 4294967296) : incU32 v = v + 1 := by
  unfold incU32; omega

theorem decU32_eq {v : Nat} (h1 : v ≠ 0) : decU32 v = v - 1 := by
  unfold decU32; simp [h1]

/-! ## `getUnvisitedNeighbours` and the exit test -/

theorem visitedAt_of_nodeAt {g : List (List MazeNode)} {p : Vector2u} {node : MazeNode}
    (hp : nodeAt g p = .ok node) : visitedAt g p = node.visited := by
  simp [visitedAt, hp]

theorem dirsAt_of_nodeAt {g : List (List MazeNode)} {p : Vector2u} {node : MazeNode}
    (hp : nodeAt g p = .ok node) : dirsAt g p = node.availableDirections := by
  simp [dirsAt, hp]

theorem probe_eq {w h : Nat} {g : List (List MazeNode)} {p : Vector2u}
    (hg : Rect w h g) (hp : InGrid w h p) (bit acc : Nat) :
    probe g p bit acc = .ok (if visitedAt g p then acc else acc ||| bit) := by
  obtain ⟨node, hn⟩ := nodeAt_of_inGrid hg hp
  simp [probe, hn, visitedAt_of_nodeAt hn]

theorem column_of_rect {w h : Nat} {g : List (List MazeNode)} {x : Nat}
    (hg : Rect w h g) (hx : x < w) : ∃ column, g[x]? = some column ∧ column.length = h := by
  obtain ⟨hlen, hcol⟩ := hg
  have hx' : x < g.length := by omega
  exact ⟨g[x], List.getElem?_eq_getElem hx', hcol _ (List.getElem_mem hx')⟩

theorem getUnvisitedNeighbours_eq {w h : Nat} {g : List (List MazeNode)} {p : Vector2u}
    (hd : Dim w h) (hg : Rect w h g) (hp : InGrid w h p) :
    getUnvisitedNeighbours g p = .ok (unvisitedMask w h g p) := by
  obtain ⟨hw1, hw2, hh1, hh2⟩ := hd
  obtain ⟨hx, hy⟩ := hp
  obtain ⟨column, hc, hcl⟩ := column_of_rect hg hx
  have hlen : g.length = w := hg.1
  unfold getUnvisitedNeighbours
  rewrite [hc, hlen, sizeMinusOne_eq hw1]
  simp only [hcl, sizeMinusOne_eq hh1]
  -- up
  have e1 : (if p.y ≠ 0 then probe g ⟨p.x, p.y - 1⟩ Up 0 else Except.ok 0)
      = .ok (unvisitedBit w h g p Up) := by
    by_cases h0 : p.y = 0
    · simp [h0, unvisitedBit, neighbourOf]
    · have hin : InGrid w h ⟨p.x, p.y - 1⟩ := ⟨hx, by simp only; omega⟩
      rw [if_pos h0, probe_eq hg hin]
      cases hv : visitedAt g ⟨p.x, p.y - 1⟩ <;> simp [unvisitedBit, neighbourOf, h0, hin, hv]
  rw [e1]
  simp only
  have e2 : ∀ a, (if p.y < h - 1 then probe g ⟨p.x, incU32 p.y⟩ Down a else Except.ok a)
      = .ok (a ||| unvisitedBit w h g p Down) := by
    intro a
    by_cases h0 : p.y < h - 1
    · have hin : InGrid w h ⟨p.x, p.y + 1⟩ := ⟨hx, by simp only; omega⟩
      rw [if_pos h0, incU32_eq hy hh2, probe_eq hg hin]
      cases hv : visitedAt g ⟨p.x, p.y + 1⟩ <;>
        simp [unvisitedBit, neighbourOf, hin, hv, Up, Down]
    · have hin : ¬ InGrid w h ⟨p.x, p.y + 1⟩ := fun hh => h0 (by have := hh.2; simp only at this; omega)
      simp [h0, unvisitedBit, neighbourOf, hin, Up, Down]
  rw [e2]
  simp only
  have e3 : ∀ a, (if p.x ≠ 0 then probe g ⟨p.x - 1, p.y⟩ Left a else Except.ok a)
      = .ok (a ||| unvisitedBit w h g p Left) := by
    intro a
    by_cases h0 : p.x = 0
    · simp [h0, unvisitedBit, neighbourOf, Up, Down, Left]
    · have hin : InGrid w h ⟨p.x - 1, p.y⟩ := ⟨by simp only; omega, hy⟩
      rw [if_pos h0, probe_eq hg hin]
      cases hv : visitedAt g ⟨p.x - 1, p.y⟩ <;>
        simp [unvisitedBit, neighbourOf, h0, hin, hv, Up, Down, Left]
  rw [e3]
  simp only
  have e4 : ∀ a, (if p.x < w - 1 then probe g ⟨incU32 p.x, p.y⟩ Right a else Except.ok a)
      = .ok (a ||| unvisitedBit w h g p Right) := by
    intro a
    by_cases h0 : p.x < w - 1
    · have hin : InGrid w h ⟨p.x + 1, p.y⟩ := ⟨by simp only; omega, hy⟩
      rw [if_pos h0, incU32_eq hx hw2, probe_eq hg hin]
      cases hv : visitedAt g ⟨p.x + 1, p.y⟩ <;>
        simp [unvisitedBit, neighbourOf, hin, hv, Up, Down, Left, Right]
    · have hin : ¬ InGrid w h ⟨p.x + 1, p.y⟩ := fun hh => h0 (by have := hh.1; simp only at this; omega)
      simp [h0, unvisitedBit, neighbourOf, hin, Up, Down, Left, Right]
  rw [e4]
  simp [unvisitedMask]

theorem isExit_eq {w h : Nat} {g : List (List MazeNode)} (p : Vector2u)
    (hd : Dim w h) (hg : Rect w h g) : isExit g p = .ok (decide (p = exitOf w h)) := by
  obtain ⟨hw1, hw2, hh1, hh2⟩ := hd
  obtain ⟨column, hc, hcl⟩ := column_of_rect hg (show w - 1 < w by omega)
  unfold isExit
  rw [hg.1, sizeMinusOne_eq hw1, hc]
  simp only [hcl, sizeMinusOne_eq hh1]
  cases p with
  | mk x y =>
    by_cases h1 : x = w - 1 <;> simp [exitOf, h1]

/-! ## The grid after a write -/

theorem rect_markVisited {w h : Nat} {g : List (List MazeNode)} (p : Vector2u)
    (hg : Rect w h g) : Rect w h (markVisited g p) := by
  unfold markVisited
  split
  · exact rect_setNode _ _ hg
  · exact hg

theorem rect_openDirection {w h : Nat} {g : List (List MazeNode)} (p : Vector2u) (d : Nat)
    (hg : Rect w h g) : Rect w h (openDirection g p d) := by
  unfold openDirection
  split
  · exact rect_setNode _ _ hg
  · exact hg

theorem visitedAt_markVisited_self {w h : Nat} {g : List (List MazeNode)} {p : Vector2u}
    (hg : Rect w h g) (hp : InGrid w h p) : visitedAt (markVisited g p) p = true := by
  obtain ⟨node, hn⟩ := nodeAt_of_inGrid hg hp
  simp [markVisited, hn, visitedAt, nodeAt_setNode_self _ hn]

theorem visitedAt_markVisited_ne {g : List (List MazeNode)} {p q : Vector2u}
    (hne : q ≠ p) : visitedAt (markVisited g p) q = visitedAt g q := by
  unfold markVisited
  split
  · simp [visitedAt, nodeAt_setNode_ne _ hne]
  · rfl

theorem dirsAt_markVisited (g : List (List MazeNode)) (p q : Vector2u) :
    dirsAt (markVisited g p) q = dirsAt g q := by
  unfold markVisited
  split
  · rename_i node hn
    by_cases hq : q = p
    · subst hq
      simp [dirsAt, hn, nodeAt_setNode_self _ hn]
    · simp [dirsAt, nodeAt_setNode_ne _ hq]
  · rfl

theorem visitedAt_openDirection (g : List (List MazeNode)) (p q : Vector2u) (d : Nat) :
    visitedAt (openDirection g p d) q = visitedAt g q := by
  unfold openDirection
  split
  · rename_i node hn
    by_cases hq : q = p
    · subst hq
      simp [visitedAt, hn, nodeAt_setNode_self _ hn]
    · simp [visitedAt, nodeAt_setNode_ne _ hq]
  · rfl

theorem dirsAt_openDirection_self {w h : Nat} {g : List (List MazeNode)} {p : Vector2u}
    (d : Nat) (hg : Rect w h g) (hp : InGrid w h p) :
    dirsAt (openDirection g p d) p = dirsAt g p ||| d := by
  obtain ⟨node, hn⟩ := nodeAt_of_inGrid hg hp
  simp [openDirection, hn, dirsAt, nodeAt_setNode_self _ hn]

theorem dirsAt_openDirection_ne {g : List (List MazeNode)} {p q : Vector2u} (d : Nat)
    (hne : q ≠ p) : dirsAt (openDirection g p d) q = dirsAt g q := by
  unfold openDirection
  split
  · simp [dirsAt, nodeAt_setNode_ne _ hne]
  · rfl

theorem visitedAt_inGrid {w h : Nat} {g : List (List MazeNode)} {p : Vector2u}
    (hg : Rect w h g) (hv : visitedAt g p = true) : InGrid w h p := by
  unfold visitedAt at hv
  split at hv
  · rename_i node hn
    exact inGrid_of_nodeAt hg hn
  · cases hv

theorem dirsAt_inGrid {w h : Nat} {g : List (List MazeNode)} {p : Vector2u}
    (hg : Rect w h g) (hv : dirsAt g p ≠ 0) : InGrid w h p := by
  unfold dirsAt at hv
  split at hv
  · rename_i node hn
    exact inGrid_of_nodeAt hg hn
  · exact absurd rfl hv

theorem visit_mazeNodes {m : Maze} {p : Vector2u} {node : MazeNode}
    (hn : nodeAt m.mazeNodes p = .ok node) :
    (visit m p node).mazeNodes = markVisited m.mazeNodes p := by
  simp [visit, markVisited, hn]

/-! ## The mask of unvisited neighbours -/

theorem unvisitedBit_cases (w h : Nat) (g : List (List MazeNode)) (p : Vector2u) (d : Nat) :
    unvisitedBit w h g p d = 0 ∨
      (unvisitedBit w h g p d = d ∧
        ∃ n, neighbourOf p d = some n ∧ InGrid w h n ∧ visitedAt g n = false) := by
  unfold unvisitedBit
  split
  · rename_i n hn
    by_cases hc : InGrid w h n ∧ visitedAt g n = false
    · right
      rw [if_pos hc]
      exact ⟨rfl, n, hn, hc.1, hc.2⟩
    · left
      rw [if_neg hc]
  · left; rfl

theorem and_unvisitedMask (w h : Nat) (g : List (List MazeNode)) (p : Vector2u) {d : Nat}
    (hd : d ∈ directions) : d &&& unvisitedMask w h g p = unvisitedBit w h g p d := by
  unfold unvisitedMask
  simp only [directions, List.mem_cons, List.mem_singleton, List.not_mem_nil, or_false] at hd
  rcases unvisitedBit_cases w h g p Up with h1 | ⟨h1, -⟩ <;>
  rcases unvisitedBit_cases w h g p Down with h2 | ⟨h2, -⟩ <;>
  rcases unvisitedBit_cases w h g p Left with h3 | ⟨h3, -⟩ <;>
  rcases unvisitedBit_cases w h g p Right with h4 | ⟨h4, -⟩ <;>
  rcases hd with rfl | rfl | rfl | rfl <;>
  simp only [h1, h2, h3, h4] <;> decide

theorem sixteen_and_unvisitedMask (w h : Nat) (g : List (List MazeNode)) (p : Vector2u) :
    16 &&& unvisitedMask w h g p = 0 := by
  unfold unvisitedMask
  rcases unvisitedBit_cases w h g p Up with h1 | ⟨h1, -⟩ <;>
  rcases unvisitedBit_cases w h g p Down with h2 | ⟨h2, -⟩ <;>
  rcases unvisitedBit_cases w h g p Left with h3 | ⟨h3, -⟩ <;>
  rcases unvisitedBit_cases w h g p Right with h4 | ⟨h4, -⟩ <;>
  simp only [h1, h2, h3, h4] <;> decide

theorem unvisitedMask_eq_zero_iff (w h : Nat) (g : List (List MazeNode)) (p : Vector2u) :
    unvisitedMask w h g p = 0 ↔ ∀ d ∈ directions, unvisitedBit w h g p d = 0 := by
  unfold unvisitedMask
  simp only [directions, List.mem_cons, List.mem_singleton, List.not_mem_nil, or_false,
    forall_eq_or_imp, forall_eq]
  rcases unvisitedBit_cases w h g p Up with h1 | ⟨h1, -⟩ <;>
  rcases unvisitedBit_cases w h g p Down with h2 | ⟨h2, -⟩ <;>
  rcases unvisitedBit_cases w h g p Left with h3 | ⟨h3, -⟩ <;>
  rcases unvisitedBit_cases w h g p Right with h4 | ⟨h4, -⟩ <;>
  simp only [h1, h2, h3, h4] <;> decide

theorem unvisitedMask_hit {w h : Nat} {g : List (List MazeNode)} {p : Vector2u} {k : Nat}
    (hk : k ≤ 4) (hit : (1 <<< k) &&& unvisitedMask w h g p ≠ 0) :
    (1 <<< k) ∈ directions ∧
      ∃ n, neighbourOf p (1 <<< k) = some n ∧ InGrid w h n ∧ visitedAt g n = false := by
  have hmem : k = 4 ∨ (1 <<< k) ∈ directions := by
    interval_cases k <;> simp [directions, Up, Down, Left, Right]
  rcases hmem with rfl | hmem
  · exact absurd (sixteen_and_unvisitedMask w h g p) hit
  · refine ⟨hmem, ?_⟩
    rw [and_unvisitedMask w h g p hmem] at hit
    rcases unvisitedBit_cases w h g p (1 <<< k) with h0 | ⟨-, hn⟩
    · exact absurd h0 hit
    · exact hn

/-! ## Drawing a direction and carving -/

theorem getRandomDirection_bit (R : RandomLib) {m : Maze} (hd : m.randomDistribution = (0, 4)) :
    ∃ k, k ≤ 4 ∧ (getRandomDirection R m).1 = 1 <<< k := by
  refine ⟨(R.sample 0 4 m.randomEngine).1, (R.sample_range 0 4 m.randomEngine (by omega)).2, ?_⟩
  simp [getRandomDirection, hd]

theorem redraw_spec (R : RandomLib) (a : Nat) :
    ∀ (fuel d0 : Nat) (m0 : Maze) (d : Nat) (m1 : Maze),
      m0.randomDistribution = (0, 4) → (∃ k, k ≤ 4 ∧ d0 = 1 <<< k) →
      redraw R a fuel (d0, m0) = .ok (d, m1) → Drawn a m0 d m1 := by
  intro fuel
  induction fuel with
  | zero =>
    intro d0 m0 d m1 hdist hbit hr
    unfold redraw at hr
    split at hr
    · rename_i hhit
      cases hr
      exact ⟨hhit, hbit, rfl, rfl, rfl, [], by simp, by simp⟩
    · cases hr
  | succ fuel ih =>
    intro d0 m0 d m1 hdist hbit hr
    unfold redraw at hr
    split at hr
    · rename_i hhit
      cases hr
      exact ⟨hhit, hbit, rfl, rfl, rfl, [], by simp, by simp⟩
    · simp only at hr
      have hdist1 : (getRandomDirection R m0).2.randomDistribution = (0, 4) := by
        simpa [getRandomDirection] using hdist
      have hb := getRandomDirection_bit R hdist
      have := ih (getRandomDirection R m0).1 (getRandomDirection R m0).2 d m1 hdist1 hb hr
      obtain ⟨h1, h2, h3, h4, h5, ds, h6, h7⟩ := this
      refine ⟨h1, h2, ?_, ?_, ?_, (getRandomDirection R m0).1 :: ds, ?_, ?_⟩
      · rw [h3]; rfl
      · rw [h4]; rfl
      · rw [h5]; rfl
      · rw [h6]; simp [getRandomDirection]
      · intro v hv
        rcases List.mem_cons.mp hv with rfl | hv
        · exact hb
        · exact h7 v hv

theorem pick_spec (R : RandomLib) (a fuel : Nat) {m : Maze} {d : Nat} {m1 : Maze}
    (hdist : m.randomDistribution = (0, 4))
    (hr : redraw R a fuel (getRandomDirection R m) = .ok (d, m1)) :
    Drawn a m d m1 := by
  have hdist1 : (getRandomDirection R m).2.randomDistribution = (0, 4) := by
    simpa [getRandomDirection] using hdist
  have hb := getRandomDirection_bit R hdist
  obtain ⟨h1, h2, h3, h4, h5, ds, h6, h7⟩ :=
    redraw_spec R a fuel (getRandomDirection R m).1 (getRandomDirection R m).2 d m1 hdist1 hb hr
  refine ⟨h1, h2, ?_, ?_, ?_, (getRandomDirection R m).1 :: ds, ?_, ?_⟩
  · rw [h3]; rfl
  · rw [h4]; rfl
  · rw [h5]; rfl
  · rw [h6]; simp [getRandomDirection]
  · intro v hv
    rcases List.mem_cons.mp hv with rfl | hv
    · exact hb
    · exact h7 v hv

theorem nextPositionOf_eq {w h : Nat} {p n : Vector2u} {d : Nat} (hd : Dim w h)
    (hdir : d ∈ directions) (hnb : neighbourOf p d = some n) (hn : InGrid w h n) :
    nextPositionOf p d = n := by
  obtain ⟨hw1, hw2, hh1, hh2⟩ := hd
  obtain ⟨hx, hy⟩ := hn
  simp only [directions, List.mem_cons, List.mem_singleton, List.not_mem_nil, or_false] at hdir
  rcases hdir with rfl | rfl | rfl | rfl
  · by_cases h0 : p.y = 0
    · simp [neighbourOf, h0] at hnb
    · simp only [neighbourOf, if_true, if_neg h0, Option.some.injEq] at hnb
      subst hnb
      simp [nextPositionOf, decU32_eq h0]
  · simp only [neighbourOf, Up, Down, Nat.succ_ne_self, if_false, if_true, Option.some.injEq,
      show (2 : Nat) ≠ 1 by decide] at hnb
    subst hnb
    simp only at hy
    have : incU32 p.y = p.y + 1 := by unfold incU32; omega
    simp [nextPositionOf, Up, Down, this]
  · by_cases h0 : p.x = 0
    · simp [neighbourOf, h0, Up, Down, Left] at hnb
    · simp only [neighbourOf, Up, Down, Left, if_true, if_false, if_neg h0, Option.some.injEq,
        show (4 : Nat) ≠ 1 by decide, show (4 : Nat) ≠ 2 by decide] at hnb
      subst hnb
      simp [nextPositionOf, decU32_eq h0, Up, Down, Left]
  · simp only [neighbourOf, Up, Down, Left, Right, if_false, if_true, Option.some.injEq,
      show (8 : Nat) ≠ 1 by decide, show (8 : Nat) ≠ 2 by decide,
      show (8 : Nat) ≠ 4 by decide] at hnb
    subst hnb
    simp only at hx
    have : incU32 p.x = p.x + 1 := by unfold incU32; omega
    simp [nextPositionOf, Up, Down, Left, Right, this]

theorem neighbourOf_ne {p n : Vector2u} {d : Nat} (hnb : neighbourOf p d = some n) : n ≠ p := by
  unfold neighbourOf at hnb
  intro he
  subst he
  have hx : ∀ q : Vector2u, q = n → q.x = n.x ∧ q.y = n.y := fun q hq => by rw [hq]; simp
  split_ifs at hnb <;> simp only [Option.some.injEq] at hnb <;>
    have hxy := hx _ hnb <;> simp only at hxy <;> omega

theorem openDirection_eq_setNode {g : List (List MazeNode)} {p : Vector2u} {node : MazeNode}
    (d : Nat) (hn : nodeAt g p = .ok node) :
    openDirection g p d =
      setNode g p { node with availableDirections := node.availableDirections ||| d } := by
  simp [openDirection, hn]

theorem carve_spec {w h : Nat} {m : Maze} {p n : Vector2u} {d : Nat} (hs : Shape w h m)
    (hp : InGrid w h p) (hdir : d ∈ directions) (hnb : neighbourOf p d = some n)
    (hn : InGrid w h n) : carve m p d = .ok (n, carved m p d n) := by
  obtain ⟨node, hnode⟩ := nodeAt_of_inGrid hs.rect hp
  have hne : n ≠ p := neighbourOf_ne hnb
  have hg1 : Rect w h (openDirection m.mazeNodes p d) := rect_openDirection p d hs.rect
  obtain ⟨node2, hnode2⟩ := nodeAt_of_inGrid hg1 hn
  have e1 := (openDirection_eq_setNode d hnode).symm
  have e2 := (openDirection_eq_setNode (getOppositeDirection d) hnode2).symm
  unfold carve
  simp only [nextPositionOf_eq hs.dim hdir hnb hn, hnode, e1, hnode2, e2]
  rfl
/-! ## Every returning call is a run -/

theorem shape_visit {w h : Nat} {m : Maze} {p : Vector2u} {node : MazeNode}
    (hs : Shape w h m) (hn : nodeAt m.mazeNodes p = .ok node) : Shape w h (visit m p node) :=
  ⟨hs.dim, by rw [visit_mazeNodes hn]; exact rect_markVisited p hs.rect, hs.dist⟩

theorem shape_carved {w h : Nat} {m : Maze} (p : Vector2u) (d : Nat) (n : Vector2u)
    (hs : Shape w h m) : Shape w h (carved m p d n) :=
  ⟨hs.dim, rect_openDirection _ _ (rect_openDirection _ _ hs.rect), hs.dist⟩

theorem shape_of_drawn {w h a d : Nat} {m m1 : Maze} (hs : Shape w h m) (hd : Drawn a m d m1) :
    Shape w h m1 :=
  ⟨hs.dim, by rw [hd.nodes]; exact hs.rect, by rw [hd.dist]; exact hs.dist⟩

theorem explore_run (R : RandomLib) (w h : Nat) : ∀ fuel : Nat,
    (∀ p m m', Shape w h m → InGrid w h p → exploreNode R fuel p m = .ok m' →
      Run R w h .node p m m' ∧ Shape w h m') ∧
    (∀ p m m', Shape w h m → InGrid w h p → exploreLoop R fuel p m = .ok m' →
      Run R w h .loop p m m' ∧ Shape w h m') := by
  intro fuel
  induction fuel with
  | zero =>
    constructor <;> intro p m m' _ _ he
    · simp [exploreNode] at he
    · simp [exploreLoop] at he
  | succ fuel ih =>
    obtain ⟨ihn, ihl⟩ := ih
    constructor
    · intro p m m' hs hp he
      obtain ⟨node, hnode⟩ := nodeAt_of_inGrid hs.rect hp
      have hs1 := shape_visit hs hnode
      rw [exploreNode] at he
      simp only [hnode, isExit_eq p hs1.dim hs1.rect] at he
      by_cases hx : p = exitOf w h
      · simp only [hx, decide_True] at he
        cases he
        subst hx
        exact ⟨Run.exit hs hp hnode rfl, hs1⟩
      · simp only [hx, decide_False] at he
        obtain ⟨hrun, hs'⟩ := ihl p _ m' hs1 hp he
        exact ⟨Run.inner hs hp hnode hx hrun, hs'⟩
    · intro p m m' hs hp he
      rw [exploreLoop] at he
      simp only [getUnvisitedNeighbours_eq hs.dim hs.rect hp] at he
      by_cases h0 : unvisitedMask w h m.mazeNodes p = 0
      · simp only [h0, if_true] at he
        cases he
        refine ⟨Run.done hs hp h0, hs.dim, hs.rect, hs.dist⟩
      · simp only [h0, if_false] at he
        split at he
        · cases he
        · rename_i d m1 hr
          have hs0 : Shape w h { m with trace := m.trace ++
              [Event.test p (unvisitedMask w h m.mazeNodes p)] } :=
            ⟨hs.dim, hs.rect, hs.dist⟩
          have hdrawn := pick_spec R _ fuel hs0.dist hr
          have hs1 := shape_of_drawn hs0 hdrawn
          obtain ⟨k, hk, rfl⟩ := hdrawn.bit
          obtain ⟨hdir, n, hnb, hn, -⟩ := unvisitedMask_hit hk hdrawn.hit
          rw [carve_spec hs1 hp hdir hnb hn] at he
          simp only at he
          split at he
          · cases he
          · rename_i m3 hn3
            obtain ⟨hrun3, hs3⟩ := ihn n _ m3 (shape_carved p _ n hs1) hn hn3
            obtain ⟨hrun', hs'⟩ := ihl p m3 m' hs3 hp he
            exact ⟨Run.step fuel hs hp h0 hr (carve_spec hs1 hp hdir hnb hn) hrun3 hrun', hs'⟩

/-! ## One carving -/

theorem step_facts {R : RandomLib} {w h fuel d : Nat} {p n : Vector2u} {m m1 m2 : Maze}
    (hs : Shape w h m) (hp : InGrid w h p)
    (hr : redraw R (unvisitedMask w h m.mazeNodes p) fuel
        (getRandomDirection R { m with trace := m.trace ++
          [Event.test p (unvisitedMask w h m.mazeNodes p)] }) = .ok (d, m1))
    (hc : carve m1 p d = .ok (n, m2)) : Carving w h p m d n m2 := by
  have hs0 : Shape w h { m with trace := m.trace ++
      [Event.test p (unvisitedMask w h m.mazeNodes p)] } := ⟨hs.dim, hs.rect, hs.dist⟩
  have hdrawn := pick_spec R _ fuel hs0.dist hr
  have hs1 := shape_of_drawn hs0 hdrawn
  obtain ⟨k, hk, rfl⟩ := hdrawn.bit
  obtain ⟨hdir, n', hnb, hn, hfresh⟩ := unvisitedMask_hit hk hdrawn.hit
  rw [carve_spec hs1 hp hdir hnb hn] at hc
  simp only [Except.ok.injEq, Prod.mk.injEq] at hc
  obtain ⟨rfl, rfl⟩ := hc
  obtain ⟨ds, hds, hall⟩ := hdrawn.trace
  refine ⟨hdir, hnb, hn, hfresh, ?_, ?_, ?_, ds, ?_, hall⟩
  · simp [carved, hdrawn.nodes]
  · simp [carved, hdrawn.maze]
  · simp [carved, hdrawn.dist]
  · simp [carved, hds]

theorem Carving.shape {w h d : Nat} {p n : Vector2u} {m m2 : Maze}
    (hc : Carving w h p m d n m2) (hs : Shape w h m) : Shape w h m2 :=
  ⟨hs.dim, by rw [hc.nodes]; exact rect_openDirection _ _ (rect_openDirection _ _ hs.rect),
    by rw [hc.dist]; exact hs.dist⟩

theorem Carving.visitedAt_eq {w h d : Nat} {p n : Vector2u} {m m2 : Maze}
    (hc : Carving w h p m d n m2) (q : Vector2u) :
    visitedAt m2.mazeNodes q = visitedAt m.mazeNodes q := by
  rw [hc.nodes, visitedAt_openDirection, visitedAt_openDirection]

theorem Carving.ne {w h d : Nat} {p n : Vector2u} {m m2 : Maze}
    (hc : Carving w h p m d n m2) : n ≠ p := neighbourOf_ne hc.nb

theorem Carving.dirsAt_self {w h d : Nat} {p n : Vector2u} {m m2 : Maze}
    (hc : Carving w h p m d n m2) (hs : Shape w h m) (hp : InGrid w h p) :
    dirsAt m2.mazeNodes p = dirsAt m.mazeNodes p ||| d := by
  rw [hc.nodes, dirsAt_openDirection_ne _ hc.ne.symm, dirsAt_openDirection_self d hs.rect hp]

theorem Carving.dirsAt_next {w h d : Nat} {p n : Vector2u} {m m2 : Maze}
    (hc : Carving w h p m d n m2) (hs : Shape w h m) :
    dirsAt m2.mazeNodes n = dirsAt m.mazeNodes n ||| getOppositeDirection d := by
  rw [hc.nodes, dirsAt_openDirection_self _ (rect_openDirection _ _ hs.rect) hc.inGrid,
    dirsAt_openDirection_ne _ hc.ne]

theorem Carving.dirsAt_other {w h d : Nat} {p n q : Vector2u} {m m2 : Maze}
    (hc : Carving w h p m d n m2) (hqp : q ≠ p) (hqn : q ≠ n) :
    dirsAt m2.mazeNodes q = dirsAt m.mazeNodes q := by
  rw [hc.nodes, dirsAt_openDirection_ne _ hqn, dirsAt_openDirection_ne _ hqp]

/-! ## Shape and visited cells along a run -/

theorem run_shape {R : RandomLib} {w h : Nat} {k : Phase} {p : Vector2u} {m m' : Maze}
    (hr : Run R w h k p m m') : Shape w h m ∧ InGrid w h p ∧ Shape w h m' := by
  induction hr with
  | exit hs hp hn hx => exact ⟨hs, hp, shape_visit hs hn⟩
  | inner hs hp hn hx hrun ih => exact ⟨hs, hp, ih.2.2⟩
  | done hs hp h0 => exact ⟨hs, hp, ⟨hs.dim, hs.rect, hs.dist⟩⟩
  | step fuel hs hp h0 hr hc hrun3 hrun' ih3 ih' => exact ⟨hs, hp, ih'.2.2⟩

theorem visitedAt_visit {w h : Nat} {m : Maze} {p : Vector2u} {node : MazeNode}
    (hs : Shape w h m) (hp : InGrid w h p) (hn : nodeAt m.mazeNodes p = .ok node)
    (q : Vector2u) :
    visitedAt (visit m p node).mazeNodes q = (decide (q = p) || visitedAt m.mazeNodes q) := by
  rw [visit_mazeNodes hn]
  by_cases hq : q = p
  · subst hq
    simp [visitedAt_markVisited_self hs.rect hp]
  · simp [visitedAt_markVisited_ne hq, hq]

theorem dirsAt_visit {m : Maze} {p : Vector2u} {node : MazeNode}
    (hn : nodeAt m.mazeNodes p = .ok node) (q : Vector2u) :
    dirsAt (visit m p node).mazeNodes q = dirsAt m.mazeNodes q := by
  rw [visit_mazeNodes hn, dirsAt_markVisited]

theorem run_mono {R : RandomLib} {w h : Nat} {k : Phase} {p : Vector2u} {m m' : Maze}
    (hr : Run R w h k p m m') :
    ∀ c, visitedAt m.mazeNodes c = true → visitedAt m'.mazeNodes c = true := by
  induction hr with
  | exit hs hp hn hx =>
    intro c hc
    rw [visitedAt_visit hs hp hn, hc]; simp
  | inner hs hp hn hx hrun ih =>
    intro c hc
    apply ih
    rw [visitedAt_visit hs hp hn, hc]; simp
  | done hs hp h0 => intro c hc; exact hc
  | step fuel hs hp h0 hr hc hrun3 hrun' ih3 ih' =>
    intro c hv
    have hcv := step_facts hs hp hr hc
    exact ih' c (ih3 c (by rw [hcv.visitedAt_eq]; exact hv))

theorem run_visits {R : RandomLib} {w h : Nat} {k : Phase} {p : Vector2u} {m m' : Maze}
    (hr : Run R w h k p m m') (hk : k = .node) : visitedAt m'.mazeNodes p = true := by
  induction hr with
  | exit hs hp hn hx => rw [visitedAt_visit hs hp hn]; simp
  | inner hs hp hn hx hrun ih =>
    apply run_mono hrun
    rw [visitedAt_visit hs hp hn]; simp
  | done hs hp h0 => cases hk
  | step fuel hs hp h0 hr hc hrun3 hrun' ih3 ih' => cases hk

/-! ## Cells whose neighbours are all visited -/

theorem unvisitedBit_eq_zero_iff (w h : Nat) (g : List (List MazeNode)) (c : Vector2u) {d : Nat}
    (hd : d ∈ directions) :
    unvisitedBit w h g c d = 0 ↔
      ∀ n, neighbourOf c d = some n → InGrid w h n → visitedAt g n = true := by
  have hd0 : d ≠ 0 := by
    simp only [directions, List.mem_cons, List.mem_singleton, List.not_mem_nil, or_false] at hd
    rcases hd with rfl | rfl | rfl | rfl <;> decide
  unfold unvisitedBit
  split
  · rename_i n hn
    constructor
    · intro h0 n' hn' hin
      rw [hn] at hn'
      cases hn'
      by_contra hv
      have hv' : visitedAt g n = false := by simpa using hv
      rw [if_pos ⟨hin, hv'⟩] at h0
      exact hd0 h0
    · intro hall
      rw [if_neg]
      rintro ⟨hin, hv⟩
      rw [hall n hn hin] at hv
      cases hv
  · rename_i hn
    constructor
    · intro _ n hn'
      rw [hn] at hn'
      cases hn'
    · intro _; rfl

theorem unvisitedMask_eq_zero_iff_closed (w h : Nat) (g : List (List MazeNode)) (c : Vector2u) :
    unvisitedMask w h g c = 0 ↔ Closed w h g c := by
  rw [unvisitedMask_eq_zero_iff]
  constructor
  · intro hall d hd
    exact (unvisitedBit_eq_zero_iff w h g c hd).mp (hall d hd)
  · intro hall d hd
    exact (unvisitedBit_eq_zero_iff w h g c hd).mpr (hall d hd)

theorem Closed.mono {w h : Nat} {g g' : List (List MazeNode)} {c : Vector2u}
    (hc : Closed w h g c) (hm : ∀ q, visitedAt g q = true → visitedAt g' q = true) :
    Closed w h g' c :=
  fun d hd n hn hin => hm n (hc d hd n hn hin)

theorem run_closed {R : RandomLib} {w h : Nat} {k : Phase} {p : Vector2u} {m m' : Maze}
    (hr : Run R w h k p m m') :
    (k = .loop → Closed w h m'.mazeNodes p) ∧
    ∀ c, visitedAt m'.mazeNodes c = true → visitedAt m.mazeNodes c = false →
      c ≠ exitOf w h → Closed w h m'.mazeNodes c := by
  induction hr with
  | exit hs hp hn hx =>
    refine ⟨fun hk => (by cases hk), ?_⟩
    intro c hv' hv hne
    rw [visitedAt_visit hs hp hn, hv] at hv'
    simp only [Bool.or_false, decide_eq_true_eq] at hv'
    exact absurd (hv'.trans hx) hne
  | @inner p m m' node hs hp hn hx hrun ih =>
    refine ⟨fun hk => (by cases hk), ?_⟩
    intro c hv' hv hne
    by_cases hcp : c = p
    · subst hcp
      exact ih.1 rfl
    · apply ih.2 c hv' _ hne
      rw [visitedAt_visit hs hp hn, hv]
      simp [hcp]
  | done hs hp h0 =>
    refine ⟨fun _ => (unvisitedMask_eq_zero_iff_closed w h _ _).mp h0, ?_⟩
    intro c hv' hv
    simp only at hv'
    rw [hv] at hv'
    cases hv'
  | @step p n m m1 m2 m3 m' d fuel hs hp h0 hr hc hrun3 hrun' ih3 ih' =>
    refine ⟨fun hk => ih'.1 hk, ?_⟩
    intro c hv' hv hne
    have hcv := step_facts hs hp hr hc
    cases hv3 : visitedAt m3.mazeNodes c with
    | true =>
      have := ih3.2 c hv3 (by rw [hcv.visitedAt_eq]; exact hv) hne
      exact this.mono (run_mono hrun')
    | false => exact ih'.2 c hv' hv3 hne

/-! ## Coverage -/

theorem neighbourOf_down (c : Vector2u) : neighbourOf c Down = some ⟨c.x, c.y + 1⟩ := by
  simp [neighbourOf, Up, Down]

theorem neighbourOf_right (c : Vector2u) : neighbourOf c Right = some ⟨c.x + 1, c.y⟩ := by
  simp [neighbourOf, Up, Down, Left, Right]

theorem neighbourOf_up {c : Vector2u} (h0 : c.y ≠ 0) :
    neighbourOf c Up = some ⟨c.x, c.y - 1⟩ := by
  simp [neighbourOf, h0]

theorem neighbourOf_left {c : Vector2u} (h0 : c.x ≠ 0) :
    neighbourOf c Left = some ⟨c.x - 1, c.y⟩ := by
  simp [neighbourOf, Up, Down, Left, h0]

theorem covers_of_closed {w h : Nat} {g : List (List MazeNode)}
    (h00 : visitedAt g ⟨0, 0⟩ = true)
    (hcl : ∀ c, visitedAt g c = true → c ≠ exitOf w h → Closed w h g c) :
    ∀ c, InGrid w h c → visitedAt g c = true := by
  have row : 0 < h → ∀ x, x < w → visitedAt g ⟨x, 0⟩ = true := by
    intro hh x
    induction x with
    | zero => intro _; exact h00
    | succ x ih =>
      intro hx
      have hv := ih (by omega)
      have hne : (⟨x, 0⟩ : Vector2u) ≠ exitOf w h := by
        intro he
        have := congrArg Vector2u.x he
        simp only [exitOf] at this
        omega
      exact hcl _ hv hne Right (by simp [directions]) ⟨x + 1, 0⟩ (neighbourOf_right _)
        ⟨hx, hh⟩
  have all : ∀ y, y < h → ∀ x, x < w → visitedAt g ⟨x, y⟩ = true := by
    intro y
    induction y with
    | zero => intro hy x hx; exact row hy x hx
    | succ y ih =>
      intro hy x hx
      have hv := ih (by omega) x hx
      have hne : (⟨x, y⟩ : Vector2u) ≠ exitOf w h := by
        intro he
        have := congrArg Vector2u.y he
        simp only [exitOf] at this
        omega
      exact hcl _ hv hne Down (by simp [directions]) ⟨x, y + 1⟩ (neighbourOf_down _) ⟨hx, hy⟩
  intro c hc
  exact all c.y hc.2 c.x hc.1

theorem run_covers {R : RandomLib} {w h : Nat} {m m' : Maze}
    (hr : Run R w h .node ⟨0, 0⟩ m m') (hfresh : ∀ c, visitedAt m.mazeNodes c = false) :
    ∀ c, InGrid w h c → visitedAt m'.mazeNodes c = true :=
  covers_of_closed (run_visits hr rfl)
    (fun c hv hne => (run_closed hr).2 c hv (hfresh c) hne)

/-! ## More fuel never changes a result -/

theorem redraw_fuel_mono (R : RandomLib) (a : Nat) :
    ∀ (f : Nat) (x r : Nat × Maze), redraw R a f x = .ok r →
      ∀ f', f ≤ f' → redraw R a f' x = .ok r := by
  intro f
  induction f with
  | zero =>
    intro x r he f' _
    obtain ⟨d0, m0⟩ := x
    unfold redraw at he ⊢
    by_cases hh : d0 &&& a ≠ 0
    · rw [if_pos hh] at he ⊢
      exact he
    · rw [if_neg hh] at he
      cases he
  | succ f ih =>
    intro x r he f' hf
    obtain ⟨d0, m0⟩ := x
    obtain ⟨f'', rfl⟩ : ∃ f'', f' = f'' + 1 := ⟨f' - 1, by omega⟩
    unfold redraw at he ⊢
    by_cases hh : d0 &&& a ≠ 0
    · rw [if_pos hh] at he ⊢
      exact he
    · rw [if_neg hh] at he ⊢
      exact ih _ _ he f'' (by omega)

theorem explore_fuel_mono (R : RandomLib) : ∀ f : Nat,
    (∀ p m m', exploreNode R f p m = .ok m' → ∀ f', f ≤ f' → exploreNode R f' p m = .ok m') ∧
    (∀ p m m', exploreLoop R f p m = .ok m' → ∀ f', f ≤ f' → exploreLoop R f' p m = .ok m') := by
  intro f
  induction f with
  | zero =>
    constructor <;> intro p m m' he
    · simp [exploreNode] at he
    · simp [exploreLoop] at he
  | succ f ih =>
    obtain ⟨ihn, ihl⟩ := ih
    constructor
    · intro p m m' he f' hf
      obtain ⟨f'', rfl⟩ : ∃ f'', f' = f'' + 1 := ⟨f' - 1, by omega⟩
      rw [exploreNode] at he ⊢
      cases hn : nodeAt m.mazeNodes p with
      | error e => simp [hn] at he
      | ok node =>
        simp only [hn] at he ⊢
        cases hx : isExit (visit m p node).mazeNodes p with
        | error e => simp [hx] at he
        | ok b =>
          cases b with
          | true => simpa [hx] using he
          | false =>
            simp only [hx] at he ⊢
            exact ihl _ _ _ he f'' (by omega)
    · intro p m m' he f' hf
      obtain ⟨f'', rfl⟩ : ∃ f'', f' = f'' + 1 := ⟨f' - 1, by omega⟩
      rw [exploreLoop] at he ⊢
      cases ha : getUnvisitedNeighbours m.mazeNodes p with
      | error e => simp [ha] at he
      | ok a =>
        simp only [ha] at he ⊢
        by_cases h0 : a = 0
        · simpa [h0] using he
        · simp only [h0, if_false] at he ⊢
          cases hr : redraw R a f (getRandomDirection R
              { m with trace := m.trace ++ [Event.test p a] }) with
          | error e => simp [hr] at he
          | ok r =>
            obtain ⟨d, m1⟩ := r
            rw [redraw_fuel_mono R a f _ _ hr f'' (by omega)]
            simp only [hr] at he ⊢
            cases hc : carve m1 p d with
            | error e => simp [hc] at he
            | ok r2 =>
              obtain ⟨n, m2⟩ := r2
              simp only [hc] at he ⊢
              cases hn : exploreNode R f n m2 with
              | error e => simp [hn] at he
              | ok m3 =>
                rw [ihn _ _ _ hn f'' (by omega)]
                simp only [hn] at he ⊢
                exact ihl _ _ _ he f'' (by omega)
/-! ## Counting unvisited cells -/

theorem mem_cells {w h : Nat} {c : Vector2u} : c ∈ cells w h ↔ InGrid w h c := by
  unfold cells InGrid
  constructor
  · intro hc
    obtain ⟨⟨x, y⟩, hxy, rfl⟩ := Finset.mem_image.mp hc
    simpa using hxy
  · intro hc
    exact Finset.mem_image.mpr ⟨(c.x, c.y), by simpa using hc, rfl⟩

theorem card_cells (w h : Nat) : (cells w h).card = w * h := by
  unfold cells
  rw [Finset.card_image_of_injective]
  · simp
  · intro a b hab
    simp only [Vector2u.mk.injEq] at hab
    exact Prod.ext hab.1 hab.2

theorem unvisitedCount_congr {w h : Nat} {g g' : List (List MazeNode)}
    (hv : ∀ c, visitedAt g' c = visitedAt g c) :
    unvisitedCount w h g' = unvisitedCount w h g := by
  unfold unvisitedCount
  congr 1
  apply Finset.filter_congr
  intro c _
  rw [hv]

theorem unvisitedCount_lt {w h : Nat} {g g' : List (List MazeNode)} {p : Vector2u}
    (hm : ∀ c, visitedAt g c = true → visitedAt g' c = true) (hp : InGrid w h p)
    (h0 : visitedAt g p = false) (h1 : visitedAt g' p = true) :
    unvisitedCount w h g' < unvisitedCount w h g := by
  unfold unvisitedCount
  apply Finset.card_lt_card
  rw [Finset.ssubset_iff_of_subset]
  · exact ⟨p, Finset.mem_filter.mpr ⟨mem_cells.mpr hp, h0⟩, by simp [h1]⟩
  · intro c hc
    obtain ⟨hc1, hc2⟩ := Finset.mem_filter.mp hc
    refine Finset.mem_filter.mpr ⟨hc1, ?_⟩
    cases hv : visitedAt g c with
    | false => rfl
    | true => rw [hm c hv] at hc2; cases hc2

theorem unvisitedCount_pos {w h : Nat} {g : List (List MazeNode)} {p : Vector2u}
    (hp : InGrid w h p) (h0 : visitedAt g p = false) : 0 < unvisitedCount w h g :=
  Finset.card_pos.mpr ⟨p, Finset.mem_filter.mpr ⟨mem_cells.mpr hp, h0⟩⟩

theorem closed_of_unvisitedCount_zero {w h : Nat} {g : List (List MazeNode)}
    (h0 : unvisitedCount w h g = 0) (c : Vector2u) : Closed w h g c := by
  intro d _ n _ hin
  by_contra hv
  have hv' : visitedAt g n = false := by simpa using hv
  have := unvisitedCount_pos hin hv'
  omega

/-! ## The redraw loop ends when the library is fair -/

theorem pick_terminates (R : RandomLib) (a k : Nat) (hk : (1 <<< k) &&& a ≠ 0) :
    ∀ (n : Nat) (m : Maze), m.randomDistribution = (0, 4) →
      (R.sample 0 4 (engineAfter R n m.randomEngine)).1 = k →
      ∃ r, redraw R a n (getRandomDirection R m) = .ok r := by
  intro n
  induction n with
  | zero =>
    intro m hd hs
    simp only [engineAfter, Function.iterate_zero, id_eq] at hs
    have : (getRandomDirection R m).1 = 1 <<< k := by simp [getRandomDirection, hd, hs]
    refine ⟨getRandomDirection R m, ?_⟩
    rw [show getRandomDirection R m = ((getRandomDirection R m).1, (getRandomDirection R m).2)
      from rfl]
    unfold redraw
    rw [this, if_pos hk]
  | succ n ih =>
    intro m hd hs
    by_cases hit : (getRandomDirection R m).1 &&& a ≠ 0
    · refine ⟨getRandomDirection R m, ?_⟩
      rw [show getRandomDirection R m = ((getRandomDirection R m).1, (getRandomDirection R m).2)
        from rfl]
      unfold redraw
      rw [if_pos hit]
    · have hd' : (getRandomDirection R m).2.randomDistribution = (0, 4) := by
        simpa [getRandomDirection] using hd
      have he : (getRandomDirection R m).2.randomEngine = (R.sample 0 4 m.randomEngine).2 := by
        simp [getRandomDirection, hd]
      have hs' : (R.sample 0 4 (engineAfter R n (getRandomDirection R m).2.randomEngine)).1 = k := by
        rw [he]
        simpa [engineAfter, Function.iterate_succ_apply] using hs
      obtain ⟨r, hr⟩ := ih _ hd' hs'
      refine ⟨r, ?_⟩
      rw [show getRandomDirection R m = ((getRandomDirection R m).1, (getRandomDirection R m).2)
        from rfl]
      unfold redraw
      rw [if_neg hit]
      exact hr

/-! ## Termination -/

theorem exists_bit_of_unvisitedMask_ne_zero {w h : Nat} {g : List (List MazeNode)}
    {p : Vector2u} (h0 : unvisitedMask w h g p ≠ 0) :
    ∃ k, k < 4 ∧ (1 <<< k) &&& unvisitedMask w h g p ≠ 0 := by
  have : ¬ ∀ d ∈ directions, unvisitedBit w h g p d = 0 :=
    fun hall => h0 ((unvisitedMask_eq_zero_iff w h g p).mpr hall)
  push_neg at this
  obtain ⟨d, hd, hne⟩ := this
  rw [← and_unvisitedMask w h g p hd] at hne
  simp only [directions, List.mem_cons, List.mem_singleton, List.not_mem_nil, or_false] at hd
  rcases hd with rfl | rfl | rfl | rfl
  · exact ⟨0, by omega, hne⟩
  · exact ⟨1, by omega, hne⟩
  · exact ⟨2, by omega, hne⟩
  · exact ⟨3, by omega, hne⟩

theorem exploreNode_of_loop {R : RandomLib} {w h u : Nat}
    (hloop : ∀ p m, Shape w h m → InGrid w h p → unvisitedCount w h m.mazeNodes ≤ u →
      ∃ f m', exploreLoop R f p m = .ok m')
    (p : Vector2u) (m : Maze) (hs : Shape w h m) (hp : InGrid w h p)
    (hv : visitedAt m.mazeNodes p = false) (hu : unvisitedCount w h m.mazeNodes ≤ u + 1) :
    ∃ f m', exploreNode R f p m = .ok m' := by
  obtain ⟨node, hnode⟩ := nodeAt_of_inGrid hs.rect hp
  have hs1 := shape_visit hs hnode
  by_cases hx : p = exitOf w h
  · refine ⟨1, visit m p node, ?_⟩
    rw [exploreNode]
    simp only [hnode, isExit_eq p hs1.dim hs1.rect]
    simp [hx]
  · have hlt : unvisitedCount w h (visit m p node).mazeNodes < unvisitedCount w h m.mazeNodes := by
      apply unvisitedCount_lt _ hp hv
      · rw [visitedAt_visit hs hp hnode]; simp
      · intro c hc
        rw [visitedAt_visit hs hp hnode, hc]; simp
    obtain ⟨f, m', hf⟩ := hloop p _ hs1 hp (by omega)
    refine ⟨f + 1, m', ?_⟩
    rw [exploreNode]
    simp only [hnode, isExit_eq p hs1.dim hs1.rect, hx, decide_False]
    exact hf

theorem explore_terminates {R : RandomLib} (hfair : Fair R) (w h : Nat) : ∀ u : Nat,
    ∀ p m, Shape w h m → InGrid w h p → unvisitedCount w h m.mazeNodes ≤ u →
      ∃ f m', exploreLoop R f p m = .ok m' := by
  intro u
  induction u with
  | zero =>
    intro p m hs hp hu
    have h0 : unvisitedMask w h m.mazeNodes p = 0 :=
      (unvisitedMask_eq_zero_iff_closed w h _ _).mpr
        (closed_of_unvisitedCount_zero (by omega) p)
    refine ⟨1, { m with trace := m.trace ++ [Event.test p 0] }, ?_⟩
    rw [exploreLoop]
    simp only [getUnvisitedNeighbours_eq hs.dim hs.rect hp, h0, if_true]
  | succ u ih =>
    intro p m hs hp hu
    by_cases h0 : unvisitedMask w h m.mazeNodes p = 0
    · refine ⟨1, { m with trace := m.trace ++ [Event.test p 0] }, ?_⟩
      rw [exploreLoop]
      simp only [getUnvisitedNeighbours_eq hs.dim hs.rect hp, h0, if_true]
    · obtain ⟨k, hk, hit⟩ := exists_bit_of_unvisitedMask_ne_zero h0
      have hs0 : Shape w h { m with trace := m.trace ++
          [Event.test p (unvisitedMask w h m.mazeNodes p)] } := ⟨hs.dim, hs.rect, hs.dist⟩
      obtain ⟨n, hn⟩ := hfair m.randomEngine k hk
      obtain ⟨⟨d, m1⟩, hr⟩ := pick_terminates R _ k hit n _ hs0.dist hn
      have hcv0 := pick_spec R _ n hs0.dist hr
      have hs1 := shape_of_drawn hs0 hcv0
      obtain ⟨k', hk', rfl⟩ := hcv0.bit
      obtain ⟨hdir, nn, hnb, hin, hfresh⟩ := unvisitedMask_hit hk' hcv0.hit
      have hc := carve_spec hs1 hp hdir hnb hin
      have hcv := step_facts hs hp hr hc
      have hs2 := hcv.shape hs
      have hu2 : unvisitedCount w h (carved m1 p (1 <<< k') nn).mazeNodes ≤ u + 1 := by
        rw [unvisitedCount_congr hcv.visitedAt_eq]; exact hu
      have hfresh2 : visitedAt (carved m1 p (1 <<< k') nn).mazeNodes nn = false := by
        rw [hcv.visitedAt_eq]; exact hcv.fresh
      obtain ⟨f2, m3, hf2⟩ := exploreNode_of_loop ih nn _ hs2 hin hfresh2 hu2
      obtain ⟨hrun3, hs3⟩ := (explore_run R w h f2).1 nn _ m3 hs2 hin hf2
      have hu3 : unvisitedCount w h m3.mazeNodes ≤ u := by
        have := unvisitedCount_lt (run_mono hrun3) hin hfresh2 (run_visits hrun3 rfl)
        omega
      obtain ⟨f3, m', hf3⟩ := ih p m3 hs3 hp hu3
      refine ⟨max n (max f2 f3) + 1, m', ?_⟩
      rw [exploreLoop]
      simp only [getUnvisitedNeighbours_eq hs.dim hs.rect hp, h0, if_false]
      rw [redraw_fuel_mono R _ n _ _ hr _ (le_max_left _ _)]
      simp only [hc]
      rw [(explore_fuel_mono R f2).1 _ _ _ hf2 _
        (le_trans (le_max_left _ _) (le_max_right _ _))]
      simp only
      exact (explore_fuel_mono R f3).2 _ _ _ hf3 _
        (le_trans (le_max_right _ _) (le_max_right _ _))

/-! ## `generate` starts from a fresh state -/

theorem length_resize {α : Type} (v : List α) (n : Nat) (fresh : α) :
    (resize v n fresh).length = n := by
  simp only [resize, List.length_append, List.length_take, List.length_replicate]
  omega

theorem map_const_resize {α β : Type} (v : List α) (n : Nat) (fresh : α) (b : β) :
    (resize v n fresh).map (fun _ => b) = List.replicate n b := by
  rw [List.map_const', length_resize]

theorem generate_eq (R : RandomLib) (fuel : Nat) (m : Maze) (w h : Nat) (seed : Int) :
    generate R fuel m ⟨w, h⟩ seed =
      match exploreNode R fuel ⟨0, 0⟩ (initial R w h seed) with
      | .error e => .error e
      | .ok m2 => .ok (withTexCoords m2) := by
  have e1 : ((resize m.mazeNodes w []).map fun column =>
      (resize column h ({} : MazeNode)).map fun _ => ({} : MazeNode)) =
      List.replicate w (List.replicate h ({} : MazeNode)) := by
    have : (fun column : List MazeNode => (resize column h ({} : MazeNode)).map fun _ => ({} : MazeNode)) =
        fun _ => List.replicate h ({} : MazeNode) := by
      funext column
      exact map_const_resize column h ({} : MazeNode) ({} : MazeNode)
    rw [this, map_const_resize]
  unfold generate
  simp only [e1]
  rfl

theorem rect_replicate (w h : Nat) :
    Rect w h (List.replicate w (List.replicate h ({} : MazeNode))) := by
  refine ⟨List.length_replicate _ _, ?_⟩
  intro column hc
  rw [List.eq_of_mem_replicate hc, List.length_replicate]

theorem shape_initial (R : RandomLib) {w h : Nat} (hd : Dim w h) (seed : Int) :
    Shape w h (initial R w h seed) :=
  ⟨hd, rect_replicate w h, rfl⟩

theorem nodeAt_replicate {w h : Nat} {c : Vector2u} {node : MazeNode}
    (hn : nodeAt (List.replicate w (List.replicate h ({} : MazeNode))) c = .ok node) :
    node = {} := by
  unfold nodeAt at hn
  split at hn
  · cases hn
  · rename_i column hc
    split at hn
    · cases hn
    · rename_i nd hnd
      cases hn
      have h1 := List.getElem?_mem hc
      rw [List.eq_of_mem_replicate h1] at hnd
      exact List.eq_of_mem_replicate (List.getElem?_mem hnd)

theorem visitedAt_initial (R : RandomLib) (w h : Nat) (seed : Int) (c : Vector2u) :
    visitedAt (initial R w h seed).mazeNodes c = false := by
  unfold visitedAt
  split
  · rename_i node hn
    rw [nodeAt_replicate hn]
  · rfl

theorem dirsAt_initial (R : RandomLib) (w h : Nat) (seed : Int) (c : Vector2u) :
    dirsAt (initial R w h seed).mazeNodes c = 0 := by
  unfold dirsAt
  split
  · rename_i node hn
    rw [nodeAt_replicate hn]
  · rfl

theorem unvisitedCount_initial (R : RandomLib) (w h : Nat) (seed : Int) :
    unvisitedCount w h (initial R w h seed).mazeNodes = w * h := by
  unfold unvisitedCount
  rw [Finset.filter_true_of_mem, card_cells]
  intro c _
  exact visitedAt_initial R w h seed c

/-! ## Total correctness of `generate` -/

theorem generate_returns {R : RandomLib} (hfair : Fair R) {w h : Nat} (hd : Dim w h)
    (m : Maze) (seed : Int) :
    ∃ N m2, Run R w h .node ⟨0, 0⟩ (initial R w h seed) m2 ∧
      ∀ fuel, N ≤ fuel → generate R fuel m ⟨w, h⟩ seed = .ok (withTexCoords m2) := by
  have hs := shape_initial R hd seed
  have hp : InGrid w h ⟨0, 0⟩ := ⟨hd.1, hd.2.2.1⟩
  obtain ⟨f, m2, hf⟩ := exploreNode_of_loop (explore_terminates hfair w h (w * h)) ⟨0, 0⟩ _ hs hp
    (visitedAt_initial R w h seed _) (by rw [unvisitedCount_initial]; omega)
  refine ⟨f, m2, ((explore_run R w h f).1 _ _ _ hs hp hf).1, ?_⟩
  intro fuel hfuel
  rw [generate_eq, (explore_fuel_mono R f).1 _ _ _ hf fuel hfuel]

theorem generate_unique {R : RandomLib} {w h : Nat} (hd : Dim w h) {m : Maze} {seed : Int}
    {fuel : Nat} {m' : Maze} (hg : generate R fuel m ⟨w, h⟩ seed = .ok m') :
    ∃ m2, Run R w h .node ⟨0, 0⟩ (initial R w h seed) m2 ∧ m' = withTexCoords m2 := by
  have hs := shape_initial R hd seed
  have hp : InGrid w h ⟨0, 0⟩ := ⟨hd.1, hd.2.2.1⟩
  rw [generate_eq] at hg
  split at hg
  · cases hg
  · rename_i m2 hm2
    cases hg
    exact ⟨m2, ((explore_run R w h fuel).1 _ _ _ hs hp hm2).1, rfl⟩

/-! ## The length of the vertex buffer -/

theorem unvisitedCount_visit {w h : Nat} {m : Maze} {p : Vector2u} {node : MazeNode}
    (hs : Shape w h m) (hp : InGrid w h p) (hn : nodeAt m.mazeNodes p = .ok node)
    (hv : visitedAt m.mazeNodes p = false) :
    unvisitedCount w h (visit m p node).mazeNodes + 1 = unvisitedCount w h m.mazeNodes := by
  unfold unvisitedCount
  have hnot : p ∉ (cells w h).filter
      (fun c => visitedAt (visit m p node).mazeNodes c = false) := by
    intro hmem
    have := (Finset.mem_filter.mp hmem).2
    rw [visitedAt_visit hs hp hn] at this
    simp at this
  rw [← Finset.card_insert_of_not_mem hnot]
  congr 1
  ext c
  simp only [Finset.mem_insert, Finset.mem_filter, visitedAt_visit hs hp hn, Bool.or_eq_false_iff,
    decide_eq_false_iff_not]
  constructor
  · rintro (rfl | ⟨hc, hne, hvc⟩)
    · exact ⟨mem_cells.mpr hp, hv⟩
    · exact ⟨hc, hvc⟩
  · rintro ⟨hc, hvc⟩
    by_cases hcp : c = p
    · exact Or.inl hcp
    · exact Or.inr ⟨hc, hcp, hvc⟩

theorem length_nodeQuad (p : Vector2u) : (nodeQuad p).length = 4 := rfl

theorem length_connectionQuad (p n : Vector2u) {d : Nat} (hd : d ∈ directions) :
    (connectionQuad p n d).length = 4 := by
  simp only [directions, List.mem_cons, List.mem_singleton, List.not_mem_nil, or_false] at hd
  rcases hd with rfl | rfl | rfl | rfl <;> simp [connectionQuad, Up, Down, Left, Right]

theorem run_length {R : RandomLib} {w h : Nat} {k : Phase} {p : Vector2u} {m m' : Maze}
    (hr : Run R w h k p m m') (hfresh : k = .node → visitedAt m.mazeNodes p = false) :
    m'.maze.length + (if k = .node then 4 else 0) + 8 * unvisitedCount w h m'.mazeNodes =
      m.maze.length + 8 * unvisitedCount w h m.mazeNodes := by
  induction hr with
  | exit hs hp hn hx =>
    have := unvisitedCount_visit hs hp hn (hfresh rfl)
    simp only [visit, List.length_append, length_nodeQuad, if_true] at this ⊢
    omega
  | inner hs hp hn hx hrun ih =>
    have h1 := unvisitedCount_visit hs hp hn (hfresh rfl)
    have h2 := ih (fun hk => by cases hk)
    simp only [visit, List.length_append, length_nodeQuad, if_true, if_false,
      show (Phase.loop = Phase.node) = False from by simp] at h1 h2 ⊢
    omega
  | done hs hp h0 => simp
  | step fuel hs hp h0 hr hc hrun3 hrun' ih3 ih' =>
    have hcv := step_facts hs hp hr hc
    have h3 := ih3 (fun _ => by rw [hcv.visitedAt_eq]; exact hcv.fresh)
    have h4 := ih' (fun hk => by cases hk)
    have h5 : unvisitedCount w h _ = unvisitedCount w h _ := unvisitedCount_congr hcv.visitedAt_eq
    simp only [hcv.maze, List.length_append, length_connectionQuad _ _ hcv.dir, if_true, if_false,
      show (Phase.loop = Phase.node) = False from by simp] at h3 h4 ⊢
    omega

/-! ## The cells `exploreNode` was called on -/

theorem entered_append (s t : List Event) : entered (s ++ t) = entered s ++ entered t := by
  induction s with
  | nil => rfl
  | cons e s ih => cases e <;> simp [entered, ih]

theorem entered_draws (ds : List Nat) : entered (ds.map Event.draw) = [] := by
  induction ds with
  | nil => rfl
  | cons d ds ih => simpa [entered] using ih

theorem Carving.entered_eq {w h d : Nat} {p n : Vector2u} {m m2 : Maze}
    (hc : Carving w h p m d n m2) : entered m2.trace = entered m.trace := by
  obtain ⟨ds, hds, -⟩ := hc.trace
  rw [hds]
  simp [entered_append, entered, entered_draws]

theorem run_entered {R : RandomLib} {w h : Nat} {k : Phase} {p : Vector2u} {m m' : Maze}
    (hr : Run R w h k p m m') (hfresh : k = .node → visitedAt m.mazeNodes p = false)
    (hin : ∀ c, c ∈ entered m.trace ↔ visitedAt m.mazeNodes c = true)
    (hnd : (entered m.trace).Nodup) :
    (∀ c, c ∈ entered m'.trace ↔ visitedAt m'.mazeNodes c = true) ∧
      (entered m'.trace).Nodup := by
  induction hr with
  | @exit p m node hs hp hn hx =>
    have e : entered (visit m p node).trace = entered m.trace ++ [p] := by
      simp [visit, entered_append, entered]
    constructor
    · intro c
      rw [e, visitedAt_visit hs hp hn, List.mem_append, hin c]
      simp [or_comm]
    · rw [e]
      refine List.Nodup.append hnd (List.nodup_singleton p) ?_
      intro c hc1 hc2
      rw [List.mem_singleton.mp hc2, hin] at hc1
      rw [hfresh rfl] at hc1
      cases hc1
  | @inner p m m' node hs hp hn hx hrun ih =>
    have e : entered (visit m p node).trace = entered m.trace ++ [p] := by
      simp [visit, entered_append, entered]
    apply ih (fun hk => by cases hk)
    · intro c
      rw [e, visitedAt_visit hs hp hn, List.mem_append, hin c]
      simp [or_comm]
    · rw [e]
      refine List.Nodup.append hnd (List.nodup_singleton p) ?_
      intro c hc1 hc2
      rw [List.mem_singleton.mp hc2, hin] at hc1
      rw [hfresh rfl] at hc1
      cases hc1
  | @done p m hs hp h0 =>
    have e : entered (m.trace ++ [Event.test p 0]) = entered m.trace := by
      simp [entered_append, entered]
    simp only [e]
    exact ⟨hin, hnd⟩
  | step fuel hs hp h0 hr hc hrun3 hrun' ih3 ih' =>
    have hcv := step_facts hs hp hr hc
    have h3 := ih3 (fun _ => by rw [hcv.visitedAt_eq]; exact hcv.fresh)
      (by intro c; rw [hcv.entered_eq, hcv.visitedAt_eq]; exact hin c)
      (by rw [hcv.entered_eq]; exact hnd)
    exact ih' (fun hk => by cases hk) h3.1 h3.2

/-! ## Direction bits -/

theorem mem_directions {d : Nat} : d ∈ directions ↔ d = Up ∨ d = Down ∨ d = Left ∨ d = Right := by
  simp [directions]

theorem getOppositeDirection_mem {d : Nat} (hd : d ∈ directions) :
    getOppositeDirection d ∈ directions := by
  rcases mem_directions.mp hd with rfl | rfl | rfl | rfl <;> decide

theorem getOppositeDirection_involutive {d : Nat} (hd : d ∈ directions) :
    getOppositeDirection (getOppositeDirection d) = d := by
  rcases mem_directions.mp hd with rfl | rfl | rfl | rfl <;> decide

theorem and_direction (d e : Nat) (hd : d ∈ directions) (he : e ∈ directions) :
    d &&& e = if e = d then d else 0 := by
  rcases mem_directions.mp hd with rfl | rfl | rfl | rfl <;>
    rcases mem_directions.mp he with rfl | rfl | rfl | rfl <;> decide

theorem direction_ne_zero {d : Nat} (hd : d ∈ directions) : d ≠ 0 := by
  rcases mem_directions.mp hd with rfl | rfl | rfl | rfl <;> decide

theorem lor_eq_zero_iff (a b : Nat) : a ||| b = 0 ↔ a = 0 ∧ b = 0 := by
  constructor
  · intro h0
    have key : ∀ i, (a.testBit i || b.testBit i) = false := by
      intro i
      rw [← Nat.testBit_or, h0, Nat.zero_testBit]
    constructor <;> apply Nat.eq_of_testBit_eq <;> intro i <;>
      have := key i <;> simp only [Bool.or_eq_false_iff] at this <;>
      simp [this.1, this.2]
  · rintro ⟨rfl, rfl⟩
    rfl

theorem or_and_direction (x : Nat) {d e : Nat} (hd : d ∈ directions) (he : e ∈ directions) :
    (x ||| d) &&& e ≠ 0 ↔ x &&& e ≠ 0 ∨ e = d := by
  rw [Nat.and_comm, Nat.and_or_distrib_left, Nat.and_comm e x, Nat.and_comm e d,
    and_direction d e hd he, Ne, lor_eq_zero_iff]
  by_cases hed : e = d
  · subst hed
    simp only [if_true, or_true, iff_true, not_and]
    intro _
    exact direction_ne_zero he
  · simp [hed]

theorem or_lt_sixteen {x d : Nat} (hx : x < 16) (hd : d ∈ directions) : x ||| d < 16 := by
  have hd' : d < 16 := by
    rcases mem_directions.mp hd with rfl | rfl | rfl | rfl <;> decide
  exact Nat.or_lt_two_pow (n := 4) hx hd'

theorem neighbourOf_opposite {c n : Vector2u} {d : Nat} (hd : d ∈ directions)
    (hn : neighbourOf c d = some n) : neighbourOf n (getOppositeDirection d) = some c := by
  rcases mem_directions.mp hd with rfl | rfl | rfl | rfl
  · by_cases h0 : c.y = 0
    · simp [neighbourOf, h0] at hn
    · rw [neighbourOf_up h0] at hn
      cases hn
      have : getOppositeDirection Up = Down := by decide
      rw [this, neighbourOf_down]
      simp only [Option.some.injEq]
      cases c
      simp only [Vector2u.mk.injEq, true_and] at h0 ⊢
      omega
  · rw [neighbourOf_down] at hn
    cases hn
    have : getOppositeDirection Down = Up := by decide
    rw [this, neighbourOf_up (by simp)]
    rfl
  · by_cases h0 : c.x = 0
    · simp [neighbourOf, h0, Up, Down, Left] at hn
    · rw [neighbourOf_left h0] at hn
      cases hn
      have : getOppositeDirection Left = Right := by decide
      rw [this, neighbourOf_right]
      simp only [Option.some.injEq]
      cases c
      simp only [Vector2u.mk.injEq, and_true] at h0 ⊢
      omega
  · rw [neighbourOf_right] at hn
    cases hn
    have : getOppositeDirection Right = Left := by decide
    rw [this, neighbourOf_left (by simp)]
    rfl

/-! ## The symmetry invariant -/

theorem Carving.dirs_mono {w h d : Nat} {p n : Vector2u} {m m2 : Maze}
    (hc : Carving w h p m d n m2) (hs : Shape w h m) (hp : InGrid w h p) (c : Vector2u)
    {e : Nat} (he : e ∈ directions) (hbit : dirsAt m.mazeNodes c &&& e ≠ 0) :
    dirsAt m2.mazeNodes c &&& e ≠ 0 := by
  by_cases hcp : c = p
  · subst hcp
    rw [hc.dirsAt_self hs hp, or_and_direction _ hc.dir he]
    exact Or.inl hbit
  · by_cases hcn : c = n
    · subst hcn
      rw [hc.dirsAt_next hs, or_and_direction _ (getOppositeDirection_mem hc.dir) he]
      exact Or.inl hbit
    · rw [hc.dirsAt_other hcp hcn]
      exact hbit

theorem Carving.symmetric {w h d : Nat} {p n : Vector2u} {m m2 : Maze}
    (hc : Carving w h p m d n m2) (hs : Shape w h m) (hp : InGrid w h p)
    (hsym : Symmetric w h m.mazeNodes) : Symmetric w h m2.mazeNodes := by
  have old : ∀ c, ∀ e ∈ directions, dirsAt m.mazeNodes c &&& e ≠ 0 →
      ∃ n', neighbourOf c e = some n' ∧ InGrid w h n' ∧
        dirsAt m2.mazeNodes n' &&& getOppositeDirection e ≠ 0 := by
    intro c e he hbit
    obtain ⟨n', h1, h2, h3⟩ := hsym c e he hbit
    exact ⟨n', h1, h2, hc.dirs_mono hs hp n' (getOppositeDirection_mem he) h3⟩
  have hod := getOppositeDirection_mem hc.dir
  intro c e he hbit
  by_cases hcp : c = p
  · subst hcp
    rw [hc.dirsAt_self hs hp, or_and_direction _ hc.dir he] at hbit
    rcases hbit with hbit | rfl
    · exact old c e he hbit
    · refine ⟨n, hc.nb, hc.inGrid, ?_⟩
      rw [hc.dirsAt_next hs, or_and_direction _ hod hod]
      exact Or.inr rfl
  · by_cases hcn : c = n
    · subst hcn
      rw [hc.dirsAt_next hs, or_and_direction _ hod he] at hbit
      rcases hbit with hbit | rfl
      · exact old c e he hbit
      · refine ⟨p, neighbourOf_opposite hc.dir hc.nb, hp, ?_⟩
        rw [getOppositeDirection_involutive hc.dir, hc.dirsAt_self hs hp,
          or_and_direction _ hc.dir hc.dir]
        exact Or.inr rfl
    · rw [hc.dirsAt_other hcp hcn] at hbit
      exact old c e he hbit

theorem symmetric_congr {w h : Nat} {g g' : List (List MazeNode)}
    (hd : ∀ c, dirsAt g' c = dirsAt g c) (hsym : Symmetric w h g) : Symmetric w h g' := by
  intro c e he hbit
  rw [hd] at hbit
  obtain ⟨n, h1, h2, h3⟩ := hsym c e he hbit
  exact ⟨n, h1, h2, by rw [hd]; exact h3⟩

theorem run_symmetric {R : RandomLib} {w h : Nat} {k : Phase} {p : Vector2u} {m m' : Maze}
    (hr : Run R w h k p m m') (hsym : Symmetric w h m.mazeNodes) :
    Symmetric w h m'.mazeNodes := by
  induction hr with
  | exit hs hp hn hx => exact symmetric_congr (dirsAt_visit hn) hsym
  | inner hs hp hn hx hrun ih => exact ih (symmetric_congr (dirsAt_visit hn) hsym)
  | done hs hp h0 => exact hsym
  | step fuel hs hp h0 hr hc hrun3 hrun' ih3 ih' =>
    exact ih' (ih3 ((step_facts hs hp hr hc).symmetric hs hp hsym))

theorem Carving.onlyDirections {w h d : Nat} {p n : Vector2u} {m m2 : Maze}
    (hc : Carving w h p m d n m2) (hs : Shape w h m) (hp : InGrid w h p)
    (ho : OnlyDirections m.mazeNodes) : OnlyDirections m2.mazeNodes := by
  intro c
  by_cases hcp : c = p
  · subst hcp
    rw [hc.dirsAt_self hs hp]
    exact or_lt_sixteen (ho c) hc.dir
  · by_cases hcn : c = n
    · subst hcn
      rw [hc.dirsAt_next hs]
      exact or_lt_sixteen (ho c) (getOppositeDirection_mem hc.dir)
    · rw [hc.dirsAt_other hcp hcn]
      exact ho c

theorem run_onlyDirections {R : RandomLib} {w h : Nat} {k : Phase} {p : Vector2u} {m m' : Maze}
    (hr : Run R w h k p m m') (ho : OnlyDirections m.mazeNodes) :
    OnlyDirections m'.mazeNodes := by
  induction hr with
  | exit hs hp hn hx => intro c; rw [dirsAt_visit hn]; exact ho c
  | inner hs hp hn hx hrun ih => exact ih (fun c => by rw [dirsAt_visit hn]; exact ho c)
  | done hs hp h0 => exact ho
  | step fuel hs hp h0 hr hc hrun3 hrun' ih3 ih' =>
    exact ih' (ih3 ((step_facts hs hp hr hc).onlyDirections hs hp ho))

/-! ## Adding a pendant edge to a forest -/

theorem isAcyclic_of_pendant {V : Type} [DecidableEq V] {G G' : SimpleGraph V} {u v : V}
    (hG : G.IsAcyclic) (hiso : ∀ x, ¬ G.Adj v x)
    (hadj : ∀ a b, G'.Adj a b → G.Adj a b ∨ (a = u ∧ b = v) ∨ (a = v ∧ b = u)) :
    G'.IsAcyclic := by
  have hvu : ∀ x, G'.Adj v x → x = u := by
    intro x hx
    rcases hadj v x hx with h1 | ⟨h1, h2⟩ | ⟨_, h2⟩
    · exact absurd h1 (hiso x)
    · subst h1; subst h2; exact absurd hx (G'.loopless _)
    · exact h2
  intro a c hc
  by_cases hv : v ∈ c.support
  · -- rotate the cycle so that it starts at the pendant vertex
    have hc' := hc.rotate hv
    generalize c.rotate hv = c' at hc'
    cases c' with
    | nil => exact hc'.ne_nil rfl
    | @cons _ x _ hx q =>
      have hxu := hvu x hx
      subst hxu
      rw [SimpleGraph.Walk.cons_isCycle_iff] at hc'
      obtain ⟨hq, hnot⟩ := hc'
      apply hnot
      have hrev : s(v, x) ∈ q.reverse.edges := by
        generalize q.reverse = r
        cases r with
        | nil => exact absurd rfl (G'.ne_of_adj hx)
        | @cons _ y _ hy r' =>
          have := hvu y hy
          subst this
          simp [SimpleGraph.Walk.edges_cons]
      rw [SimpleGraph.Walk.edges_reverse] at hrev
      exact List.mem_reverse.mp hrev
  · -- the cycle avoids the pendant vertex: it is a cycle of the old graph
    have hedges : ∀ e, e ∈ c.edges → e ∈ G.edgeSet := by
      intro e he
      induction e using Sym2.ind with
      | _ x y =>
        have hx := c.fst_mem_support_of_mem_edges he
        have hy := c.snd_mem_support_of_mem_edges he
        rcases hadj x y (c.adj_of_mem_edges he) with h1 | ⟨_, h2⟩ | ⟨h1, _⟩
        · exact h1
        · exact absurd (h2 ▸ hy) hv
        · exact absurd (h1 ▸ hx) hv
    exact hG _ (hc.transfer hedges)

/-! ## The maze graph along a run -/

theorem cellPos_injective {w h : Nat} {a b : Fin w × Fin h} (hab : cellPos a = cellPos b) :
    a = b := by
  simp only [cellPos, Vector2u.mk.injEq] at hab
  exact Prod.ext (Fin.ext hab.1) (Fin.ext hab.2)

theorem mazeGraph_adj {w h : Nat} {g : List (List MazeNode)} {a b : Fin w × Fin h} :
    (mazeGraph w h g).Adj a b ↔
      a ≠ b ∧ (Open g (cellPos a) (cellPos b) ∨ Open g (cellPos b) (cellPos a)) :=
  Iff.rfl

theorem dirsAt_ne_zero_of_and {x d : Nat} (hbit : x &&& d ≠ 0) : x ≠ 0 := by
  rintro rfl
  simp at hbit

theorem forest_congr {w h : Nat} {g g' : List (List MazeNode)} {live live' : Vector2u → Prop}
    (hd : ∀ c, dirsAt g' c = dirsAt g c) (hl : ∀ c, live c ↔ live' c)
    (hf : Forest w h g live) : Forest w h g' live' := by
  have hop : ∀ a b, Open g' a b ↔ Open g a b := by
    intro a b
    unfold Open
    simp only [hd]
  have hG : mazeGraph w h g' = mazeGraph w h g := by
    ext a b
    simp only [mazeGraph_adj, hop]
  refine ⟨symmetric_congr hd hf.sym, hG ▸ hf.acyclic, ?_, ?_⟩
  · intro c hc
    rw [hd] at hc
    exact (hl c).mp (hf.open_live c hc)
  · intro a b ha hb
    rw [hG]
    exact hf.reach a b ((hl _).mpr ha) ((hl _).mpr hb)

theorem Carving.open_mono {w h d : Nat} {p n : Vector2u} {m m2 : Maze}
    (hc : Carving w h p m d n m2) (hs : Shape w h m) (hp : InGrid w h p) {a b : Vector2u}
    (hab : Open m.mazeNodes a b) : Open m2.mazeNodes a b := by
  obtain ⟨e, he, hbit, hnb⟩ := hab
  exact ⟨e, he, hc.dirs_mono hs hp a he hbit, hnb⟩

theorem Carving.open_new {w h d : Nat} {p n : Vector2u} {m m2 : Maze}
    (hc : Carving w h p m d n m2) (hs : Shape w h m) (hp : InGrid w h p) {a b : Vector2u}
    (hab : Open m2.mazeNodes a b) :
    Open m.mazeNodes a b ∨ (a = p ∧ b = n) ∨ (a = n ∧ b = p) := by
  obtain ⟨e, he, hbit, hnb⟩ := hab
  by_cases hap : a = p
  · subst hap
    rw [hc.dirsAt_self hs hp, or_and_direction _ hc.dir he] at hbit
    rcases hbit with hbit | rfl
    · exact Or.inl ⟨e, he, hbit, hnb⟩
    · rw [hc.nb] at hnb
      cases hnb
      exact Or.inr (Or.inl ⟨rfl, rfl⟩)
  · by_cases han : a = n
    · subst han
      rw [hc.dirsAt_next hs, or_and_direction _ (getOppositeDirection_mem hc.dir) he] at hbit
      rcases hbit with hbit | rfl
      · exact Or.inl ⟨e, he, hbit, hnb⟩
      · rw [neighbourOf_opposite hc.dir hc.nb] at hnb
        cases hnb
        exact Or.inr (Or.inr ⟨rfl, rfl⟩)
    · rw [hc.dirsAt_other hap han] at hbit
      exact Or.inl ⟨e, he, hbit, hnb⟩

theorem Carving.forest {w h d : Nat} {p n : Vector2u} {m m2 : Maze}
    (hc : Carving w h p m d n m2) (hs : Shape w h m) (hp : InGrid w h p)
    (hv : visitedAt m.mazeNodes p = true)
    (hf : Forest w h m.mazeNodes (fun c => visitedAt m.mazeNodes c = true)) :
    Forest w h m2.mazeNodes (fun c => visitedAt m2.mazeNodes c = true ∨ c = n) := by
  -- the two ends of the new edge, as vertices
  let vp : Fin w × Fin h := (⟨p.x, hp.1⟩, ⟨p.y, hp.2⟩)
  let vn : Fin w × Fin h := (⟨n.x, hc.inGrid.1⟩, ⟨n.y, hc.inGrid.2⟩)
  have hvp : cellPos vp = p := rfl
  have hvn : cellPos vn = n := rfl
  have hn0 : dirsAt m.mazeNodes n = 0 := by
    by_contra h0
    have := hf.open_live n h0
    simp only at this
    rw [hc.fresh] at this
    cases this
  have hle : mazeGraph w h m.mazeNodes ≤ mazeGraph w h m2.mazeNodes := by
    intro a b hab
    rw [mazeGraph_adj] at hab ⊢
    exact ⟨hab.1, hab.2.imp (hc.open_mono hs hp) (hc.open_mono hs hp)⟩
  have hpn : (mazeGraph w h m2.mazeNodes).Adj vp vn := by
    rw [mazeGraph_adj]
    refine ⟨fun he => hc.ne (by rw [← hvn, ← hvp, he]), Or.inl ⟨d, hc.dir, ?_, hc.nb⟩⟩
    rw [hvp, hc.dirsAt_self hs hp, or_and_direction _ hc.dir hc.dir]
    exact Or.inr rfl
  refine ⟨hc.symmetric hs hp hf.sym, ?_, ?_, ?_⟩
  · apply isAcyclic_of_pendant (u := vp) (v := vn) hf.acyclic
    · intro x hx
      rw [mazeGraph_adj] at hx
      rcases hx.2 with ⟨e, he, hbit, -⟩ | ⟨e, he, hbit, hnb⟩
      · rw [hvn, hn0] at hbit
        simp at hbit
      · obtain ⟨n', h1, -, h3⟩ := hf.sym _ e he hbit
        rw [hnb] at h1
        cases h1
        rw [hvn, hn0] at h3
        simp at h3
    · intro a b hab
      rw [mazeGraph_adj] at hab
      obtain ⟨hne, hab | hab⟩ := hab
      · rcases hc.open_new hs hp hab with h1 | ⟨h1, h2⟩ | ⟨h1, h2⟩
        · exact Or.inl (mazeGraph_adj.mpr ⟨hne, Or.inl h1⟩)
        · exact Or.inr (Or.inl ⟨cellPos_injective h1, cellPos_injective h2⟩)
        · exact Or.inr (Or.inr ⟨cellPos_injective h1, cellPos_injective h2⟩)
      · rcases hc.open_new hs hp hab with h1 | ⟨h1, h2⟩ | ⟨h1, h2⟩
        · exact Or.inl (mazeGraph_adj.mpr ⟨hne, Or.inr h1⟩)
        · exact Or.inr (Or.inr ⟨cellPos_injective h2, cellPos_injective h1⟩)
        · exact Or.inr (Or.inl ⟨cellPos_injective h2, cellPos_injective h1⟩)
  · intro c h0
    by_cases hcp : c = p
    · left; rw [hcp, hc.visitedAt_eq]; exact hv
    · by_cases hcn : c = n
      · exact Or.inr hcn
      · left
        rw [hc.dirsAt_other hcp hcn] at h0
        rw [hc.visitedAt_eq]
        exact hf.open_live c h0
  · have reach_p : ∀ a : Fin w × Fin h,
        (visitedAt m2.mazeNodes (cellPos a) = true ∨ cellPos a = n) →
        (mazeGraph w h m2.mazeNodes).Reachable a vp := by
      intro a ha
      rcases ha with ha | ha
      · rw [hc.visitedAt_eq] at ha
        exact (hf.reach a vp ha hv).mono hle
      · have : a = vn := cellPos_injective (ha.trans hvn.symm)
        rw [this]
        exact hpn.symm.reachable
    intro a b ha hb
    exact (reach_p a ha).trans (reach_p b hb).symm

theorem run_forest {R : RandomLib} {w h : Nat} {k : Phase} {p : Vector2u} {m m' : Maze}
    (hr : Run R w h k p m m')
    (hnode : k = .node → Forest w h m.mazeNodes
      (fun c => visitedAt m.mazeNodes c = true ∨ c = p))
    (hloop : k = .loop → visitedAt m.mazeNodes p = true ∧
      Forest w h m.mazeNodes (fun c => visitedAt m.mazeNodes c = true)) :
    Forest w h m'.mazeNodes (fun c => visitedAt m'.mazeNodes c = true) := by
  induction hr with
  | @exit p m node hs hp hn hx =>
    refine forest_congr (dirsAt_visit hn) ?_ (hnode rfl)
    intro c
    rw [visitedAt_visit hs hp hn]
    simp [or_comm]
  | @inner p m m' node hs hp hn hx hrun ih =>
    apply ih (fun hk => by cases hk)
    intro _
    constructor
    · rw [visitedAt_visit hs hp hn]; simp
    · refine forest_congr (dirsAt_visit hn) ?_ (hnode rfl)
      intro c
      rw [visitedAt_visit hs hp hn]
      simp [or_comm]
  | done hs hp h0 => exact (hloop rfl).2
  | step fuel hs hp h0 hr hc hrun3 hrun' ih3 ih' =>
    have hcv := step_facts hs hp hr hc
    obtain ⟨hv, hf⟩ := hloop rfl
    have h3 := ih3 (fun _ => hcv.forest hs hp hv hf) (fun hk => by cases hk)
    apply ih' (fun hk => by cases hk)
    intro _
    exact ⟨run_mono hrun3 _ (by rw [hcv.visitedAt_eq]; exact hv), h3⟩

/-! ## Nothing happens at the exit cell -/

theorem source_draws (ds : List Nat) : ∀ e ∈ ds.map Event.draw, e.source = none := by
  intro e he
  obtain ⟨d, -, rfl⟩ := List.mem_map.mp he
  rfl

theorem run_exit_leaf {R : RandomLib} {w h : Nat} {k : Phase} {p : Vector2u} {m m' : Maze}
    (hr : Run R w h k p m m') (hk : k = .loop → p ≠ exitOf w h)
    (hm : ∀ e ∈ m.trace, e.source ≠ some (exitOf w h)) :
    ∀ e ∈ m'.trace, e.source ≠ some (exitOf w h) := by
  induction hr with
  | exit hs hp hn hx =>
    intro e he
    simp only [visit, List.mem_append, List.mem_singleton] at he
    rcases he with he | rfl
    · exact hm e he
    · simp [Event.source]
  | inner hs hp hn hx hrun ih =>
    apply ih (fun _ => hx)
    intro e he
    simp only [visit, List.mem_append, List.mem_singleton] at he
    rcases he with he | rfl
    · exact hm e he
    · simp [Event.source]
  | done hs hp h0 =>
    intro e he
    simp only [List.mem_append, List.mem_singleton] at he
    rcases he with he | rfl
    · exact hm e he
    · simpa [Event.source] using hk rfl
  | step fuel hs hp h0 hr hc hrun3 hrun' ih3 ih' =>
    have hcv := step_facts hs hp hr hc
    obtain ⟨ds, hds, -⟩ := hcv.trace
    apply ih' hk
    apply ih3 (fun hk' => by cases hk')
    intro e he
    rw [hds] at he
    simp only [List.mem_append, List.mem_cons, List.mem_singleton, List.not_mem_nil,
      or_false] at he
    rcases he with (he | rfl | he) | rfl
    · exact hm e he
    · simpa [Event.source] using hk rfl
    · rw [source_draws ds e he]; simp
    · simpa [Event.source] using hk rfl

/-! ## The maze that `generate` leaves -/

theorem forest_initial (R : RandomLib) (w h : Nat) (seed : Int) :
    Forest w h (initial R w h seed).mazeNodes
      (fun c => visitedAt (initial R w h seed).mazeNodes c = true ∨ c = ⟨0, 0⟩) := by
  have hop : ∀ a b, ¬ Open (initial R w h seed).mazeNodes a b := by
    rintro a b ⟨d, -, hbit, -⟩
    rw [dirsAt_initial] at hbit
    simp at hbit
  refine ⟨?_, ?_, ?_, ?_⟩
  · intro c d _ hbit
    rw [dirsAt_initial] at hbit
    simp at hbit
  · have : mazeGraph w h (initial R w h seed).mazeNodes = ⊥ := by
      ext a b
      simp only [mazeGraph_adj, SimpleGraph.bot_adj, iff_false, not_and, not_or]
      exact fun _ => ⟨hop _ _, hop _ _⟩
    rw [this]
    exact SimpleGraph.isAcyclic_bot
  · intro c hc
    exact absurd (dirsAt_initial R w h seed c) hc
  · intro a b ha hb
    simp only [visitedAt_initial, Bool.false_eq_true, false_or] at ha hb
    rw [cellPos_injective (ha.trans hb.symm)]

theorem carved_of_run {R : RandomLib} {w h : Nat} {seed : Int} {m2 : Maze}
    (hr : Run R w h .node ⟨0, 0⟩ (initial R w h seed) m2) : Carved w h (withTexCoords m2) := by
  obtain ⟨hs, hp, hs2⟩ := run_shape hr
  have hcov := run_covers hr (visitedAt_initial R w h seed)
  have hfor := run_forest hr (fun _ => forest_initial R w h seed) (fun hk => by cases hk)
  have hent := run_entered hr (fun _ => visitedAt_initial R w h seed _)
    (by
      intro c
      constructor
      · intro hc
        simp [initial, entered] at hc
      · intro hv
        rw [visitedAt_initial] at hv
        cases hv)
    (by simp [initial, entered])
  have hlen := run_length hr (fun _ => visitedAt_initial R w h seed _)
  have hu0 : unvisitedCount w h m2.mazeNodes = 0 := by
    unfold unvisitedCount
    rw [Finset.card_eq_zero, Finset.filter_eq_empty_iff]
    intro c hc
    rw [hcov c (mem_cells.mp hc)]
    simp
  have hlen2 : m2.maze.length + 4 = 8 * (w * h) := by
    rw [hu0, unvisitedCount_initial] at hlen
    simpa [initial] using hlen
  have htree : (mazeGraph w h m2.mazeNodes).IsTree := by
    haveI : Nonempty (Fin w × Fin h) := ⟨(⟨0, hp.1⟩, ⟨0, hp.2⟩)⟩
    exact ⟨⟨fun a b => hfor.reach a b (hcov _ ⟨a.1.2, a.2.2⟩) (hcov _ ⟨b.1.2, b.2.2⟩)⟩,
      hfor.acyclic⟩
  have honly : OnlyDirections m2.mazeNodes :=
    run_onlyDirections hr (fun c => by rw [dirsAt_initial]; decide)
  have hleaf : ∀ e ∈ m2.trace, e.source ≠ some (exitOf w h) :=
    run_exit_leaf hr (fun hk => by cases hk) (by simp [initial])
  exact
    { rect := hs2.rect
      visited := hcov
      symmetric := hfor.sym
      onlyDirections := honly
      tree := htree
      length := by
        simp only [withTexCoords, List.length_map]
        omega
      entered_nodup := hent.2
      entered_cells := fun c =>
        (hent.1 c).trans ⟨visitedAt_inGrid hs2.rect, hcov c⟩
      exit_leaf := hleaf
      texCoords := by
        intro v hv
        simp only [withTexCoords, List.mem_map] at hv
        obtain ⟨v0, -, rfl⟩ := hv
        rfl }

/-! ## A fair random library -/

theorem engineAfter_counterLib (n e : Nat) : engineAfter counterLib n e = e + n := by
  induction n generalizing e with
  | zero => rfl
  | succ n ih =>
    have : engineAfter counterLib (n + 1) e = engineAfter counterLib n (e + 1) := by
      simp [engineAfter, counterLib, Function.iterate_succ_apply]
    rw [this, ih]
    omega

theorem counterLib_fair : Fair counterLib := by
  intro e k hk
  refine ⟨4 * e + k, ?_⟩
  rw [engineAfter_counterLib]
  show 0 + (e + (4 * e + k)) % (4 - 0 + 1) = k
  omega

/-! ## `generate` returns a carved maze -/

theorem generate_carved {R : RandomLib} (hfair : Fair R) {w h : Nat} (hd : Dim w h)
    (m : Maze) (seed : Int) :
    ∃ N, ∀ fuel, N ≤ fuel →
      ∃ m', generate R fuel m ⟨w, h⟩ seed = .ok m' ∧ Carved w h m' := by
  obtain ⟨N, m2, hrun, hgen⟩ := generate_returns hfair hd m seed
  exact ⟨N, fun fuel hf => ⟨withTexCoords m2, hgen fuel hf, carved_of_run hrun⟩⟩

theorem carved_of_generate {R : RandomLib} {w h : Nat} (hd : Dim w h) {m : Maze} {seed : Int}
    {fuel : Nat} {m' : Maze} (hg : generate R fuel m ⟨w, h⟩ seed = .ok m') : Carved w h m' := by
  obtain ⟨m2, hrun, rfl⟩ := generate_unique hd hg
  exact carved_of_run hrun

/-! ## No access outside the grid -/

theorem redraw_error (R : RandomLib) (a : Nat) :
    ∀ (f : Nat) (x : Nat × Maze) (e : Fault), redraw R a f x = .error e → e = .outOfFuel := by
  intro f
  induction f with
  | zero =>
    intro x e he
    obtain ⟨d0, m0⟩ := x
    unfold redraw at he
    split at he
    · cases he
    · cases he; rfl
  | succ f ih =>
    intro x e he
    obtain ⟨d0, m0⟩ := x
    unfold redraw at he
    split at he
    · cases he
    · exact ih _ _ he

theorem explore_no_fault (R : RandomLib) (w h : Nat) : ∀ fuel : Nat,
    (∀ p m e, Shape w h m → InGrid w h p → exploreNode R fuel p m = .error e →
      e = .outOfFuel) ∧
    (∀ p m e, Shape w h m → InGrid w h p → exploreLoop R fuel p m = .error e →
      e = .outOfFuel) := by
  intro fuel
  induction fuel with
  | zero =>
    constructor <;> intro p m e _ _ he
    · simp only [exploreNode] at he; cases he; rfl
    · simp only [exploreLoop] at he; cases he; rfl
  | succ fuel ih =>
    obtain ⟨ihn, ihl⟩ := ih
    constructor
    · intro p m e hs hp he
      obtain ⟨node, hnode⟩ := nodeAt_of_inGrid hs.rect hp
      have hs1 := shape_visit hs hnode
      rw [exploreNode] at he
      simp only [hnode, isExit_eq p hs1.dim hs1.rect] at he
      by_cases hx : p = exitOf w h
      · simp only [hx, decide_True] at he
        cases he
      · simp only [hx, decide_False] at he
        exact ihl p _ e hs1 hp he
    · intro p m e hs hp he
      rw [exploreLoop] at he
      simp only [getUnvisitedNeighbours_eq hs.dim hs.rect hp] at he
      by_cases h0 : unvisitedMask w h m.mazeNodes p = 0
      · simp only [h0, if_true] at he
        cases he
      · simp only [h0, if_false] at he
        split at he
        · rename_i e' hr
          cases he
          exact redraw_error R _ _ _ _ hr
        · rename_i d m1 hr
          have hs0 : Shape w h { m with trace := m.trace ++
              [Event.test p (unvisitedMask w h m.mazeNodes p)] } :=
            ⟨hs.dim, hs.rect, hs.dist⟩
          have hdrawn := pick_spec R _ fuel hs0.dist hr
          have hs1 := shape_of_drawn hs0 hdrawn
          obtain ⟨k, hk, rfl⟩ := hdrawn.bit
          obtain ⟨hdir, n, hnb, hn, -⟩ := unvisitedMask_hit hk hdrawn.hit
          rw [carve_spec hs1 hp hdir hnb hn] at he
          simp only at he
          split at he
          · rename_i e' hn3
            cases he
            exact ihn n _ _ (shape_carved p _ n hs1) hn hn3
          · rename_i m3 hn3
            obtain ⟨-, hs3⟩ := (explore_run R w h fuel).1 n _ m3 (shape_carved p _ n hs1) hn hn3
            exact ihl p m3 e hs3 hp he

theorem generate_no_fault (R : RandomLib) {w h : Nat} (hd : Dim w h) (fuel : Nat) (m : Maze)
    (seed : Int) (e : Fault) (hg : generate R fuel m ⟨w, h⟩ seed = .error e) :
    e = .outOfFuel := by
  rw [generate_eq] at hg
  split at hg
  · rename_i e' he
    cases hg
    have hp : InGrid w h ⟨0, 0⟩ := ⟨hd.1, hd.2.2.1⟩
    exact (explore_no_fault R w h fuel).1 _ _ _ (shape_initial R hd seed) hp he
  · cases hg

/-! ## Counting the calls and the carvings -/

theorem carvings_append (s t : List Event) : carvings (s ++ t) = carvings s ++ carvings t := by
  induction s with
  | nil => rfl
  | cons e s ih => cases e <;> simp [carvings, ih]

theorem carvings_draws (ds : List Nat) : carvings (ds.map Event.draw) = [] := by
  induction ds with
  | nil => rfl
  | cons d ds ih => simpa [carvings] using ih

theorem Carving.carvings_eq {w h d : Nat} {p n : Vector2u} {m m2 : Maze}
    (hc : Carving w h p m d n m2) : carvings m2.trace = carvings m.trace ++ [(p, d, n)] := by
  obtain ⟨ds, hds, -⟩ := hc.trace
  rw [hds]
  simp [carvings_append, carvings, carvings_draws]

theorem run_counts {R : RandomLib} {w h : Nat} {k : Phase} {p : Vector2u} {m m' : Maze}
    (hr : Run R w h k p m m') :
    (entered m'.trace).length + (carvings m.trace).length =
        (entered m.trace).length + (carvings m'.trace).length + (if k = .node then 1 else 0) ∧
      m'.maze.length + 4 * (entered m.trace).length + 4 * (carvings m.trace).length =
        m.maze.length + 4 * (entered m'.trace).length + 4 * (carvings m'.trace).length := by
  induction hr with
  | exit hs hp hn hx =>
    simp [visit, entered_append, carvings_append, entered, carvings, length_nodeQuad]
    omega
  | inner hs hp hn hx hrun ih =>
    simp only [visit, entered_append, carvings_append, entered, carvings, List.length_append,
      List.length_singleton, List.length_nil, length_nodeQuad, if_true, if_false,
      List.append_nil, show (Phase.loop = Phase.node) = False from by simp] at ih ⊢
    omega
  | done hs hp h0 =>
    simp [entered_append, carvings_append, entered, carvings]
  | step fuel hs hp h0 hr hc hrun3 hrun' ih3 ih' =>
    have hcv := step_facts hs hp hr hc
    simp only [hcv.entered_eq, hcv.carvings_eq, hcv.maze, List.length_append,
      List.length_singleton, length_connectionQuad _ _ hcv.dir, if_true, if_false,
      show (Phase.loop = Phase.node) = False from by simp] at ih3 ih' ⊢
    omega

/-! ## Every carving goes to a fresh cell of the grid -/

theorem carvesFresh_nil (w h : Nat) : CarvesFresh w h [] := by
  intro pre post p d n he
  cases pre <;> cases he

theorem CarvesFresh.snoc {w h : Nat} {t : List Event} {e : Event} (ht : CarvesFresh w h t)
    (he : ∀ p d n, e = Event.carve p d n →
      d ∈ directions ∧ neighbourOf p d = some n ∧ nextPositionOf p d = n ∧ InGrid w h n ∧
        n ∉ entered t) :
    CarvesFresh w h (t ++ [e]) := by
  intro pre post p d n heq
  rcases List.eq_nil_or_concat post with rfl | ⟨post', x, rfl⟩
  · have h1 : t ++ [e] = pre ++ [Event.carve p d n] := heq
    obtain ⟨h2, h3⟩ := List.append_inj' h1 rfl
    simp only [List.cons.injEq, and_true] at h3
    rw [← h2]
    exact he p d n h3
  · have h1 : t ++ [e] = (pre ++ Event.carve p d n :: post') ++ [x] := by
      rw [heq]; simp
    obtain ⟨h2, -⟩ := List.append_inj' h1 rfl
    exact ht pre post' p d n h2

theorem CarvesFresh.append {w h : Nat} {s : List Event} :
    ∀ {t : List Event}, CarvesFresh w h t → (∀ e ∈ s, ∀ p d n, e ≠ Event.carve p d n) →
      CarvesFresh w h (t ++ s) := by
  induction s with
  | nil => intro t ht _; simpa using ht
  | cons e s ih =>
    intro t ht hs
    have h1 : CarvesFresh w h (t ++ [e]) :=
      ht.snoc (fun p d n heq => absurd heq (hs e (List.mem_cons_self _ _) p d n))
    have := ih h1 (fun e' he' => hs e' (List.mem_cons_of_mem _ he'))
    simpa using this

theorem entered_visit {w h : Nat} {m : Maze} {p : Vector2u} {node : MazeNode}
    (hs : Shape w h m) (hp : InGrid w h p) (hn : nodeAt m.mazeNodes p = .ok node)
    (hfresh : visitedAt m.mazeNodes p = false)
    (hin : ∀ c, c ∈ entered m.trace ↔ visitedAt m.mazeNodes c = true)
    (hnd : (entered m.trace).Nodup) :
    (∀ c, c ∈ entered (visit m p node).trace ↔ visitedAt (visit m p node).mazeNodes c = true) ∧
      (entered (visit m p node).trace).Nodup := by
  have e : entered (visit m p node).trace = entered m.trace ++ [p] := by
    simp [visit, entered_append, entered]
  constructor
  · intro c
    rw [e, visitedAt_visit hs hp hn, List.mem_append, hin c]
    simp [or_comm]
  · rw [e]
    refine List.Nodup.append hnd (List.nodup_singleton p) ?_
    intro c hc1 hc2
    rw [List.mem_singleton.mp hc2, hin] at hc1
    rw [hfresh] at hc1
    cases hc1

theorem Carving.carvesFresh {w h d : Nat} {p n : Vector2u} {m m2 : Maze}
    (hc : Carving w h p m d n m2) (hs : Shape w h m)
    (hin : ∀ c, c ∈ entered m.trace ↔ visitedAt m.mazeNodes c = true)
    (hm : CarvesFresh w h m.trace) : CarvesFresh w h m2.trace := by
  obtain ⟨ds, hds, -⟩ := hc.trace
  rw [hds]
  have h1 : CarvesFresh w h
      (m.trace ++ (Event.test p (unvisitedMask w h m.mazeNodes p) :: ds.map Event.draw)) := by
    apply hm.append
    intro e he q d' n' heq
    rcases List.mem_cons.mp he with rfl | he
    · cases heq
    · obtain ⟨v, -, rfl⟩ := List.mem_map.mp he
      cases heq
  apply h1.snoc
  intro q d' n' heq
  cases heq
  refine ⟨hc.dir, hc.nb, nextPositionOf_eq hs.dim hc.dir hc.nb hc.inGrid, hc.inGrid, ?_⟩
  intro hmem
  rw [entered_append] at hmem
  have : entered (Event.test p (unvisitedMask w h m.mazeNodes p) :: ds.map Event.draw) = [] := by
    simp [entered, entered_draws]
  rw [this, List.append_nil, hin, hc.fresh] at hmem
  cases hmem

theorem run_carvesFresh {R : RandomLib} {w h : Nat} {k : Phase} {p : Vector2u} {m m' : Maze}
    (hr : Run R w h k p m m') (hfresh : k = .node → visitedAt m.mazeNodes p = false)
    (hin : ∀ c, c ∈ entered m.trace ↔ visitedAt m.mazeNodes c = true)
    (hnd : (entered m.trace).Nodup) (hm : CarvesFresh w h m.trace) :
    CarvesFresh w h m'.trace := by
  induction hr with
  | exit hs hp hn hx =>
    exact hm.snoc (fun p d n heq => by cases heq)
  | inner hs hp hn hx hrun ih =>
    obtain ⟨h1, h2⟩ := entered_visit hs hp hn (hfresh rfl) hin hnd
    exact ih (fun hk => by cases hk) h1 h2 (hm.snoc (fun p d n heq => by cases heq))
  | done hs hp h0 => exact hm.snoc (fun p d n heq => by cases heq)
  | @step p n m m1 m2 m3 m' d fuel hs hp h0 hr hc hrun3 hrun' ih3 ih' =>
    have hcv := step_facts hs hp hr hc
    have hfresh2 : visitedAt m2.mazeNodes n = false := by
      rw [hcv.visitedAt_eq]; exact hcv.fresh
    have hin2 : ∀ c, c ∈ entered m2.trace ↔ visitedAt m2.mazeNodes c = true := by
      intro c; rw [hcv.entered_eq, hcv.visitedAt_eq]; exact hin c
    have hnd2 : (entered m2.trace).Nodup := by rw [hcv.entered_eq]; exact hnd
    have h3 := run_entered hrun3 (fun _ => hfresh2) hin2 hnd2
    exact ih' (fun hk => by cases hk) h3.1 h3.2
      (ih3 (fun _ => hfresh2) hin2 hnd2 (hcv.carvesFresh hs hin hm))

/-! ## Geometry of the quads -/

theorem pow2_eq (z : ℤ) : pow2 z = (2 : ℚ) ^ z := by
  unfold pow2
  split
  · rename_i hz
    obtain ⟨n, rfl⟩ := Int.eq_ofNat_of_zero_le hz
    simp
  · rename_i hz
    obtain ⟨n, hn⟩ := Int.eq_ofNat_of_zero_le (show 0 ≤ -z by omega)
    have hz' : z = -(n : ℤ) := by omega
    subst hz'
    simp

theorem roundHalfEven_intCast (k : ℤ) : roundHalfEven (k : ℚ) = k := by
  unfold roundHalfEven
  simp

theorem two_pow_log2Fuel_le (fuel : ℕ) : ∀ n, n ≠ 0 → 2 ^ log2Fuel fuel n ≤ n := by
  induction fuel with
  | zero => intro n hn; simp only [log2Fuel, pow_zero]; omega
  | succ fuel ih =>
    intro n hn
    unfold log2Fuel
    split
    · rename_i h2
      have := ih (n / 2) (by omega)
      rw [pow_succ]
      omega
    · simp only [pow_zero]; omega

theorem log2_lt {n k : ℕ} (hn : n ≠ 0) (hk : n < 2 ^ k) : log2 n < k := by
  have h := two_pow_log2Fuel_le n n hn
  by_contra hlt
  have : 2 ^ k ≤ 2 ^ log2 n := Nat.pow_le_pow_right (by decide) (Nat.le_of_not_lt hlt)
  unfold log2 at this
  omega

theorem binaryExponent_intCast_lt {n : ℤ} (hn : n ≠ 0) {k : ℕ} (hk : n.natAbs < 2 ^ k) :
    binaryExponent (n : ℚ) < k := by
  have ha := log2_lt (Int.natAbs_ne_zero.mpr hn) hk
  have hb : log2 1 = 0 := by decide
  unfold binaryExponent
  simp only [Rat.intCast_num, Rat.intCast_den, hb]
  split <;> omega

theorem binaryRound_exact {prec : ℕ} {emin : ℤ} {q : ℚ} (m t : ℤ) (hq : q = m * (2 : ℚ) ^ t)
    (ht : max (binaryExponent q) emin - (prec - 1) ≤ t) : binaryRound prec emin q = q := by
  unfold binaryRound
  split
  · rename_i h0; exact h0.symm
  · generalize max (binaryExponent q) emin - ((prec : ℤ) - 1) = u at ht
    obtain ⟨j, hj⟩ := Int.eq_ofNat_of_zero_le (show 0 ≤ t - u by omega)
    have h2 : (2 : ℚ) ≠ 0 := by norm_num
    have hdiv : q / pow2 u = ((m * 2 ^ j : ℤ) : ℚ) := by
      rw [pow2_eq, hq, mul_div_assoc, ← zpow_sub₀ h2, hj, zpow_natCast]
      push_cast
      rfl
    rw [hdiv, roundHalfEven_intCast, pow2_eq, hq]
    push_cast
    rw [mul_assoc, ← zpow_natCast, ← zpow_add₀ h2, ← hj]
    congr 2
    omega

theorem toFloat_intCast {n : ℤ} (hn : n.natAbs < 2 ^ 24) : toFloat (n : ℚ) = n := by
  by_cases h0 : n = 0
  · subst h0; rfl
  · apply binaryRound_exact n 0 (by simp)
    have := binaryExponent_intCast_lt h0 hn
    have : max (binaryExponent (n : ℚ)) (-126) ≤ 23 := max_le (by omega) (by decide)
    push_cast
    omega

theorem toFloat_even {n : ℤ} (hn : n.natAbs < 2 ^ 24) : toFloat (2 * n : ℚ) = 2 * n := by
  by_cases h0 : n = 0
  · subst h0; simp; rfl
  · have hcast : (2 * n : ℚ) = ((2 * n : ℤ) : ℚ) := by push_cast; rfl
    apply binaryRound_exact n 1 (by rw [zpow_one]; ring)
    rw [hcast]
    have h2 : (2 * n).natAbs < 2 ^ 25 := by
      rw [Int.natAbs_mul]
      simp only [Int.reduceAbs, Nat.reducePow] at hn ⊢
      omega
    have := binaryExponent_intCast_lt (show 2 * n ≠ 0 by omega) h2
    have : max (binaryExponent ((2 * n : ℤ) : ℚ)) (-126) ≤ 24 := max_le (by omega) (by decide)
    push_cast at this ⊢
    omega

theorem nodeSize_eq : nodeSize = 50 := by decide!

theorem corridorWidthFactor_eq : corridorWidthFactor = 13421773 / 33554432 := by decide!

theorem half_corridor : fmul nodeSize corridorWidthFactor = 20 := by decide!

theorem scaled {c : Nat} (hc : c ≤ maxExactCell) : fmul (ofUnsigned c) nodeSize = 50 * c := by
  unfold maxExactCell at hc
  have h1 : ofUnsigned c = c := by
    have := toFloat_intCast (n := (c : ℤ)) (by simp only [Int.natAbs_ofNat, Nat.reducePow]; omega)
    simpa [ofUnsigned] using this
  have h2 : (c : ℚ) * 50 = 2 * ((25 * c : ℤ) : ℚ) := by push_cast; ring
  have h3 := toFloat_even (n := (25 * c : ℤ)) (by
    have : (25 * (c : ℤ)).natAbs = 25 * c := by
      rw [Int.natAbs_mul]; simp
    rw [this]
    simp only [Nat.reducePow]
    omega)
  unfold fmul
  rw [h1, nodeSize_eq, h2, h3]
  push_cast
  ring

theorem lowEdge_eq {c : Nat} (hc : c ≤ maxExactCell) : lowEdge c = 50 * c - 20 := by
  have hs := scaled hc
  unfold maxExactCell at hc
  have h2 : (50 : ℚ) * c - 20 = 2 * ((25 * c - 10 : ℤ) : ℚ) := by push_cast; ring
  have h3 := toFloat_even (n := (25 * c - 10 : ℤ)) (by
    simp only [Nat.reducePow]
    omega)
  unfold lowEdge fsub
  rw [hs, half_corridor, h2, h3]

theorem highEdge_eq {c : Nat} (hc : c ≤ maxExactCell) : highEdge c = 50 * c + 20 := by
  have hs := scaled hc
  unfold maxExactCell at hc
  have h2 : (50 : ℚ) * c + 20 = 2 * ((25 * c + 10 : ℤ) : ℚ) := by push_cast; ring
  have h3 := toFloat_even (n := (25 * c + 10 : ℤ)) (by
    simp only [Nat.reducePow]
    omega)
  unfold highEdge fadd
  rw [hs, half_corridor, h2, h3]

theorem points_nodeQuad {x y : Nat} (hx : x ≤ maxExactCell) (hy : y ≤ maxExactCell) :
    points (nodeQuad ⟨x, y⟩) =
      [((50 : ℚ) * x - 20, (50 : ℚ) * y - 20), ((50 : ℚ) * x + 20, (50 : ℚ) * y - 20),
        ((50 : ℚ) * x + 20, (50 : ℚ) * y + 20), ((50 : ℚ) * x - 20, (50 : ℚ) * y + 20)] := by
  simp only [points, nodeQuad, vertexAt, lowEdge_eq hx, lowEdge_eq hy, highEdge_eq hx,
    highEdge_eq hy, List.map_cons, List.map_nil]

theorem points_connectionQuad_down {p n : Vector2u} (hx : p.x ≤ maxExactCell)
    (hy : p.y ≤ maxExactCell) (hn : n.y ≤ maxExactCell) :
    points (connectionQuad p n Down) =
      [((50 : ℚ) * p.x - 20, (50 : ℚ) * p.y + 20), ((50 : ℚ) * p.x + 20, (50 : ℚ) * p.y + 20),
        ((50 : ℚ) * p.x + 20, (50 : ℚ) * n.y - 20), ((50 : ℚ) * p.x - 20, (50 : ℚ) * n.y - 20)] := by
  simp only [points, connectionQuad, vertexAt, lowEdge_eq hx, highEdge_eq hx, highEdge_eq hy,
    lowEdge_eq hn, List.map_cons,
    List.map_nil, if_true, show (Down = Up) = False from by simp [Up, Down], if_false]

theorem points_connectionQuad_right {p n : Vector2u} (hx : p.x ≤ maxExactCell)
    (hy : p.y ≤ maxExactCell) (hn : n.x ≤ maxExactCell) :
    points (connectionQuad p n Right) =
      [((50 : ℚ) * p.x + 20, (50 : ℚ) * p.y + 20), ((50 : ℚ) * n.x - 20, (50 : ℚ) * p.y + 20),
        ((50 : ℚ) * n.x - 20, (50 : ℚ) * p.y - 20), ((50 : ℚ) * p.x + 20, (50 : ℚ) * p.y - 20)] := by
  simp only [points, connectionQuad, vertexAt, highEdge_eq hx, highEdge_eq hy, lowEdge_eq hy,
    lowEdge_eq hn, List.map_cons,
    List.map_nil, if_true, show (Right = Up) = False from by simp [Up, Right],
    show (Right = Down) = False from by simp [Down, Right],
    show (Right = Left) = False from by simp [Left, Right], if_false]

theorem mem_points {quad : List Vertex} {s : ℚ × ℚ} :
    s ∈ points quad ↔ ∃ v ∈ quad, v.position = s := by
  simp [points]

theorem covers_iff_points (quad : List Vertex) (pt : ℚ × ℚ) :
    Covers quad pt ↔ (∃ s ∈ points quad, s.1 ≤ pt.1) ∧ (∃ s ∈ points quad, pt.1 ≤ s.1) ∧
      (∃ s ∈ points quad, s.2 ≤ pt.2) ∧ (∃ s ∈ points quad, pt.2 ≤ s.2) := by
  simp [Covers, points]

theorem covers_rectangle {q : List Vertex} {a b c d : ℚ} (hab : a ≤ b) (hcd : c ≤ d)
    (hq : ∀ s, s ∈ points q ↔ s = (a, c) ∨ s = (b, c) ∨ s = (b, d) ∨ s = (a, d))
    (pt : ℚ × ℚ) :
    Covers q pt ↔ (a ≤ pt.1 ∧ pt.1 ≤ b) ∧ (c ≤ pt.2 ∧ pt.2 ≤ d) := by
  have corner : ∀ v ∈ q, (a ≤ v.position.1 ∧ v.position.1 ≤ b) ∧
      (c ≤ v.position.2 ∧ v.position.2 ≤ d) := by
    intro v hv
    have := (hq v.position).mp (mem_points.mpr ⟨v, hv, rfl⟩)
    rcases this with h | h | h | h <;> rw [h] <;> simp [hab, hcd]
  obtain ⟨v1, hv1, e1⟩ := mem_points.mp ((hq (a, c)).mpr (Or.inl rfl))
  obtain ⟨v3, hv3, e3⟩ := mem_points.mp ((hq (b, d)).mpr (Or.inr (Or.inr (Or.inl rfl))))
  constructor
  · rintro ⟨⟨u1, hu1, h1⟩, ⟨u2, hu2, h2⟩, ⟨u3, hu3, h3⟩, ⟨u4, hu4, h4⟩⟩
    have c1 := corner u1 hu1
    have c2 := corner u2 hu2
    have c3 := corner u3 hu3
    have c4 := corner u4 hu4
    exact ⟨⟨by linarith [c1.1.1], by linarith [c2.1.2]⟩, by linarith [c3.2.1],
      by linarith [c4.2.2]⟩
  · rintro ⟨⟨h1, h2⟩, h3, h4⟩
    exact ⟨⟨v1, hv1, by rw [e1]; exact h1⟩, ⟨v3, hv3, by rw [e3]; exact h2⟩,
      ⟨v1, hv1, by rw [e1]; exact h3⟩, ⟨v3, hv3, by rw [e3]; exact h4⟩⟩

theorem inside_rectangle {q : List Vertex} {a b c d : ℚ} (hab : a ≤ b) (hcd : c ≤ d)
    (hq : ∀ s, s ∈ points q ↔ s = (a, c) ∨ s = (b, c) ∨ s = (b, d) ∨ s = (a, d))
    (pt : ℚ × ℚ) :
    Inside q pt ↔ (a < pt.1 ∧ pt.1 < b) ∧ (c < pt.2 ∧ pt.2 < d) := by
  have corner : ∀ v ∈ q, (a ≤ v.position.1 ∧ v.position.1 ≤ b) ∧
      (c ≤ v.position.2 ∧ v.position.2 ≤ d) := by
    intro v hv
    have := (hq v.position).mp (mem_points.mpr ⟨v, hv, rfl⟩)
    rcases this with h | h | h | h <;> rw [h] <;> simp [hab, hcd]
  obtain ⟨v1, hv1, e1⟩ := mem_points.mp ((hq (a, c)).mpr (Or.inl rfl))
  obtain ⟨v3, hv3, e3⟩ := mem_points.mp ((hq (b, d)).mpr (Or.inr (Or.inr (Or.inl rfl))))
  constructor
  · rintro ⟨⟨u1, hu1, h1⟩, ⟨u2, hu2, h2⟩, ⟨u3, hu3, h3⟩, ⟨u4, hu4, h4⟩⟩
    have c1 := corner u1 hu1
    have c2 := corner u2 hu2
    have c3 := corner u3 hu3
    have c4 := corner u4 hu4
    exact ⟨⟨by linarith [c1.1.1], by linarith [c2.1.2]⟩, by linarith [c3.2.1],
      by linarith [c4.2.2]⟩
  · rintro ⟨⟨h1, h2⟩, h3, h4⟩
    exact ⟨⟨v1, hv1, by rw [e1]; exact h1⟩, ⟨v3, hv3, by rw [e3]; exact h2⟩,
      ⟨v1, hv1, by rw [e1]; exact h3⟩, ⟨v3, hv3, by rw [e3]; exact h4⟩⟩

theorem covers_nodeQuad {x y : Nat} (hx : x ≤ maxExactCell) (hy : y ≤ maxExactCell)
    (pt : ℚ × ℚ) :
    Covers (nodeQuad ⟨x, y⟩) pt ↔
      ((50 : ℚ) * x - 20 ≤ pt.1 ∧ pt.1 ≤ (50 : ℚ) * x + 20) ∧
        ((50 : ℚ) * y - 20 ≤ pt.2 ∧ pt.2 ≤ (50 : ℚ) * y + 20) := by
  apply covers_rectangle (by linarith) (by linarith)
  intro s
  rw [points_nodeQuad hx hy]
  simp only [List.mem_cons, List.mem_singleton, List.not_mem_nil, or_false]

/-! ## Further facts used by the claims -/

theorem unvisitedMask_lt (w h : Nat) (g : List (List MazeNode)) (p : Vector2u) :
    unvisitedMask w h g p < 16 := by
  unfold unvisitedMask
  rcases unvisitedBit_cases w h g p Up with h1 | ⟨h1, -⟩ <;>
  rcases unvisitedBit_cases w h g p Down with h2 | ⟨h2, -⟩ <;>
  rcases unvisitedBit_cases w h g p Left with h3 | ⟨h3, -⟩ <;>
  rcases unvisitedBit_cases w h g p Right with h4 | ⟨h4, -⟩ <;>
  simp only [h1, h2, h3, h4] <;> decide

theorem unvisitedMask_bit (w h : Nat) (g : List (List MazeNode)) (p : Vector2u) {d : Nat}
    (hd : d ∈ directions) :
    unvisitedMask w h g p &&& d ≠ 0 ↔
      ∃ n, neighbourOf p d = some n ∧ InGrid w h n ∧ visitedAt g n = false := by
  rw [Nat.and_comm, and_unvisitedMask w h g p hd]
  constructor
  · intro h0
    rcases unvisitedBit_cases w h g p d with h1 | ⟨-, hn⟩
    · exact absurd h1 h0
    · exact hn
  · rintro ⟨n, h1, h2, h3⟩ h0
    have := (unvisitedBit_eq_zero_iff w h g p hd).mp h0 n h1 h2
    rw [h3] at this
    cases this

theorem explore_unique (R : RandomLib) {f1 f2 : Nat} {p : Vector2u} {m a b : Maze}
    (h1 : exploreNode R f1 p m = .ok a) (h2 : exploreNode R f2 p m = .ok b) : a = b := by
  have e1 := (explore_fuel_mono R f1).1 _ _ _ h1 (max f1 f2) (le_max_left _ _)
  have e2 := (explore_fuel_mono R f2).1 _ _ _ h2 (max f1 f2) (le_max_right _ _)
  rw [e1] at e2
  cases e2
  rfl

theorem generate_any_state (R : RandomLib) (fuel : Nat) (m1 m2 : Maze) (w h : Nat) (seed : Int) :
    generate R fuel m1 ⟨w, h⟩ seed = generate R fuel m2 ⟨w, h⟩ seed := by
  rw [generate_eq, generate_eq]

theorem generate_any_fuel (R : RandomLib) {f1 f2 : Nat} {m1 m2 r1 r2 : Maze} {w h : Nat}
    {seed : Int} (h1 : generate R f1 m1 ⟨w, h⟩ seed = .ok r1)
    (h2 : generate R f2 m2 ⟨w, h⟩ seed = .ok r2) : r1 = r2 := by
  rw [generate_eq] at h1 h2
  split at h1
  · cases h1
  · rename_i a ha
    split at h2
    · cases h2
    · rename_i b hb
      cases h1
      cases h2
      rw [explore_unique R ha hb]

theorem connectionQuad_opposite {a b : Vector2u} {d : Nat} (hd : d ∈ directions)
    (hab : neighbourOf a d = some b) :
    connectionQuad a b d = connectionQuad b a (getOppositeDirection d) := by
  rcases mem_directions.mp hd with rfl | rfl | rfl | rfl
  · by_cases h0 : a.y = 0
    · simp [neighbourOf, h0] at hab
    · rw [neighbourOf_up h0] at hab
      cases hab
      simp [connectionQuad, getOppositeDirection, Up, Down]
  · rw [neighbourOf_down] at hab
    cases hab
    simp [connectionQuad, getOppositeDirection, Up, Down]
  · by_cases h0 : a.x = 0
    · simp [neighbourOf, h0, Up, Down, Left] at hab
    · rw [neighbourOf_left h0] at hab
      cases hab
      simp [connectionQuad, getOppositeDirection, Up, Down, Left, Right]
  · rw [neighbourOf_right] at hab
    cases hab
    simp [connectionQuad, getOppositeDirection, Up, Down, Left, Right]

theorem explore_returns {R : RandomLib} (hfair : Fair R) {w h : Nat} (hd : Dim w h)
    (seed : Int) :
    ∃ N m2, Run R w h .node ⟨0, 0⟩ (initial R w h seed) m2 ∧
      ∀ fuel, N ≤ fuel → exploreNode R fuel ⟨0, 0⟩ (initial R w h seed) = .ok m2 := by
  have hs := shape_initial R hd seed
  have hp : InGrid w h ⟨0, 0⟩ := ⟨hd.1, hd.2.2.1⟩
  obtain ⟨f, m2, hf⟩ := exploreNode_of_loop (explore_terminates hfair w h (w * h)) ⟨0, 0⟩ _ hs hp
    (visitedAt_initial R w h seed _) (by rw [unvisitedCount_initial]; omega)
  exact ⟨f, m2, ((explore_run R w h f).1 _ _ _ hs hp hf).1,
    fun fuel hfuel => (explore_fuel_mono R f).1 _ _ _ hf fuel hfuel⟩

theorem mem_points_connectionQuad_right {x y : Nat} (hx : x + 1 ≤ maxExactCell)
    (hy : y ≤ maxExactCell) (s : ℚ × ℚ) :
    s ∈ points (connectionQuad ⟨x, y⟩ ⟨x + 1, y⟩ Right) ↔
      s = ((50 : ℚ) * x + 20, (50 : ℚ) * y - 20) ∨
      s = ((50 : ℚ) * ((x + 1 : Nat) : ℚ) - 20, (50 : ℚ) * y - 20) ∨
      s = ((50 : ℚ) * ((x + 1 : Nat) : ℚ) - 20, (50 : ℚ) * y + 20) ∨
      s = ((50 : ℚ) * x + 20, (50 : ℚ) * y + 20) := by
  rw [points_connectionQuad_right (p := ⟨x, y⟩) (n := ⟨x + 1, y⟩) (Nat.le_of_succ_le hx) hy hx]
  simp only [List.mem_cons, List.mem_singleton, List.not_mem_nil, or_false]
  tauto

theorem mem_points_connectionQuad_down {x y : Nat} (hx : x ≤ maxExactCell)
    (hy : y + 1 ≤ maxExactCell) (s : ℚ × ℚ) :
    s ∈ points (connectionQuad ⟨x, y⟩ ⟨x, y + 1⟩ Down) ↔
      s = ((50 : ℚ) * x - 20, (50 : ℚ) * y + 20) ∨
      s = ((50 : ℚ) * x + 20, (50 : ℚ) * y + 20) ∨
      s = ((50 : ℚ) * x + 20, (50 : ℚ) * ((y + 1 : Nat) : ℚ) - 20) ∨
      s = ((50 : ℚ) * x - 20, (50 : ℚ) * ((y + 1 : Nat) : ℚ) - 20) := by
  rw [points_connectionQuad_down (p := ⟨x, y⟩) (n := ⟨x, y + 1⟩) hx (Nat.le_of_succ_le hy) hy]
  simp only [List.mem_cons, List.mem_singleton, List.not_mem_nil, or_false]

theorem covers_connectionQuad_right {x y : Nat} (hx : x + 1 ≤ maxExactCell)
    (hy : y ≤ maxExactCell) (pt : ℚ × ℚ) :
    Covers (connectionQuad ⟨x, y⟩ ⟨x + 1, y⟩ Right) pt ↔
      ((50 : ℚ) * x + 20 ≤ pt.1 ∧ pt.1 ≤ (50 : ℚ) * (x + 1) - 20) ∧
        ((50 : ℚ) * y - 20 ≤ pt.2 ∧ pt.2 ≤ (50 : ℚ) * y + 20) := by
  have := covers_rectangle (q := connectionQuad ⟨x, y⟩ ⟨x + 1, y⟩ Right)
    (a := (50 : ℚ) * x + 20) (b := (50 : ℚ) * ((x + 1 : Nat) : ℚ) - 20)
    (c := (50 : ℚ) * y - 20) (d := (50 : ℚ) * y + 20)
    (by push_cast; linarith) (by linarith) (mem_points_connectionQuad_right hx hy) pt
  rw [this]
  push_cast
  rfl

theorem inside_connectionQuad_right {x y : Nat} (hx : x + 1 ≤ maxExactCell)
    (hy : y ≤ maxExactCell) (pt : ℚ × ℚ) :
    Inside (connectionQuad ⟨x, y⟩ ⟨x + 1, y⟩ Right) pt ↔
      ((50 : ℚ) * x + 20 < pt.1 ∧ pt.1 < (50 : ℚ) * (x + 1) - 20) ∧
        ((50 : ℚ) * y - 20 < pt.2 ∧ pt.2 < (50 : ℚ) * y + 20) := by
  have := inside_rectangle (q := connectionQuad ⟨x, y⟩ ⟨x + 1, y⟩ Right)
    (a := (50 : ℚ) * x + 20) (b := (50 : ℚ) * ((x + 1 : Nat) : ℚ) - 20)
    (c := (50 : ℚ) * y - 20) (d := (50 : ℚ) * y + 20)
    (by push_cast; linarith) (by linarith) (mem_points_connectionQuad_right hx hy) pt
  rw [this]
  push_cast
  rfl

theorem covers_connectionQuad_down {x y : Nat} (hx : x ≤ maxExactCell)
    (hy : y + 1 ≤ maxExactCell) (pt : ℚ × ℚ) :
    Covers (connectionQuad ⟨x, y⟩ ⟨x, y + 1⟩ Down) pt ↔
      ((50 : ℚ) * x - 20 ≤ pt.1 ∧ pt.1 ≤ (50 : ℚ) * x + 20) ∧
        ((50 : ℚ) * y + 20 ≤ pt.2 ∧ pt.2 ≤ (50 : ℚ) * (y + 1) - 20) := by
  have := covers_rectangle (q := connectionQuad ⟨x, y⟩ ⟨x, y + 1⟩ Down)
    (a := (50 : ℚ) * x - 20) (b := (50 : ℚ) * x + 20)
    (c := (50 : ℚ) * y + 20) (d := (50 : ℚ) * ((y + 1 : Nat) : ℚ) - 20)
    (by linarith) (by push_cast; linarith) (mem_points_connectionQuad_down hx hy) pt
  rw [this]
  push_cast
  rfl

theorem inside_connectionQuad_down {x y : Nat} (hx : x ≤ maxExactCell)
    (hy : y + 1 ≤ maxExactCell) (pt : ℚ × ℚ) :
    Inside (connectionQuad ⟨x, y⟩ ⟨x, y + 1⟩ Down) pt ↔
      ((50 : ℚ) * x - 20 < pt.1 ∧ pt.1 < (50 : ℚ) * x + 20) ∧
        ((50 : ℚ) * y + 20 < pt.2 ∧ pt.2 < (50 : ℚ) * (y + 1) - 20) := by
  have := inside_rectangle (q := connectionQuad ⟨x, y⟩ ⟨x, y + 1⟩ Down)
    (a := (50 : ℚ) * x - 20) (b := (50 : ℚ) * x + 20)
    (c := (50 : ℚ) * y + 20) (d := (50 : ℚ) * ((y + 1 : Nat) : ℚ) - 20)
    (by linarith) (by push_cast; linarith) (mem_points_connectionQuad_down hx hy) pt
  rw [this]
  push_cast
  rfl

theorem connectionQuad_canonical {a b : Vector2u} {d : Nat} (hd : d ∈ directions)
    (hab : neighbourOf a d = some b) :
    (a.y = b.y ∧ connectionQuad a b d =
        connectionQuad ⟨min a.x b.x, a.y⟩ ⟨min a.x b.x + 1, a.y⟩ Right) ∨
      (a.x = b.x ∧ connectionQuad a b d =
        connectionQuad ⟨a.x, min a.y b.y⟩ ⟨a.x, min a.y b.y + 1⟩ Down) := by
  rcases mem_directions.mp hd with rfl | rfl | rfl | rfl
  · right
    by_cases h0 : a.y = 0
    · simp [neighbourOf, h0] at hab
    · rw [connectionQuad_opposite hd hab]
      rw [neighbourOf_up h0] at hab
      cases hab
      have e1 : min a.y (a.y - 1) = a.y - 1 := by omega
      have e2 : a.y - 1 + 1 = a.y := by omega
      refine ⟨rfl, ?_⟩
      simp only [e1, e2]
      rfl
  · right
    rw [neighbourOf_down] at hab
    cases hab
    have e1 : min a.y (a.y + 1) = a.y := by omega
    refine ⟨rfl, ?_⟩
    simp only [e1]
  · left
    by_cases h0 : a.x = 0
    · simp [neighbourOf, h0, Up, Down, Left] at hab
    · rw [connectionQuad_opposite hd hab]
      rw [neighbourOf_left h0] at hab
      cases hab
      have e1 : min a.x (a.x - 1) = a.x - 1 := by omega
      have e2 : a.x - 1 + 1 = a.x := by omega
      refine ⟨rfl, ?_⟩
      simp only [e1, e2]
      rfl
  · left
    rw [neighbourOf_right] at hab
    cases hab
    have e1 : min a.x (a.x + 1) = a.x := by omega
    refine ⟨rfl, ?_⟩
    simp only [e1]

theorem length_entered_of_carved {w h : Nat} {m : Maze} (hc : Carved w h m) :
    (entered m.trace).length = w * h := by
  rw [← List.toFinset_card_of_nodup hc.entered_nodup, ← card_cells]
  congr 1
  ext c
  rw [List.mem_toFinset, hc.entered_cells, mem_cells]

theorem ledger_of_run {R : RandomLib} {w h : Nat} {seed : Int} {m2 : Maze}
    (hr : Run R w h .node ⟨0, 0⟩ (initial R w h seed) m2) :
    (carvings m2.trace).length + 1 = (entered m2.trace).length ∧
      m2.maze.length = 4 * (entered m2.trace).length + 4 * (carvings m2.trace).length ∧
      CarvesFresh w h m2.trace := by
  have hcount := run_counts hr
  have hfresh := run_carvesFresh hr (fun _ => visitedAt_initial R w h seed _)
    (by
      intro c
      constructor
      · intro hc
        simp [initial, entered] at hc
      · intro hv
        rw [visitedAt_initial] at hv
        cases hv)
    (by simp [initial, entered]) (carvesFresh_nil w h)
  simp only [initial, entered, carvings, List.length_nil, if_true] at hcount
  exact ⟨by omega, by omega, hfresh⟩

theorem ledger_of_generate {R : RandomLib} {w h : Nat} (hd : Dim w h) {m : Maze} {seed : Int}
    {fuel : Nat} {m' : Maze} (hg : generate R fuel m ⟨w, h⟩ seed = .ok m') :
    (entered m'.trace).length = w * h ∧ (carvings m'.trace).length + 1 = w * h ∧
      m'.maze.length = 4 * (entered m'.trace).length + 4 * (carvings m'.trace).length ∧
      CarvesFresh w h m'.trace := by
  obtain ⟨m2, hrun, rfl⟩ := generate_unique hd hg
  have hc := carved_of_run hrun
  have hl := ledger_of_run hrun
  have he := length_entered_of_carved hc
  have e1 : (withTexCoords m2).trace = m2.trace := rfl
  have e2 : (withTexCoords m2).maze.length = m2.maze.length := by simp [withTexCoords]
  rw [e1] at he ⊢
  rw [e2]
  exact ⟨he, by omega, hl.2.1, hl.2.2⟩

theorem call_decreases {R : RandomLib} {w h d fuel f : Nat} {p n : Vector2u}
    {m0 m1 m2 m3 : Maze} (hs : Shape w h m0) (hp : InGrid w h p)
    (hr : redraw R (unvisitedMask w h m0.mazeNodes p) fuel
      (getRandomDirection R { m0 with trace := m0.trace ++
        [Event.test p (unvisitedMask w h m0.mazeNodes p)] }) = .ok (d, m1))
    (hc : carve m1 p d = .ok (n, m2)) (he : exploreNode R f n m2 = .ok m3) :
    InGrid w h n ∧ visitedAt m0.mazeNodes n = false ∧ visitedAt m3.mazeNodes n = true ∧
      unvisitedCount w h m3.mazeNodes < unvisitedCount w h m0.mazeNodes := by
  have hcv := step_facts hs hp hr hc
  obtain ⟨hrun, -⟩ := (explore_run R w h f).1 n m2 m3 (hcv.shape hs) hcv.inGrid he
  have hfresh2 : visitedAt m2.mazeNodes n = false := by
    rw [hcv.visitedAt_eq]; exact hcv.fresh
  refine ⟨hcv.inGrid, hcv.fresh, run_visits hrun rfl, ?_⟩
  rw [← unvisitedCount_congr (w := w) (h := h) hcv.visitedAt_eq]
  exact unvisitedCount_lt (run_mono hrun) hcv.inGrid hfresh2 (run_visits hrun rfl)

theorem redraw_hit (R : RandomLib) (a d : Nat) (m : Maze) (fuel : Nat) (hit : d &&& a ≠ 0) :
    redraw R a fuel (d, m) = .ok (d, m) := by
  cases fuel <;> (unfold redraw; rw [if_pos hit])

theorem redraw_miss (R : RandomLib) (a d : Nat) (m : Maze) (fuel : Nat) (miss : d &&& a = 0) :
    redraw R a (fuel + 1) (d, m) = redraw R a fuel (getRandomDirection R m) := by
  rw [redraw, if_neg (by simpa using miss)]

theorem nodeAt_empty_columns {g : List (List MazeNode)} (hg : ∀ column ∈ g, column = [])
    (p : Vector2u) : nodeAt g p = .error .outOfRange := by
  unfold nodeAt
  cases hc : g[p.x]? with
  | none => rfl
  | some column =>
    have := hg column (List.getElem?_mem hc)
    subst this
    rfl

theorem nodeAt_outside {w h : Nat} {g : List (List MazeNode)} (hg : Rect w h g)
    {p : Vector2u} (hp : ¬ InGrid w h p) : nodeAt g p = .error .outOfRange := by
  unfold nodeAt
  cases hc : g[p.x]? with
  | none => rfl
  | some column =>
    have hlen := hg.2 column (List.getElem?_mem hc)
    have hx : p.x < w := by
      have := (List.getElem?_eq_some_iff.mp hc).1
      rw [hg.1] at this
      exact this
    have hy : ¬ p.y < column.length := by
      rw [hlen]
      exact fun hy => hp ⟨hx, hy⟩
    simp only [List.getElem?_eq_none (Nat.le_of_not_lt hy)]

theorem carvings_visit (m : Maze) (p : Vector2u) (node : MazeNode) :
    carvings (visit m p node).trace = carvings m.trace := by
  simp [visit, carvings_append, carvings]

theorem exitEntered_visit {w h : Nat} {m : Maze} {p : Vector2u} {node : MazeNode}
    (hs : Shape w h m) (hp : InGrid w h p) (hn : nodeAt m.mazeNodes p = .ok node)
    (hx : p ≠ exitOf w h) (hm : ExitEntered w h m) : ExitEntered w h (visit m p node) := by
  have hv : visitedAt (visit m p node).mazeNodes (exitOf w h) =
      visitedAt m.mazeNodes (exitOf w h) := by
    rw [visitedAt_visit hs hp hn]
    simp [Ne.symm hx]
  unfold ExitEntered carvingsInto
  rw [hv, dirsAt_visit hn, carvings_visit]
  exact hm

theorem run_exit_bits {R : RandomLib} {w h : Nat} {k : Phase} {p : Vector2u} {m m' : Maze}
    (hr : Run R w h k p m m') (hk : k = .loop → p ≠ exitOf w h) :
    (p = exitOf w h → dirsAt m'.mazeNodes p = dirsAt m.mazeNodes p ∧
        carvings m'.trace = carvings m.trace) ∧
      (p ≠ exitOf w h → ExitEntered w h m → ExitEntered w h m') := by
  induction hr with
  | exit hs hp hn hx =>
    exact ⟨fun _ => ⟨dirsAt_visit hn _, carvings_visit _ _ _⟩, fun hne => absurd hx hne⟩
  | inner hs hp hn hx hrun ih =>
    exact ⟨fun he => absurd he hx,
      fun _ hm => (ih (fun _ => hx)).2 hx (exitEntered_visit hs hp hn hx hm)⟩
  | done hs hp h0 =>
    refine ⟨fun he => absurd he (hk rfl), fun _ hm => ?_⟩
    unfold ExitEntered carvingsInto at hm ⊢
    simpa [carvings_append, carvings] using hm
  | @step p n m m1 m2 m3 m' d fuel hs hp h0 hr hc hrun3 hrun' ih3 ih' =>
    have hcv := step_facts hs hp hr hc
    have hpx : p ≠ exitOf w h := hk rfl
    refine ⟨fun he => absurd he hpx, fun _ hm => ?_⟩
    apply (ih' hk).2 hpx
    by_cases hnx : n = exitOf w h
    · obtain ⟨h1, h2⟩ := (ih3 (fun hk' => by cases hk')).1 hnx
      have hvis := run_visits hrun3 rfl
      have hfresh := hcv.fresh
      have hnext := hcv.dirsAt_next hs
      rw [hnx] at h1 hvis hfresh hnext
      rcases hm with ⟨-, hz, hci⟩ | ⟨hv, -⟩
      · right
        refine ⟨hvis, p, d, hcv.dir, ?_, ?_⟩
        · unfold carvingsInto at hci ⊢
          rw [h2, hcv.carvings_eq, List.filter_append, hci, hnx]
          simp
        · rw [h1, hnext, hz, Nat.zero_or]
      · rw [hfresh] at hv
        cases hv
    · apply (ih3 (fun hk' => by cases hk')).2 hnx
      unfold ExitEntered carvingsInto at hm ⊢
      rw [hcv.visitedAt_eq, hcv.dirsAt_other (Ne.symm hpx) (Ne.symm hnx), hcv.carvings_eq,
        List.filter_append]
      simpa [hnx] using hm

theorem exitEntered_initial (R : RandomLib) (w h : Nat) (seed : Int) :
    ExitEntered w h (initial R w h seed) :=
  Or.inl ⟨visitedAt_initial R w h seed _, dirsAt_initial R w h seed _, by
    simp [carvingsInto, initial, carvings]⟩

theorem origin_ne_exit {w h : Nat} (hwh : 1 < w * h) : (⟨0, 0⟩ : Vector2u) ≠ exitOf w h := by
  intro he
  unfold exitOf at he
  simp only [Vector2u.mk.injEq] at he
  obtain ⟨h1, h2⟩ := he
  have hw : w ≤ 1 := by omega
  have hh : h ≤ 1 := by omega
  have : w * h ≤ 1 * 1 := Nat.mul_le_mul hw hh
  omega

theorem mem_carvings {t : List Event} {p n : Vector2u} {d : Nat} :
    (p, d, n) ∈ carvings t ↔ Event.carve p d n ∈ t := by
  induction t with
  | nil => simp [carvings]
  | cons e t ih => cases e <;> simp [carvings, ih]

theorem regenerate_eq (R : RandomLib) {w h : Nat} (hd : Dim w h) {m : Maze}
    (hr : Rect w h m.mazeNodes) (fuel : Nat) :
    regenerate R fuel m =
      generate R fuel m ⟨w, h⟩ (toInt32 (R.sample 0 4294967295 m.randomEngine).1) := by
  have h0 : 0 < m.mazeNodes.length := by rw [hr.1]; exact hd.1
  have hcol : (m.mazeNodes[0]).length = h := hr.2 _ (List.getElem_mem h0)
  unfold regenerate
  rw [List.getElem?_eq_getElem h0]
  dsimp only
  rw [hcol, hr.1, Nat.mod_eq_of_lt hd.2.1, Nat.mod_eq_of_lt hd.2.2.2]
  exact generate_any_state R fuel _ _ w h _

theorem neighbourOf_cases {p n : Vector2u} {d : Nat} (hd : d ∈ directions)
    (hn : neighbourOf p d = some n) :
    (d = Up ∧ n.x = p.x ∧ n.y + 1 = p.y) ∨ (d = Down ∧ n.x = p.x ∧ n.y = p.y + 1) ∨
      (d = Left ∧ n.x + 1 = p.x ∧ n.y = p.y) ∨ (d = Right ∧ n.x = p.x + 1 ∧ n.y = p.y) := by
  rcases mem_directions.mp hd with rfl | rfl | rfl | rfl
  · by_cases h0 : p.y = 0
    · simp [neighbourOf, h0] at hn
    · rw [neighbourOf_up h0] at hn
      cases hn
      exact Or.inl ⟨rfl, rfl, by dsimp only; omega⟩
  · rw [neighbourOf_down] at hn
    cases hn
    exact Or.inr (Or.inl ⟨rfl, rfl, rfl⟩)
  · by_cases h0 : p.x = 0
    · simp [neighbourOf, Up, Down, Left, h0] at hn
    · rw [neighbourOf_left h0] at hn
      cases hn
      exact Or.inr (Or.inr (Or.inl ⟨rfl, by dsimp only; omega, rfl⟩))
  · rw [neighbourOf_right] at hn
    cases hn
    exact Or.inr (Or.inr (Or.inr ⟨rfl, rfl, rfl⟩))

theorem directions_distinct : Up ≠ Down ∧ Up ≠ Left ∧ Up ≠ Right ∧ Down ≠ Left ∧
    Down ≠ Right ∧ Left ≠ Right := by decide

theorem corridor_unique {w h : Nat} (hcor : w = 1 ∨ h = 1) {a b : Vector2u}
    (ha : InGrid w h a) (hb : InGrid w h b) (hr : a.x + a.y = b.x + b.y) : a = b := by
  obtain ⟨ax, ay⟩ := a
  obtain ⟨bx, b_y⟩ := b
  simp only [InGrid] at ha hb hr
  simp only [Vector2u.mk.injEq]
  constructor <;> omega

theorem corridor_mask {w h : Nat} (hcor : w = 1 ∨ h = 1) (g : List (List MazeNode))
    {p : Vector2u} (hp : InGrid w h p)
    (hpre : ∀ c, InGrid w h c → c.x + c.y < p.x + p.y → visitedAt g c = true) :
    unvisitedMask w h g p = 0 ∨ unvisitedMask w h g p ∈ directions := by
  have hUp : Up ∈ directions := by simp [directions]
  have hDown : Down ∈ directions := by simp [directions]
  have hLeft : Left ∈ directions := by simp [directions]
  have hRight : Right ∈ directions := by simp [directions]
  obtain ⟨n1, n2, n3, n4, n5, n6⟩ := directions_distinct
  have hup : unvisitedBit w h g p Up = 0 := by
    rw [unvisitedBit_eq_zero_iff w h g p hUp]
    intro n hn hin
    apply hpre n hin
    rcases neighbourOf_cases hUp hn with ⟨-, h1, h2⟩ | ⟨h0, -⟩ | ⟨h0, -⟩ | ⟨h0, -⟩
    · omega
    · exact absurd h0 n1
    · exact absurd h0 n2
    · exact absurd h0 n3
  have hleft : unvisitedBit w h g p Left = 0 := by
    rw [unvisitedBit_eq_zero_iff w h g p hLeft]
    intro n hn hin
    apply hpre n hin
    rcases neighbourOf_cases hLeft hn with ⟨h0, -⟩ | ⟨h0, -⟩ | ⟨-, h1, h2⟩ | ⟨h0, -⟩
    · exact absurd h0.symm n2
    · exact absurd h0.symm n4
    · omega
    · exact absurd h0 n6
  unfold InGrid at hp
  rcases hcor with hw | hh
  · have hright : unvisitedBit w h g p Right = 0 := by
      rw [unvisitedBit_eq_zero_iff w h g p hRight]
      intro n hn hin
      rw [neighbourOf_right] at hn
      cases hn
      unfold InGrid at hin
      dsimp only at hin
      omega
    unfold unvisitedMask
    rw [hup, hleft, hright]
    rcases unvisitedBit_cases w h g p Down with h2 | ⟨h2, -⟩ <;> rw [h2]
    · left; decide
    · right; decide
  · have hdown : unvisitedBit w h g p Down = 0 := by
      rw [unvisitedBit_eq_zero_iff w h g p hDown]
      intro n hn hin
      rw [neighbourOf_down] at hn
      cases hn
      unfold InGrid at hin
      dsimp only at hin
      omega
    unfold unvisitedMask
    rw [hup, hleft, hdown]
    rcases unvisitedBit_cases w h g p Right with h2 | ⟨h2, -⟩ <;> rw [h2]
    · left; decide
    · right; decide

theorem singleBitTests_snoc {t : List Event} {e : Event} (ht : SingleBitTests t)
    (he : ∀ p a, e = Event.test p a → a = 0 ∨ a ∈ directions) :
    SingleBitTests (t ++ [e]) := by
  intro p a hm
  rw [List.mem_append, List.mem_singleton] at hm
  rcases hm with hm | hm
  · exact ht p a hm
  · exact he p a hm.symm

theorem run_corridor {R : RandomLib} {w h : Nat} (hcor : w = 1 ∨ h = 1) {k : Phase}
    {p : Vector2u} {m m' : Maze} (hr : Run R w h k p m m')
    (hpre : ∀ c, InGrid w h c → c.x + c.y < p.x + p.y + (if k = .loop then 1 else 0) →
      visitedAt m.mazeNodes c = true)
    (ht : SingleBitTests m.trace) : SingleBitTests m'.trace := by
  induction hr with
  | exit hs hp hn hx =>
    exact singleBitTests_snoc ht (fun p a he => by cases he)
  | @inner p m m' node hs hp hn hx hrun ih =>
    apply ih
    · intro c hc hlt
      rw [visitedAt_visit hs hp hn]
      by_cases hcp : c = p
      · simp [hcp]
      · have hne : c.x + c.y ≠ p.x + p.y := fun he => hcp (corridor_unique hcor hc hp he)
        simp only [if_true] at hlt
        simp only [show (Phase.node = Phase.loop) = False from by simp, if_false] at hpre
        rw [hpre c hc (by omega)]
        simp
    · exact singleBitTests_snoc ht (fun p a he => by cases he)
  | done hs hp h0 =>
    refine singleBitTests_snoc ht (fun p a he => ?_)
    cases he
    exact Or.inl rfl
  | @step p n m m1 m2 m3 m' d fuel hs hp h0 hr hc hrun3 hrun' ih3 ih' =>
    have hcv := step_facts hs hp hr hc
    simp only [if_true] at hpre
    have hmask := corridor_mask hcor m.mazeNodes hp (fun c hc hlt => hpre c hc (by omega))
    have hrank : n.x + n.y = p.x + p.y + 1 := by
      rcases neighbourOf_cases hcv.dir hcv.nb with ⟨-, h1, h2⟩ | ⟨-, h1, h2⟩ | ⟨-, h1, h2⟩ |
        ⟨-, h1, h2⟩
      · have := hpre n hcv.inGrid (by omega)
        rw [hcv.fresh] at this
        cases this
      · omega
      · have := hpre n hcv.inGrid (by omega)
        rw [hcv.fresh] at this
        cases this
      · omega
    apply ih'
    · intro c hc hlt
      simp only [if_true] at hlt
      apply run_mono hrun3
      rw [hcv.visitedAt_eq]
      exact hpre c hc hlt
    apply ih3
    · intro c hc hlt
      simp only [show (Phase.node = Phase.loop) = False from by simp, if_false] at hlt
      rw [hcv.visitedAt_eq]
      exact hpre c hc (by omega)
    · obtain ⟨ds, hds, -⟩ := hcv.trace
      rw [hds]
      intro q a hm
      simp only [List.mem_append, List.mem_cons, List.mem_singleton, List.mem_map] at hm
      rcases hm with (hm | hm | ⟨v, -, hv⟩) | hm
      · exact ht q a hm
      · cases hm
        rcases hmask with h1 | h1
        · exact absurd h1 h0
        · exact Or.inr h1
      · cases hv
      · simp at hm

theorem reachable_invariant {V : Type} {G : SimpleGraph V} (P : V → Prop)
    (hP : ∀ u v, G.Adj u v → P u → P v) {a b : V} (hab : G.Reachable a b) (ha : P a) :
    P b := by
  obtain ⟨walk⟩ := hab
  induction walk with
  | nil => exact ha
  | cons hadj _ ih => exact ih (hP _ _ hadj ha)

theorem inGrid_cellPos {w h : Nat} (a : Fin w × Fin h) : InGrid w h (cellPos a) :=
  ⟨a.1.isLt, a.2.isLt⟩

theorem corridor_forward {w h : Nat} (hd : Dim w h) (hcor : w = 1 ∨ h = 1) {m : Maze}
    (hc : Carved w h m) {c n : Vector2u} {d : Nat} (hdir : d = Down ∨ d = Right)
    (hcin : InGrid w h c) (hnb : neighbourOf c d = some n) (hnin : InGrid w h n) :
    dirsAt m.mazeNodes c &&& d ≠ 0 := by
  have hdd : d ∈ directions := by rcases hdir with rfl | rfl <;> simp [directions]
  obtain ⟨n1, n2, n3, n4, n5, n6⟩ := directions_distinct
  have hrank : n.x + n.y = c.x + c.y + 1 := by
    rcases neighbourOf_cases hdd hnb with ⟨h0, -⟩ | ⟨-, h1, h2⟩ | ⟨h0, -⟩ | ⟨-, h1, h2⟩
    · rcases hdir with rfl | rfl
      · exact absurd h0.symm n1
      · exact absurd h0.symm n3
    · omega
    · rcases hdir with rfl | rfl
      · exact absurd h0 n4
      · exact absurd h0.symm n6
    · omega
  intro hbit
  have hreach := hc.tree.isConnected.preconnected
    ((⟨0, hd.1⟩, ⟨0, hd.2.2.1⟩) : Fin w × Fin h) (⟨n.x, hnin.1⟩, ⟨n.y, hnin.2⟩)
  have key := reachable_invariant
    (fun v : Fin w × Fin h => (cellPos v).x + (cellPos v).y ≤ c.x + c.y) ?_ hreach
    (by simp [cellPos])
  · simp only [cellPos] at key
    omega
  · intro u v hadj hu
    by_contra hv
    have hopen : ∃ e ∈ directions, dirsAt m.mazeNodes (cellPos u) &&& e ≠ 0 ∧
        neighbourOf (cellPos u) e = some (cellPos v) := by
      rw [mazeGraph_adj] at hadj
      obtain ⟨-, ⟨e, he, hb, hn⟩ | ⟨e, he, hb, hn⟩⟩ := hadj
      · exact ⟨e, he, hb, hn⟩
      · obtain ⟨n', hn', -, hb'⟩ := hc.symmetric _ e he hb
        rw [hn] at hn'
        cases hn'
        exact ⟨_, getOppositeDirection_mem he, hb', neighbourOf_opposite he hn⟩
    obtain ⟨e, he, hb, hn⟩ := hopen
    have hcases := neighbourOf_cases he hn
    have hu' : (cellPos u).x + (cellPos u).y = c.x + c.y := by
      rcases hcases with ⟨-, h1, h2⟩ | ⟨-, h1, h2⟩ | ⟨-, h1, h2⟩ | ⟨-, h1, h2⟩ <;> omega
    have hv' : (cellPos v).x + (cellPos v).y = n.x + n.y := by
      rcases hcases with ⟨-, h1, h2⟩ | ⟨-, h1, h2⟩ | ⟨-, h1, h2⟩ | ⟨-, h1, h2⟩ <;> omega
    have eu := corridor_unique hcor (inGrid_cellPos u) hcin hu'
    have ev := corridor_unique hcor (inGrid_cellPos v) hnin hv'
    rw [eu, ev] at hn
    rw [eu] at hb
    have hed : e = d := by
      rcases neighbourOf_cases he hn with ⟨-, h1, h2⟩ | ⟨e1, h1, h2⟩ | ⟨-, h1, h2⟩ |
        ⟨e1, h1, h2⟩
      · omega
      · rcases neighbourOf_cases hdd hnb with ⟨-, h3, h4⟩ | ⟨d1, h3, h4⟩ | ⟨-, h3, h4⟩ |
          ⟨d1, h3, h4⟩
        · omega
        · rw [e1, d1]
        · omega
        · omega
      · omega
      · rcases neighbourOf_cases hdd hnb with ⟨-, h3, h4⟩ | ⟨d1, h3, h4⟩ | ⟨-, h3, h4⟩ |
          ⟨d1, h3, h4⟩
        · omega
        · omega
        · omega
        · rw [e1, d1]
    rw [hed] at hb
    exact hb hbit

theorem corridor_bits {w h : Nat} (hd : Dim w h) (hcor : w = 1 ∨ h = 1) {m : Maze}
    (hc : Carved w h m) (c : Vector2u) {d : Nat} (hdd : d ∈ directions) :
    dirsAt m.mazeNodes c &&& d ≠ 0 ↔
      InGrid w h c ∧ ∃ n, neighbourOf c d = some n ∧ InGrid w h n := by
  constructor
  · intro hbit
    obtain ⟨n, hn, hin, -⟩ := hc.symmetric c d hdd hbit
    exact ⟨dirsAt_inGrid hc.rect (dirsAt_ne_zero_of_and hbit), n, hn, hin⟩
  · rintro ⟨hcin, n, hn, hin⟩
    rcases mem_directions.mp hdd with rfl | rfl | rfl | rfl
    · have hback := neighbourOf_opposite hdd hn
      have hb := corridor_forward hd hcor hc (Or.inl (by decide)) hin hback hcin
      obtain ⟨n', hn', -, hb'⟩ := hc.symmetric n _ (getOppositeDirection_mem hdd) hb
      rw [hback] at hn'
      cases hn'
      rwa [getOppositeDirection_involutive hdd] at hb'
    · exact corridor_forward hd hcor hc (Or.inl rfl) hcin hn hin
    · have hback := neighbourOf_opposite hdd hn
      have hb := corridor_forward hd hcor hc (Or.inr (by decide)) hin hback hcin
      obtain ⟨n', hn', -, hb'⟩ := hc.symmetric n _ (getOppositeDirection_mem hdd) hb
      rw [hback] at hn'
      cases hn'
      rwa [getOppositeDirection_involutive hdd] at hb'
    · exact corridor_forward hd hcor hc (Or.inr rfl) hcin hn hin

theorem bits_expand : ∀ x, x < 16 →
    x = (if x &&& 1 ≠ 0 then 1 else 0) ||| (if x &&& 2 ≠ 0 then 2 else 0) |||
      (if x &&& 4 ≠ 0 then 4 else 0) ||| (if x &&& 8 ≠ 0 then 8 else 0) := by
  decide

theorem eq_of_direction_bits {x y : Nat} (hx : x < 16) (hy : y < 16)
    (hbits : ∀ d ∈ directions, (x &&& d ≠ 0 ↔ y &&& d ≠ 0)) : x = y := by
  have h1 : (x &&& 1 ≠ 0) = (y &&& 1 ≠ 0) := propext (hbits Up (by simp [directions]))
  have h2 : (x &&& 2 ≠ 0) = (y &&& 2 ≠ 0) := propext (hbits Down (by simp [directions]))
  have h4 : (x &&& 4 ≠ 0) = (y &&& 4 ≠ 0) := propext (hbits Left (by simp [directions]))
  have h8 : (x &&& 8 ≠ 0) = (y &&& 8 ≠ 0) := propext (hbits Right (by simp [directions]))
  rw [bits_expand x hx, bits_expand y hy]
  simp only [h1, h2, h4, h8]

theorem emitted_append (s t : List Event) : emitted (s ++ t) = emitted s ++ emitted t := by
  induction s with
  | nil => rfl
  | cons e s ih => cases e <;> simp [emitted, ih]

theorem emitted_draws (ds : List Nat) : emitted (ds.map Event.draw) = [] := by
  induction ds with
  | nil => rfl
  | cons d ds ih => simpa [emitted] using ih

theorem quadsOf_flatten {qs : List (List Vertex)} (hq : ∀ q ∈ qs, q.length = 4) :
    quadsOf qs.flatten = qs := by
  induction qs with
  | nil => rfl
  | cons q qs ih =>
    have h4 := hq q (List.mem_cons_self _ _)
    match q, h4 with
    | [a, b, c, d], _ =>
      have := ih (fun q hq' => hq q (List.mem_cons_of_mem _ hq'))
      show [a, b, c, d] :: quadsOf qs.flatten = _
      rw [this]

theorem run_emitted {R : RandomLib} {w h : Nat} {k : Phase} {p : Vector2u} {m m' : Maze}
    (hr : Run R w h k p m m') (hm : m.maze = (emitted m.trace).flatten) :
    m'.maze = (emitted m'.trace).flatten := by
  induction hr with
  | exit hs hp hn hx =>
    simp [visit, emitted_append, emitted, hm]
  | inner hs hp hn hx hrun ih =>
    apply ih
    simp [visit, emitted_append, emitted, hm]
  | done hs hp h0 =>
    simp [emitted_append, emitted, hm]
  | step fuel hs hp h0 hr hc hrun3 hrun' ih3 ih' =>
    have hcv := step_facts hs hp hr hc
    apply ih'
    apply ih3
    obtain ⟨ds, hds, -⟩ := hcv.trace
    rw [hcv.maze, hds, hm]
    simp [emitted_append, emitted, emitted_draws]

theorem length_emitted {w h : Nat} {t : List Event} (hf : CarvesFresh w h t) :
    ∀ q ∈ emitted t, q.length = 4 := by
  have hdir : ∀ p d n, Event.carve p d n ∈ t → d ∈ directions := by
    intro p d n hm
    obtain ⟨pre, post, rfl⟩ := List.append_of_mem hm
    exact (hf pre post p d n rfl).1
  clear hf
  induction t with
  | nil => intro q hq; simp [emitted] at hq
  | cons e t ih =>
    have ih' := ih (fun p d n hm => hdir p d n (List.mem_cons_of_mem _ hm))
    intro q hq
    cases e with
    | enter p =>
      simp only [emitted, List.mem_cons] at hq
      rcases hq with rfl | hq
      · rfl
      · exact ih' q hq
    | test p a => exact ih' q (by simpa [emitted] using hq)
    | draw d => exact ih' q (by simpa [emitted] using hq)
    | carve p d n =>
      simp only [emitted, List.mem_cons] at hq
      rcases hq with rfl | hq
      · exact length_connectionQuad _ _ (hdir p d n (List.mem_cons_self _ _))
      · exact ih' q hq

theorem emitted_points (t : List Event) :
    (Multiset.ofList ((emitted t).map points) : Multiset (List (ℚ × ℚ))) =
      Multiset.ofList ((entered t).map fun c => points (nodeQuad c)) + carvedQuads t := by
  unfold carvedQuads
  induction t with
  | nil => simp [emitted, entered, carvings]
  | cons e t ih =>
    cases e with
    | enter p =>
      simp only [emitted, entered, carvings, List.map_cons, ← Multiset.cons_coe, ih,
        Multiset.cons_add]
    | test p a => simpa [emitted, entered, carvings] using ih
    | draw d => simpa [emitted, entered, carvings] using ih
    | carve p d n =>
      simp only [emitted, entered, carvings, List.map_cons, ← Multiset.cons_coe, ih,
        Multiset.add_cons]

theorem bufferQuads_withTexCoords {m : Maze} {qs : List (List Vertex)}
    (hm : m.maze = qs.flatten) (hq : ∀ q ∈ qs, q.length = 4) :
    bufferQuads (withTexCoords m).maze = Multiset.ofList (qs.map points) := by
  unfold bufferQuads withTexCoords
  dsimp only
  rw [hm, List.map_flatten, quadsOf_flatten, List.map_map]
  · congr 1
    apply List.map_congr_left
    intro q _
    simp [points, Function.comp_def]
  · intro q hq'
    obtain ⟨q0, hq0, rfl⟩ := List.mem_map.mp hq'
    rw [List.length_map]
    exact hq q0 hq0
theorem connectorsOf_zero (c : Vector2u) : connectorsOf c 0 = 0 := by
  simp [connectorsOf]

theorem connectorsOf_or_canonical (c : Vector2u) {x d : Nat} (hd : d = Up ∨ d = Left)
    (hx : x &&& d = 0) : connectorsOf c (x ||| d) = connectorsOf c x + connectorAt c d := by
  have hUp : Up ∈ directions := by simp [directions]
  have hLeft : Left ∈ directions := by simp [directions]
  obtain ⟨n1, n2, n3, n4, n5, n6⟩ := directions_distinct
  unfold connectorsOf
  rcases hd with rfl | rfl
  · have e1 : (x ||| Up) &&& Up ≠ 0 := (or_and_direction x hUp hUp).mpr (Or.inr rfl)
    have e2 : ((x ||| Up) &&& Left ≠ 0) = (x &&& Left ≠ 0) := propext
      ((or_and_direction x hUp hLeft).trans ⟨fun h => h.resolve_right (Ne.symm n2), Or.inl⟩)
    simp only [e2, if_pos e1, hx, ne_eq, not_true_eq_false, if_false, zero_add]
    rw [add_comm]
  · have e1 : (x ||| Left) &&& Left ≠ 0 := (or_and_direction x hLeft hLeft).mpr (Or.inr rfl)
    have e2 : ((x ||| Left) &&& Up ≠ 0) = (x &&& Up ≠ 0) := propext
      ((or_and_direction x hLeft hUp).trans ⟨fun h => h.resolve_right n2, Or.inl⟩)
    simp only [e2, if_pos e1, hx, ne_eq, not_true_eq_false, if_false, add_zero]

theorem connectorsOf_or_other (c : Vector2u) (x : Nat) {d : Nat} (hd : d = Down ∨ d = Right) :
    connectorsOf c (x ||| d) = connectorsOf c x := by
  have hUp : Up ∈ directions := by simp [directions]
  have hLeft : Left ∈ directions := by simp [directions]
  have hdd : d ∈ directions := by rcases hd with rfl | rfl <;> simp [directions]
  obtain ⟨n1, n2, n3, n4, n5, n6⟩ := directions_distinct
  have e1 : ((x ||| d) &&& Up ≠ 0) = (x &&& Up ≠ 0) := propext
    ((or_and_direction x hdd hUp).trans ⟨fun h => h.resolve_right (by
      rcases hd with rfl | rfl
      · exact n1
      · exact n3), Or.inl⟩)
  have e2 : ((x ||| d) &&& Left ≠ 0) = (x &&& Left ≠ 0) := propext
    ((or_and_direction x hdd hLeft).trans ⟨fun h => h.resolve_right (by
      rcases hd with rfl | rfl
      · exact Ne.symm n4
      · exact n6), Or.inl⟩)
  unfold connectorsOf
  simp only [e1, e2]

theorem bind_update {α β : Type} [DecidableEq α] (s : Finset α) (f f' : α → Multiset β)
    {c0 : α} (hc0 : c0 ∈ s) (x : Multiset β) (h0 : f' c0 = f c0 + x)
    (hne : ∀ c ∈ s, c ≠ c0 → f' c = f c) : s.val.bind f' = s.val.bind f + x := by
  have hs : s.val = c0 ::ₘ (s.erase c0).val := by
    rw [Finset.erase_val, Multiset.cons_erase (Finset.mem_val.mpr hc0)]
  have hrest : (s.erase c0).val.bind f' = (s.erase c0).val.bind f := by
    apply Multiset.bind_congr
    intro c hc
    have hc' : c ∈ s.erase c0 := Finset.mem_val.mp hc
    exact hne c (Finset.mem_of_mem_erase hc') (Finset.ne_of_mem_erase hc')
  rw [hs, Multiset.cons_bind, Multiset.cons_bind, hrest, h0]
  abel

theorem connectors_congr {w h : Nat} {g g' : List (List MazeNode)}
    (hd : ∀ c, dirsAt g' c = dirsAt g c) : connectors w h g' = connectors w h g := by
  unfold connectors
  simp only [hd]

theorem Carving.connectors_eq {w h d : Nat} {p n : Vector2u} {m m2 : Maze}
    (hc : Carving w h p m d n m2) (hs : Shape w h m) (hp : InGrid w h p)
    (hn0 : dirsAt m.mazeNodes n = 0) (hpd : dirsAt m.mazeNodes p &&& d = 0) :
    connectors w h m2.mazeNodes =
      connectors w h m.mazeNodes + {points (connectionQuad p n d)} := by
  unfold connectors
  have hod := getOppositeDirection_mem hc.dir
  have hback := neighbourOf_opposite hc.dir hc.nb
  by_cases hcan : d = Up ∨ d = Left
  · have hopp : getOppositeDirection d = Down ∨ getOppositeDirection d = Right := by
      rcases hcan with rfl | rfl
      · exact Or.inl (by decide)
      · exact Or.inr (by decide)
    apply bind_update (cells w h) _ _ (mem_cells.mpr hp)
    · rw [hc.dirsAt_self hs hp, connectorsOf_or_canonical p hcan hpd]
      congr 1
      unfold connectorAt
      rw [hc.nb]
    · intro c _ hcp
      by_cases hcn : c = n
      · subst hcn
        rw [hc.dirsAt_next hs, connectorsOf_or_other _ _ hopp]
      · rw [hc.dirsAt_other hcp hcn]
  · have hother : d = Down ∨ d = Right := by
      rcases mem_directions.mp hc.dir with rfl | rfl | rfl | rfl
      · exact absurd (Or.inl rfl) hcan
      · exact Or.inl rfl
      · exact absurd (Or.inr rfl) hcan
      · exact Or.inr rfl
    have hopp : getOppositeDirection d = Up ∨ getOppositeDirection d = Left := by
      rcases hother with rfl | rfl
      · exact Or.inl (by decide)
      · exact Or.inr (by decide)
    apply bind_update (cells w h) _ _ (mem_cells.mpr hc.inGrid)
    · rw [hc.dirsAt_next hs, connectorsOf_or_canonical n hopp (by rw [hn0]; simp)]
      congr 1
      unfold connectorAt
      rw [hback, connectionQuad_opposite hc.dir hc.nb]
    · intro c _ hcn
      by_cases hcp : c = p
      · subst hcp
        rw [hc.dirsAt_self hs hp, connectorsOf_or_other _ _ hother]
      · rw [hc.dirsAt_other hcp hcn]

theorem carvedQuads_snoc {t : List Event} {t2 : List Event} {p n : Vector2u} {d : Nat}
    (ht : carvings t2 = carvings t ++ [(p, d, n)]) :
    carvedQuads t2 = carvedQuads t + {points (connectionQuad p n d)} := by
  unfold carvedQuads
  rw [ht, List.map_append, ← Multiset.coe_add]
  rfl

theorem run_connectors {R : RandomLib} {w h : Nat} {k : Phase} {p : Vector2u} {m m' : Maze}
    (hr : Run R w h k p m m')
    (hnode : k = .node → Forest w h m.mazeNodes
      (fun c => visitedAt m.mazeNodes c = true ∨ c = p))
    (hloop : k = .loop → visitedAt m.mazeNodes p = true ∧
      Forest w h m.mazeNodes (fun c => visitedAt m.mazeNodes c = true))
    (hm : connectors w h m.mazeNodes = carvedQuads m.trace) :
    connectors w h m'.mazeNodes = carvedQuads m'.trace := by
  induction hr with
  | @exit p m node hs hp hn hx =>
    rw [connectors_congr (dirsAt_visit hn), hm]
    unfold carvedQuads
    rw [carvings_visit]
  | @inner p m m' node hs hp hn hx hrun ih =>
    apply ih (fun hk => by cases hk)
    · intro _
      constructor
      · rw [visitedAt_visit hs hp hn]; simp
      · refine forest_congr (dirsAt_visit hn) ?_ (hnode rfl)
        intro c
        rw [visitedAt_visit hs hp hn]
        simp [or_comm]
    · rw [connectors_congr (dirsAt_visit hn), hm]
      unfold carvedQuads
      rw [carvings_visit]
  | done hs hp h0 =>
    rw [hm]
    unfold carvedQuads
    simp [carvings_append, carvings]
  | @step p n m m1 m2 m3 m' d fuel hs hp h0 hr hc hrun3 hrun' ih3 ih' =>
    have hcv := step_facts hs hp hr hc
    obtain ⟨hv, hf⟩ := hloop rfl
    have hn0 : dirsAt m.mazeNodes n = 0 := by
      by_contra h0
      have := hf.open_live n h0
      simp only at this
      rw [hcv.fresh] at this
      cases this
    have hpd : dirsAt m.mazeNodes p &&& d = 0 := by
      by_contra hbit
      obtain ⟨n', h1, -, h3⟩ := hf.sym p d hcv.dir hbit
      rw [hcv.nb] at h1
      cases h1
      rw [hn0] at h3
      simp at h3
    have hf2 := hcv.forest hs hp hv hf
    have hf3 := run_forest hrun3 (fun _ => hf2) (fun hk => by cases hk)
    apply ih' (fun hk => by cases hk)
      (fun _ => ⟨run_mono hrun3 _ (by rw [hcv.visitedAt_eq]; exact hv), hf3⟩)
    apply ih3 (fun _ => hf2) (fun hk => by cases hk)
    rw [hcv.connectors_eq hs hp hn0 hpd, hm, carvedQuads_snoc hcv.carvings_eq]

theorem connectors_initial (R : RandomLib) (w h : Nat) (seed : Int) :
    connectors w h (initial R w h seed).mazeNodes = carvedQuads (initial R w h seed).trace := by
  unfold connectors carvedQuads
  simp only [dirsAt_initial, connectorsOf_zero, Multiset.bind_zero]
  rfl

theorem entered_eq_cells {w h : Nat} {m : Maze} (hc : Carved w h m) :
    (Multiset.ofList (entered m.trace) : Multiset Vector2u) = (cells w h).val := by
  have : (entered m.trace).toFinset = cells w h := by
    ext c
    rw [List.mem_toFinset, hc.entered_cells, mem_cells]
  rw [← this, List.toFinset_val, hc.entered_nodup.dedup]

/-- The three calls whose precondition is violated (`generate` with a zero extent,
`getAvailableDirections` outside the grid, `regenerate` on a maze never generated) each
reach an unchecked access past the end of a vector: `mazeNodes[0][0]`,
`mazeNodes[pos.x][pos.y]`, `mazeNodes[0]`.  What the program does from there is undefined
behaviour, about which the embedding says nothing. -/
theorem unchecked_access_reached (R : RandomLib) (fuel : Nat) (m : Maze)
    (w h : Nat) (seed : Int) :
    generate R (fuel + 1) m ⟨0, h⟩ seed = .error .outOfRange ∧
    generate R (fuel + 1) m ⟨w, 0⟩ seed = .error .outOfRange ∧
    (∀ pos, Rect w h m.mazeNodes → ¬ InGrid w h pos →
      getAvailableDirections m pos = .error .outOfRange) ∧
    regenerate R fuel { m with mazeNodes := [] } = .error .outOfRange := by
  refine ⟨?_, ?_, ?_, rfl⟩
  · unfold generate
    simp only [exploreNode]
    rw [nodeAt_empty_columns]
    intro column hc
    simp [resize] at hc
  · unfold generate
    simp only [exploreNode]
    rw [nodeAt_empty_columns]
    intro column hc
    simp only [List.mem_map] at hc
    obtain ⟨c, -, rfl⟩ := hc
    simp [resize]
  · intro pos hr hp
    unfold getAvailableDirections
    rw [nodeAt_outside hr hp]

/-! ## The claims -/

/-- C2, full coverage: for every width and height of at least one and every seed,
`generate` (with a fair random library and enough fuel) returns, and in the maze it
returns every cell of the grid has `visited = true`, although no neighbour test and no
carving ever happens at the exit cell `(w - 1, h - 1)`. -/
theorem full_coverage {R : RandomLib} (hfair : Fair R) {w h : Nat} (hd : Dim w h)
    (m : Maze) (seed : Int) :
    ∃ N, ∀ fuel, N ≤ fuel → ∃ m', generate R fuel m ⟨w, h⟩ seed = .ok m' ∧
      (∀ x y, x < w → y < h →
        ∃ node, nodeAt m'.mazeNodes ⟨x, y⟩ = .ok node ∧ node.visited = true) ∧
      ∀ e ∈ m'.trace, e.source ≠ some (exitOf w h) := by
  obtain ⟨N, hN⟩ := generate_carved hfair hd m seed
  refine ⟨N, fun fuel hf => ?_⟩
  obtain ⟨m', hg, hc⟩ := hN fuel hf
  refine ⟨m', hg, ?_, hc.exit_leaf⟩
  intro x y hx hy
  obtain ⟨node, hn⟩ := nodeAt_of_inGrid hc.rect (p := ⟨x, y⟩) ⟨hx, hy⟩
  refine ⟨node, hn, ?_⟩
  rw [← visitedAt_of_nodeAt hn]
  exact hc.visited _ ⟨hx, hy⟩

/-- Witness of C2: a `3 × 3` grid, seed 42, the counter library. -/
theorem full_coverage_witness :
    ∃ N, ∀ fuel, N ≤ fuel → ∃ m', generate counterLib fuel {} ⟨3, 3⟩ 42 = .ok m' ∧
      (∀ x y, x < 3 → y < 3 →
        ∃ node, nodeAt m'.mazeNodes ⟨x, y⟩ = .ok node ∧ node.visited = true) ∧
      ∀ e ∈ m'.trace, e.source ≠ some (exitOf 3 3) :=
  full_coverage counterLib_fair (by decide) {} 42

/-- C5, determinism with no stale state: the outcome of `generate` does not depend on
the state it is called in, and whenever two calls with the same width, height and seed
return, on whatever states and with whatever fuel, they return the same maze: the same
nodes (visited flags and open directions), the same vertex buffer, the same engine.  For
a width and a height of at least one (and a fair random library) there is one maze that
`generate` returns from every state, given enough fuel. -/
theorem determinism (R : RandomLib) (w h : Nat) (seed : Int) :
    (∀ fuel m1 m2, generate R fuel m1 ⟨w, h⟩ seed = generate R fuel m2 ⟨w, h⟩ seed) ∧
    (∀ fuel1 fuel2 m1 m2 r1 r2, generate R fuel1 m1 ⟨w, h⟩ seed = .ok r1 →
      generate R fuel2 m2 ⟨w, h⟩ seed = .ok r2 → r1 = r2) ∧
    (Fair R → Dim w h →
      ∃ N r, ∀ fuel, N ≤ fuel → ∀ m, generate R fuel m ⟨w, h⟩ seed = .ok r) := by
  refine ⟨fun fuel m1 m2 => generate_any_state R fuel m1 m2 w h seed,
    fun _ _ _ _ _ _ h1 h2 => generate_any_fuel R h1 h2, fun hfair hd => ?_⟩
  obtain ⟨N, m2, -, hgen⟩ := generate_returns hfair hd {} seed
  refine ⟨N, withTexCoords m2, fun fuel hf m => ?_⟩
  rw [generate_any_state R fuel m {} w h seed]
  exact hgen fuel hf

/-- C8, single-cell grid: for every seed, `generate({1,1}, seed)` marks the one cell
visited, carves no edge, draws no random direction (the engine is still in its seeded
state), leaves a vertex buffer of exactly 4 points, and `getAvailableDirections((0,0))`
returns 0. -/
theorem single_cell (R : RandomLib) (fuel : Nat) (m : Maze) (seed : Int) :
    ∃ m', generate R (fuel + 1) m ⟨1, 1⟩ seed = .ok m' ∧
      m'.mazeNodes = [[{ visited := true, availableDirections := 0 }]] ∧
      m'.trace = [Event.enter ⟨0, 0⟩] ∧ carvings m'.trace = [] ∧
      m'.randomEngine = R.seed seed ∧ m'.maze.length = 4 ∧
      getAvailableDirections m' ⟨0, 0⟩ = .ok 0 := by
  refine ⟨withTexCoords (visit (initial R 1 1 seed) ⟨0, 0⟩ {}), ?_, rfl, rfl, rfl, rfl, rfl, rfl⟩
  rw [generate_eq, exploreNode]
  rfl

/-- C14, texture coordinates: after `generate`, every vertex of the buffer has its
position as texture coordinates; the pass that sets them (the last loop of `generate`,
applied to the state `exploreNode` returns) changes no position, not the number of
vertices and nothing else of the state. -/
theorem texture_coordinates {R : RandomLib} (hfair : Fair R) {w h : Nat} (hd : Dim w h)
    (m : Maze) (seed : Int) :
    ∃ N, ∀ fuel, N ≤ fuel → ∃ m2 m', exploreNode R fuel ⟨0, 0⟩ (initial R w h seed) = .ok m2 ∧
      generate R fuel m ⟨w, h⟩ seed = .ok m' ∧
      (∀ i (hi : i < m'.maze.length),
        (m'.maze.get ⟨i, hi⟩).texCoords = (m'.maze.get ⟨i, hi⟩).position) ∧
      points m'.maze = points m2.maze ∧ m'.maze.length = m2.maze.length ∧
      m'.mazeNodes = m2.mazeNodes ∧ m'.randomEngine = m2.randomEngine := by
  obtain ⟨N, m2, hrun, hexp⟩ := explore_returns hfair hd seed
  refine ⟨N, fun fuel hf => ?_⟩
  have he := hexp fuel hf
  have hg : generate R fuel m ⟨w, h⟩ seed = .ok (withTexCoords m2) := by
    rw [generate_eq, he]
  refine ⟨m2, withTexCoords m2, he, hg, ?_, ?_, ?_, rfl, rfl⟩
  · intro i hi
    exact (carved_of_run hrun).texCoords _ (List.get_mem _ _ _)
  · simp [points, withTexCoords]
  · simp [withTexCoords]

/-- Witness of C14: a `3 × 3` grid, seed 42, the counter library. -/
theorem texture_coordinates_witness :
    ∃ N, ∀ fuel, N ≤ fuel →
      ∃ m2 m', exploreNode counterLib fuel ⟨0, 0⟩ (initial counterLib 3 3 42) = .ok m2 ∧
      generate counterLib fuel {} ⟨3, 3⟩ 42 = .ok m' ∧
      (∀ i (hi : i < m'.maze.length),
        (m'.maze.get ⟨i, hi⟩).texCoords = (m'.maze.get ⟨i, hi⟩).position) ∧
      points m'.maze = points m2.maze ∧ m'.maze.length = m2.maze.length ∧
      m'.mazeNodes = m2.mazeNodes ∧ m'.randomEngine = m2.randomEngine :=
  texture_coordinates counterLib_fair (by decide) {} 42

/-- C17, `getUnvisitedNeighbours` is exact: on a `w × h` grid and an in-bounds position
`p` it returns a mask (it is a function of the grid, which it cannot modify) in which the
bit of a direction `d` is set if and only if the neighbour of `p` in direction `d` lies
inside the grid and is unvisited; no bit other than the four direction bits is set. -/
theorem getUnvisitedNeighbours_exact {w h : Nat} (hd : Dim w h) {g : List (List MazeNode)}
    (hg : Rect w h g) {p : Vector2u} (hp : InGrid w h p) :
    ∃ a, getUnvisitedNeighbours g p = .ok a ∧ a < 16 ∧
      ∀ d ∈ directions, (a &&& d ≠ 0 ↔
        ∃ n, neighbourOf p d = some n ∧ InGrid w h n ∧ visitedAt g n = false) :=
  ⟨unvisitedMask w h g p, getUnvisitedNeighbours_eq hd hg hp, unvisitedMask_lt w h g p,
    fun _ hdir => unvisitedMask_bit w h g p hdir⟩

/-- Witness of C17: the middle cell of a fresh `3 × 3` grid. -/
theorem getUnvisitedNeighbours_exact_witness :
    ∃ a, getUnvisitedNeighbours (List.replicate 3 (List.replicate 3 ({} : MazeNode))) ⟨1, 1⟩
        = .ok a ∧ a < 16 ∧
      ∀ d ∈ directions, (a &&& d ≠ 0 ↔
        ∃ n, neighbourOf ⟨1, 1⟩ d = some n ∧ InGrid 3 3 n ∧
          visitedAt (List.replicate 3 (List.replicate 3 ({} : MazeNode))) n = false) :=
  getUnvisitedNeighbours_exact (by decide) (rect_replicate 3 3) (by decide)

/-- C19, the connector quad does not depend on the carving direction: if `b` is the
neighbour of `a` in direction `d` on a `w × h` grid, then carving from `a` in direction
`d` computes the next position `b`, carving from `b` in the opposite direction computes
the next position `a`, and both append the same four vertices in the same order. -/
theorem connector_independent_of_direction {w h : Nat} (hd : Dim w h) {a b : Vector2u} {d : Nat}
    (hdir : d ∈ directions) (ha : InGrid w h a) (hb : InGrid w h b)
    (hab : neighbourOf a d = some b) :
    nextPositionOf a d = b ∧ nextPositionOf b (getOppositeDirection d) = a ∧
      connectionQuad a (nextPositionOf a d) d =
        connectionQuad b (nextPositionOf b (getOppositeDirection d))
          (getOppositeDirection d) := by
  have h1 := nextPositionOf_eq hd hdir hab hb
  have h2 := nextPositionOf_eq hd (getOppositeDirection_mem hdir)
    (neighbourOf_opposite hdir hab) ha
  rw [h1, h2]
  exact ⟨rfl, rfl, connectionQuad_opposite hdir hab⟩

/-- Witness of C19: carving right from `(0,0)` and left from `(1,0)` on a `2 × 1` grid. -/
theorem connector_independent_of_direction_witness :
    nextPositionOf ⟨0, 0⟩ Right = ⟨1, 0⟩ ∧
      nextPositionOf ⟨1, 0⟩ (getOppositeDirection Right) = ⟨0, 0⟩ ∧
      connectionQuad ⟨0, 0⟩ (nextPositionOf ⟨0, 0⟩ Right) Right =
        connectionQuad ⟨1, 0⟩ (nextPositionOf ⟨1, 0⟩ (getOppositeDirection Right))
          (getOppositeDirection Right) :=
  connector_independent_of_direction (w := 2) (h := 1) (by decide) (by decide) (by decide)
    (by decide) (by decide)

/-- C12 as stated fails: the corners are computed in `float`.  For the cell
`(671089, 0)` the product `671089 * 50 = 33554450` lies above `2 ^ 25`, where only the
multiples of four are `float` values, and is rounded to `33554448`: the quad has the
corners `33554428` and `33554468` where the claim says `33554430` and `33554470`.  The
bodies of the adjacent cells `(1342179, 0)` and `(1342180, 0)` share the point
`(67108976, 0)`, so they are not separated by a gap. -/
theorem cell_body_quad_rounded :
    points (nodeQuad ⟨671089, 0⟩) =
      [(33554428, -20), (33554468, -20), (33554468, 20), (33554428, 20)] ∧
    points (nodeQuad ⟨671089, 0⟩) ≠
      [((50 : ℚ) * (671089 : ℕ) - 20, (50 : ℚ) * (0 : ℕ) - 20),
        ((50 : ℚ) * (671089 : ℕ) + 20, (50 : ℚ) * (0 : ℕ) - 20),
        ((50 : ℚ) * (671089 : ℕ) + 20, (50 : ℚ) * (0 : ℕ) + 20),
        ((50 : ℚ) * (671089 : ℕ) - 20, (50 : ℚ) * (0 : ℕ) + 20)] ∧
    Covers (nodeQuad ⟨1342179, 0⟩) (67108976, 0) ∧
    Covers (nodeQuad ⟨1342180, 0⟩) (67108976, 0) := by
  have h1 : points (nodeQuad ⟨671089, 0⟩) =
      [(33554428, -20), (33554468, -20), (33554468, 20), (33554428, 20)] := by decide!
  have h2 : points (nodeQuad ⟨1342179, 0⟩) =
      [(67108928, -20), (67108976, -20), (67108976, 20), (67108928, 20)] := by decide!
  have h3 : points (nodeQuad ⟨1342180, 0⟩) =
      [(67108976, -20), (67109024, -20), (67109024, 20), (67108976, 20)] := by decide!
  refine ⟨h1, ?_, ?_, ?_⟩
  · rw [h1]
    norm_num
  · rw [covers_iff_points, h2]
    norm_num
  · rw [covers_iff_points, h3]
    norm_num

/-- C12 as amended: `getNodeSize` returns 50, the corridor-width factor is below one half,
and for every cell `(x, y)` with `x, y ≤ 671088` (the coordinates whose edges stay below
`2 ^ 25`) the quad `exploreNode` appends is the four points
`(50x-20, 50y-20), (50x+20, 50y-20), (50x+20, 50y+20), (50x-20, 50y+20)`: the axis-aligned
square of side 40 centred on `(50x, 50y)`.  The body quads of two distinct such cells
share no point, and the bodies of grid-adjacent such cells are exactly 10 apart. -/
theorem cell_body_quad {x y : Nat} (hx : x ≤ maxExactCell) (hy : y ≤ maxExactCell) :
    getNodeSize = 50 ∧ corridorWidthFactor < 1 / 2 ∧
    (∀ (m : Maze) (node : MazeNode), (visit m ⟨x, y⟩ node).maze = m.maze ++ nodeQuad ⟨x, y⟩) ∧
    points (nodeQuad ⟨x, y⟩) =
      [((50 : ℚ) * x - 20, (50 : ℚ) * y - 20), ((50 : ℚ) * x + 20, (50 : ℚ) * y - 20),
        ((50 : ℚ) * x + 20, (50 : ℚ) * y + 20), ((50 : ℚ) * x - 20, (50 : ℚ) * y + 20)] ∧
    (∀ pt : ℚ × ℚ, Covers (nodeQuad ⟨x, y⟩) pt ↔
      |pt.1 - 50 * x| ≤ 20 ∧ |pt.2 - 50 * y| ≤ 20) ∧
    (∀ x' y' : Nat, x' ≤ maxExactCell → y' ≤ maxExactCell → (x', y') ≠ (x, y) →
      ∀ pt : ℚ × ℚ, ¬ (Covers (nodeQuad ⟨x, y⟩) pt ∧ Covers (nodeQuad ⟨x', y'⟩) pt)) ∧
    (x + 1 ≤ maxExactCell → ∀ pt pt' : ℚ × ℚ, Covers (nodeQuad ⟨x, y⟩) pt →
      Covers (nodeQuad ⟨x + 1, y⟩) pt' → 10 ≤ pt'.1 - pt.1) ∧
    (y + 1 ≤ maxExactCell → ∀ pt pt' : ℚ × ℚ, Covers (nodeQuad ⟨x, y⟩) pt →
      Covers (nodeQuad ⟨x, y + 1⟩) pt' → 10 ≤ pt'.2 - pt.2) ∧
    (x + 1 ≤ maxExactCell → ∃ pt pt' : ℚ × ℚ, Covers (nodeQuad ⟨x, y⟩) pt ∧
      Covers (nodeQuad ⟨x + 1, y⟩) pt' ∧ pt'.1 - pt.1 = 10 ∧ pt'.2 = pt.2) ∧
    (y + 1 ≤ maxExactCell → ∃ pt pt' : ℚ × ℚ, Covers (nodeQuad ⟨x, y⟩) pt ∧
      Covers (nodeQuad ⟨x, y + 1⟩) pt' ∧ pt'.2 - pt.2 = 10 ∧ pt'.1 = pt.1) := by
  refine ⟨nodeSize_eq, by rw [corridorWidthFactor_eq]; norm_num, fun _ _ => rfl,
    points_nodeQuad hx hy, ?_, ?_, ?_, ?_, ?_, ?_⟩
  · intro pt
    rw [covers_nodeQuad hx hy, abs_le, abs_le]
    constructor
    · rintro ⟨⟨h1, h2⟩, h3, h4⟩
      exact ⟨⟨by linarith, by linarith⟩, by linarith, by linarith⟩
    · rintro ⟨⟨h1, h2⟩, h3, h4⟩
      exact ⟨⟨by linarith, by linarith⟩, by linarith, by linarith⟩
  · intro x' y' hx' hy' hne pt
    rw [covers_nodeQuad hx hy, covers_nodeQuad hx' hy']
    rintro ⟨⟨⟨h1, h2⟩, h3, h4⟩, ⟨h5, h6⟩, h7, h8⟩
    apply hne
    have hxx : x' = x := by
      rcases Nat.lt_trichotomy x' x with hlt | heq | hgt
      · have : (x' : ℚ) + 1 ≤ x := by exact_mod_cast hlt
        linarith
      · exact heq
      · have : (x : ℚ) + 1 ≤ x' := by exact_mod_cast hgt
        linarith
    have hyy : y' = y := by
      rcases Nat.lt_trichotomy y' y with hlt | heq | hgt
      · have : (y' : ℚ) + 1 ≤ y := by exact_mod_cast hlt
        linarith
      · exact heq
      · have : (y : ℚ) + 1 ≤ y' := by exact_mod_cast hgt
        linarith
    rw [hxx, hyy]
  · intro hx1 pt pt'
    rw [covers_nodeQuad hx hy, covers_nodeQuad hx1 hy]
    rintro ⟨⟨h1, h2⟩, h3, h4⟩ ⟨⟨h5, h6⟩, h7, h8⟩
    push_cast at h5
    linarith
  · intro hy1 pt pt'
    rw [covers_nodeQuad hx hy, covers_nodeQuad hx hy1]
    rintro ⟨⟨h1, h2⟩, h3, h4⟩ ⟨⟨h5, h6⟩, h7, h8⟩
    push_cast at h7
    linarith
  · intro hx1
    refine ⟨((50 : ℚ) * x + 20, (50 : ℚ) * y), ((50 : ℚ) * x + 30, (50 : ℚ) * y), ?_, ?_, ?_, rfl⟩
    · rw [covers_nodeQuad hx hy]
      dsimp only
      exact ⟨⟨by linarith, by linarith⟩, by linarith, by linarith⟩
    · rw [covers_nodeQuad hx1 hy]
      dsimp only
      push_cast
      exact ⟨⟨by linarith, by linarith⟩, by linarith, by linarith⟩
    · dsimp only; ring
  · intro hy1
    refine ⟨((50 : ℚ) * x, (50 : ℚ) * y + 20), ((50 : ℚ) * x, (50 : ℚ) * y + 30), ?_, ?_, ?_, rfl⟩
    · rw [covers_nodeQuad hx hy]
      dsimp only
      exact ⟨⟨by linarith, by linarith⟩, by linarith, by linarith⟩
    · rw [covers_nodeQuad hx hy1]
      dsimp only
      push_cast
      exact ⟨⟨by linarith, by linarith⟩, by linarith, by linarith⟩
    · dsimp only; ring

/-- Witness of C12 as amended: the corners of the quad of the cell `(3, 2)`. -/
theorem cell_body_quad_witness :
    points (nodeQuad ⟨3, 2⟩) =
      [((50 : ℚ) * (3 : ℕ) - 20, (50 : ℚ) * (2 : ℕ) - 20),
        ((50 : ℚ) * (3 : ℕ) + 20, (50 : ℚ) * (2 : ℕ) - 20),
        ((50 : ℚ) * (3 : ℕ) + 20, (50 : ℚ) * (2 : ℕ) + 20),
        ((50 : ℚ) * (3 : ℕ) - 20, (50 : ℚ) * (2 : ℕ) + 20)] :=
  (cell_body_quad (x := 3) (y := 2) (by decide) (by decide)).2.2.2.1

/-- C1, perfect-maze property: for every width and height of at least one and every
seed, after `generate` the undirected graph whose edges are the open-direction bits of
the cells has exactly `w * h - 1` edges, is connected (every cell is reachable from
`(0,0)` along open directions) and has no cycle.  The open bits are symmetric, so that
every edge of the graph stands for two bits, one in each of its cells. -/
theorem perfect_maze {R : RandomLib} (hfair : Fair R) {w h : Nat} (hd : Dim w h)
    (m : Maze) (seed : Int) :
    ∃ N, ∀ fuel, N ≤ fuel → ∃ m', generate R fuel m ⟨w, h⟩ seed = .ok m' ∧
      (mazeGraph w h m'.mazeNodes).edgeFinset.card = w * h - 1 ∧
      (mazeGraph w h m'.mazeNodes).Connected ∧
      (∀ a b : Fin w × Fin h, cellPos a = ⟨0, 0⟩ →
        (mazeGraph w h m'.mazeNodes).Reachable a b) ∧
      (mazeGraph w h m'.mazeNodes).IsAcyclic ∧
      Symmetric w h m'.mazeNodes := by
  obtain ⟨N, hN⟩ := generate_carved hfair hd m seed
  refine ⟨N, fun fuel hf => ?_⟩
  obtain ⟨m', hg, hc⟩ := hN fuel hf
  refine ⟨m', hg, ?_, hc.tree.isConnected, fun a b _ => hc.tree.isConnected.preconnected a b,
    hc.tree.IsAcyclic, hc.symmetric⟩
  have := hc.tree.card_edgeFinset
  simp only [Fintype.card_prod, Fintype.card_fin] at this
  omega

/-- Witness of C1: a `3 × 3` grid, seed 42, the counter library. -/
theorem perfect_maze_witness :
    ∃ N, ∀ fuel, N ≤ fuel → ∃ m', generate counterLib fuel {} ⟨3, 3⟩ 42 = .ok m' ∧
      (mazeGraph 3 3 m'.mazeNodes).edgeFinset.card = 3 * 3 - 1 ∧
      (mazeGraph 3 3 m'.mazeNodes).Connected ∧
      (∀ a b : Fin 3 × Fin 3, cellPos a = ⟨0, 0⟩ →
        (mazeGraph 3 3 m'.mazeNodes).Reachable a b) ∧
      (mazeGraph 3 3 m'.mazeNodes).IsAcyclic ∧
      Symmetric 3 3 m'.mazeNodes :=
  perfect_maze counterLib_fair (by decide) {} 42

/-- C3, symmetry invariant: the fresh grid is symmetric, marking a cell visited keeps the
grid symmetric, one carving of the loop of `exploreNode` (both bits set) keeps it
symmetric, and so the grid `generate` returns is symmetric: for every cell `c` and every
direction `d` whose bit is set in `c`, the neighbour of `c` in direction `d` is a cell of
the grid with the bit `getOppositeDirection d` set. -/
theorem symmetry_invariant {R : RandomLib} (hfair : Fair R) {w h : Nat} (hd : Dim w h)
    (m : Maze) (seed : Int) :
    Symmetric w h (initial R w h seed).mazeNodes ∧
    (∀ (m0 : Maze) (p : Vector2u) (node : MazeNode), nodeAt m0.mazeNodes p = .ok node →
      Symmetric w h m0.mazeNodes → Symmetric w h (visit m0 p node).mazeNodes) ∧
    (∀ (m0 m1 m2 : Maze) (p n : Vector2u) (d fuel : Nat), Shape w h m0 → InGrid w h p →
      redraw R (unvisitedMask w h m0.mazeNodes p) fuel
        (getRandomDirection R { m0 with trace := m0.trace ++
          [Event.test p (unvisitedMask w h m0.mazeNodes p)] }) = .ok (d, m1) →
      carve m1 p d = .ok (n, m2) →
      Symmetric w h m0.mazeNodes → Symmetric w h m2.mazeNodes) ∧
    ∃ N, ∀ fuel, N ≤ fuel → ∃ m', generate R fuel m ⟨w, h⟩ seed = .ok m' ∧
      ∀ c, ∀ d ∈ directions, dirsAt m'.mazeNodes c &&& d ≠ 0 →
        ∃ n, neighbourOf c d = some n ∧ InGrid w h n ∧
          dirsAt m'.mazeNodes n &&& getOppositeDirection d ≠ 0 := by
  refine ⟨(forest_initial R w h seed).sym, ?_, ?_, ?_⟩
  · intro m0 p node hn hsym
    exact symmetric_congr (dirsAt_visit hn) hsym
  · intro m0 m1 m2 p n d fuel hs hp hr hc hsym
    exact (step_facts hs hp hr hc).symmetric hs hp hsym
  · obtain ⟨N, hN⟩ := generate_carved hfair hd m seed
    refine ⟨N, fun fuel hf => ?_⟩
    obtain ⟨m', hg, hc⟩ := hN fuel hf
    exact ⟨m', hg, hc.symmetric⟩

/-- Witness of C3: a `3 × 3` grid, seed 42, the counter library. -/
theorem symmetry_invariant_witness :
    ∃ N, ∀ fuel, N ≤ fuel → ∃ m', generate counterLib fuel {} ⟨3, 3⟩ 42 = .ok m' ∧
      ∀ c, ∀ d ∈ directions, dirsAt m'.mazeNodes c &&& d ≠ 0 →
        ∃ n, neighbourOf c d = some n ∧ InGrid 3 3 n ∧
          dirsAt m'.mazeNodes n &&& getOppositeDirection d ≠ 0 :=
  (symmetry_invariant counterLib_fair (w := 3) (h := 3) (by decide) {} 42).2.2.2

/-- C4, geometry count: for every width and height of at least one and every seed, the
vertex buffer after `generate` holds exactly `4 * (w * h + w * h - 1)` points: four for
each of the `w * h` calls of `exploreNode` (one per cell) and four for each of the
`w * h - 1` carvings. -/
theorem geometry_count {R : RandomLib} (hfair : Fair R) {w h : Nat} (hd : Dim w h)
    (m : Maze) (seed : Int) :
    ∃ N, ∀ fuel, N ≤ fuel → ∃ m', generate R fuel m ⟨w, h⟩ seed = .ok m' ∧
      m'.maze.length = 4 * (w * h + w * h - 1) ∧
      (entered m'.trace).length = w * h ∧ (entered m'.trace).Nodup ∧
      (carvings m'.trace).length = w * h - 1 ∧
      m'.maze.length = 4 * (entered m'.trace).length + 4 * (carvings m'.trace).length := by
  obtain ⟨N, hN⟩ := generate_carved hfair hd m seed
  refine ⟨N, fun fuel hf => ?_⟩
  obtain ⟨m', hg, hc⟩ := hN fuel hf
  obtain ⟨h1, h2, h3, -⟩ := ledger_of_generate hd hg
  exact ⟨m', hg, hc.length, h1, hc.entered_nodup, by omega, h3⟩

/-- Witness of C4: a `3 × 3` grid, seed 42, the counter library. -/
theorem geometry_count_witness :
    ∃ N, ∀ fuel, N ≤ fuel → ∃ m', generate counterLib fuel {} ⟨3, 3⟩ 42 = .ok m' ∧
      m'.maze.length = 4 * (3 * 3 + 3 * 3 - 1) ∧
      (entered m'.trace).length = 3 * 3 ∧ (entered m'.trace).Nodup ∧
      (carvings m'.trace).length = 3 * 3 - 1 ∧
      m'.maze.length = 4 * (entered m'.trace).length + 4 * (carvings m'.trace).length :=
  geometry_count counterLib_fair (by decide) {} 42

/-- C6, termination: for every width and height of at least one and every seed,
`generate` terminates (with a fair random library, every large enough fuel gives its
result).  The recursion is well founded: `exploreNode` is never called twice on a cell,
every carving goes to a cell not entered before, and each recursive call of the loop is
made on an unvisited cell of the grid, returns with that cell visited and with strictly
fewer unvisited cells.  The redraw loop returns at once when the drawn bit lies in
`availableNeighbours`, and draws again otherwise. -/
theorem termination {R : RandomLib} (hfair : Fair R) {w h : Nat} (hd : Dim w h)
    (m : Maze) (seed : Int) :
    (∃ N, ∀ fuel, N ≤ fuel → ∃ m', generate R fuel m ⟨w, h⟩ seed = .ok m' ∧
      (entered m'.trace).Nodup ∧ CarvesFresh w h m'.trace) ∧
    (∀ (m0 m1 m2 m3 : Maze) (p n : Vector2u) (d fuel f : Nat), Shape w h m0 → InGrid w h p →
      redraw R (unvisitedMask w h m0.mazeNodes p) fuel
        (getRandomDirection R { m0 with trace := m0.trace ++
          [Event.test p (unvisitedMask w h m0.mazeNodes p)] }) = .ok (d, m1) →
      carve m1 p d = .ok (n, m2) → exploreNode R f n m2 = .ok m3 →
      InGrid w h n ∧ visitedAt m0.mazeNodes n = false ∧ visitedAt m3.mazeNodes n = true ∧
        unvisitedCount w h m3.mazeNodes < unvisitedCount w h m0.mazeNodes) ∧
    (∀ (a d : Nat) (m0 : Maze) (fuel : Nat), d &&& a ≠ 0 →
      redraw R a fuel (d, m0) = .ok (d, m0)) ∧
    ∀ (a d : Nat) (m0 : Maze) (fuel : Nat), d &&& a = 0 →
      redraw R a (fuel + 1) (d, m0) = redraw R a fuel (getRandomDirection R m0) := by
  refine ⟨?_, ?_, redraw_hit R, redraw_miss R⟩
  · obtain ⟨N, hN⟩ := generate_carved hfair hd m seed
    refine ⟨N, fun fuel hf => ?_⟩
    obtain ⟨m', hg, hc⟩ := hN fuel hf
    exact ⟨m', hg, hc.entered_nodup, (ledger_of_generate hd hg).2.2.2⟩
  · intro m0 m1 m2 m3 p n d fuel f hs hp hr hc he
    exact call_decreases hs hp hr hc he

/-- Witness of C6: a `3 × 3` grid, seed 42, the counter library. -/
theorem termination_witness :
    ∃ N, ∀ fuel, N ≤ fuel → ∃ m', generate counterLib fuel {} ⟨3, 3⟩ 42 = .ok m' ∧
      (entered m'.trace).Nodup ∧ CarvesFresh 3 3 m'.trace :=
  (termination counterLib_fair (w := 3) (h := 3) (by decide) {} 42).1

/-- C18, carving never leaves the grid: for every width and height of at least one and
every seed, `generate` makes no access outside the grid, whatever the fuel; every carving
it makes goes from a cell to the position `nextPositionOf` computes, which is the neighbour
in the drawn direction (no decrement wraps around), a cell of the grid that was not
entered before; and in the maze it returns no cell has an open direction whose neighbour
lies outside the grid: in particular `(0,0)` has neither `Up` nor `Left`. -/
theorem carving_stays_in_grid {R : RandomLib} (hfair : Fair R) {w h : Nat} (hd : Dim w h)
    (m : Maze) (seed : Int) :
    (∀ fuel e, generate R fuel m ⟨w, h⟩ seed = .error e → e = .outOfFuel) ∧
    ∃ N, ∀ fuel, N ≤ fuel → ∃ m', generate R fuel m ⟨w, h⟩ seed = .ok m' ∧
      (∀ pre post p d n, m'.trace = pre ++ Event.carve p d n :: post →
        d ∈ directions ∧ neighbourOf p d = some n ∧ nextPositionOf p d = n ∧ InGrid w h n ∧
          n ∉ entered pre) ∧
      (∀ c, ∀ d ∈ directions, dirsAt m'.mazeNodes c &&& d ≠ 0 →
        ∃ n, neighbourOf c d = some n ∧ InGrid w h n) ∧
      dirsAt m'.mazeNodes ⟨0, 0⟩ &&& Up = 0 ∧ dirsAt m'.mazeNodes ⟨0, 0⟩ &&& Left = 0 := by
  refine ⟨fun fuel e he => generate_no_fault R hd fuel m seed e he, ?_⟩
  obtain ⟨N, hN⟩ := generate_carved hfair hd m seed
  refine ⟨N, fun fuel hf => ?_⟩
  obtain ⟨m', hg, hc⟩ := hN fuel hf
  have hin : ∀ c, ∀ d ∈ directions, dirsAt m'.mazeNodes c &&& d ≠ 0 →
      ∃ n, neighbourOf c d = some n ∧ InGrid w h n := by
    intro c d hdir hbit
    obtain ⟨n, h1, h2, -⟩ := hc.symmetric c d hdir hbit
    exact ⟨n, h1, h2⟩
  refine ⟨m', hg, (ledger_of_generate hd hg).2.2.2, hin, ?_, ?_⟩
  · by_contra hbit
    obtain ⟨n, h1, -⟩ := hin ⟨0, 0⟩ Up (by simp [directions]) hbit
    simp [neighbourOf] at h1
  · by_contra hbit
    obtain ⟨n, h1, -⟩ := hin ⟨0, 0⟩ Left (by simp [directions]) hbit
    simp [neighbourOf, Up, Down, Left] at h1

/-- Witness of C18: a `3 × 3` grid, seed 42, the counter library. -/
theorem carving_stays_in_grid_witness :
    (∀ fuel e, generate counterLib fuel {} ⟨3, 3⟩ 42 = .error e → e = .outOfFuel) ∧
    ∃ N, ∀ fuel, N ≤ fuel → ∃ m', generate counterLib fuel {} ⟨3, 3⟩ 42 = .ok m' ∧
      (∀ pre post p d n, m'.trace = pre ++ Event.carve p d n :: post →
        d ∈ directions ∧ neighbourOf p d = some n ∧ nextPositionOf p d = n ∧ InGrid 3 3 n ∧
          n ∉ entered pre) ∧
      (∀ c, ∀ d ∈ directions, dirsAt m'.mazeNodes c &&& d ≠ 0 →
        ∃ n, neighbourOf c d = some n ∧ InGrid 3 3 n) ∧
      dirsAt m'.mazeNodes ⟨0, 0⟩ &&& Up = 0 ∧ dirsAt m'.mazeNodes ⟨0, 0⟩ &&& Left = 0 :=
  carving_stays_in_grid counterLib_fair (by decide) {} 42

/-- C13 as stated fails: the corners are computed in `float`.  The connector between the
horizontally adjacent cells `(671088, 0)` and `(671089, 0)` spans `[33554420, 33554428]` in
`x`, not `[33554420, 33554430]`: the point `(33554430, 0)` of the rectangle of the claim is
not covered by the quad. -/
theorem connector_gap_rounded :
    points (connectionQuad ⟨671088, 0⟩ ⟨671089, 0⟩ Right) =
      [(33554420, 20), (33554428, 20), (33554428, -20), (33554420, -20)] ∧
    ((50 : ℚ) * (671088 : ℕ) + 20 ≤ 33554430 ∧
      (33554430 : ℚ) ≤ 50 * ((671088 : ℕ) + 1) - 20) ∧
    ((50 : ℚ) * (0 : ℕ) - 20 ≤ 0 ∧ (0 : ℚ) ≤ 50 * (0 : ℕ) + 20) ∧
    ¬ Covers (connectionQuad ⟨671088, 0⟩ ⟨671089, 0⟩ Right) (33554430, 0) := by
  have h1 : points (connectionQuad ⟨671088, 0⟩ ⟨671089, 0⟩ Right) =
      [(33554420, 20), (33554428, 20), (33554428, -20), (33554420, -20)] := by decide!
  refine ⟨h1, by norm_num, by norm_num, ?_⟩
  rw [covers_iff_points, h1]
  norm_num

/-- C13 as amended: every connector quad is the quad carved rightwards or downwards
between the same two cells.  For cells with coordinates up to `671088` (whose edges stay
below `2 ^ 25`): between the horizontally adjacent cells `(x, y)` and `(x+1, y)` it is the
rectangle `[50x+20, 50(x+1)-20] × [50y-20, 50y+20]`, between the vertically adjacent
cells `(x, y)` and `(x, y+1)` the rectangle `[50x-20, 50x+20] × [50y+20, 50(y+1)-20]`.
Its corners are the two corners of each body quad on the facing sides, and no point
strictly inside it lies in a body. -/
theorem connector_spans_gap {x y : Nat} (hx : x ≤ maxExactCell) (hy : y ≤ maxExactCell) :
    (∀ d ∈ directions, ∀ a b : Vector2u, neighbourOf a d = some b →
      (a.y = b.y ∧ connectionQuad a b d =
          connectionQuad ⟨min a.x b.x, a.y⟩ ⟨min a.x b.x + 1, a.y⟩ Right) ∨
        (a.x = b.x ∧ connectionQuad a b d =
          connectionQuad ⟨a.x, min a.y b.y⟩ ⟨a.x, min a.y b.y + 1⟩ Down)) ∧
    (x + 1 ≤ maxExactCell →
      (∀ pt : ℚ × ℚ, Covers (connectionQuad ⟨x, y⟩ ⟨x + 1, y⟩ Right) pt ↔
        ((50 : ℚ) * x + 20 ≤ pt.1 ∧ pt.1 ≤ (50 : ℚ) * (x + 1) - 20) ∧
          ((50 : ℚ) * y - 20 ≤ pt.2 ∧ pt.2 ≤ (50 : ℚ) * y + 20)) ∧
      (∃ p0 p1 p2 p3 q0 q1 q2 q3 : ℚ × ℚ, points (nodeQuad ⟨x, y⟩) = [p0, p1, p2, p3] ∧
        points (nodeQuad ⟨x + 1, y⟩) = [q0, q1, q2, q3] ∧
        points (connectionQuad ⟨x, y⟩ ⟨x + 1, y⟩ Right) = [p2, q3, q0, p1]) ∧
      ∀ pt : ℚ × ℚ, Inside (connectionQuad ⟨x, y⟩ ⟨x + 1, y⟩ Right) pt →
        ¬ Covers (nodeQuad ⟨x, y⟩) pt ∧ ¬ Covers (nodeQuad ⟨x + 1, y⟩) pt) ∧
    (y + 1 ≤ maxExactCell →
      (∀ pt : ℚ × ℚ, Covers (connectionQuad ⟨x, y⟩ ⟨x, y + 1⟩ Down) pt ↔
        ((50 : ℚ) * x - 20 ≤ pt.1 ∧ pt.1 ≤ (50 : ℚ) * x + 20) ∧
          ((50 : ℚ) * y + 20 ≤ pt.2 ∧ pt.2 ≤ (50 : ℚ) * (y + 1) - 20)) ∧
      (∃ p0 p1 p2 p3 q0 q1 q2 q3 : ℚ × ℚ, points (nodeQuad ⟨x, y⟩) = [p0, p1, p2, p3] ∧
        points (nodeQuad ⟨x, y + 1⟩) = [q0, q1, q2, q3] ∧
        points (connectionQuad ⟨x, y⟩ ⟨x, y + 1⟩ Down) = [p3, p2, q1, q0]) ∧
      ∀ pt : ℚ × ℚ, Inside (connectionQuad ⟨x, y⟩ ⟨x, y + 1⟩ Down) pt →
        ¬ Covers (nodeQuad ⟨x, y⟩) pt ∧ ¬ Covers (nodeQuad ⟨x, y + 1⟩) pt) := by
  refine ⟨fun d hd a b hab => connectionQuad_canonical hd hab, fun hx1 => ⟨?_, ?_, ?_⟩,
    fun hy1 => ⟨?_, ?_, ?_⟩⟩
  · exact covers_connectionQuad_right hx1 hy
  · exact ⟨_, _, _, _, _, _, _, _, points_nodeQuad hx hy, points_nodeQuad hx1 hy,
      points_connectionQuad_right (p := ⟨x, y⟩) (n := ⟨x + 1, y⟩) hx hy hx1⟩
  · intro pt
    rw [inside_connectionQuad_right hx1 hy, covers_nodeQuad hx hy, covers_nodeQuad hx1 hy]
    rintro ⟨⟨h1, h2⟩, h3, h4⟩
    constructor
    · rintro ⟨⟨h5, h6⟩, -⟩
      linarith
    · rintro ⟨⟨h5, h6⟩, -⟩
      push_cast at h5
      linarith
  · exact covers_connectionQuad_down hx hy1
  · exact ⟨_, _, _, _, _, _, _, _, points_nodeQuad hx hy, points_nodeQuad hx hy1,
      points_connectionQuad_down (p := ⟨x, y⟩) (n := ⟨x, y + 1⟩) hx hy hy1⟩
  · intro pt
    rw [inside_connectionQuad_down hx hy1, covers_nodeQuad hx hy, covers_nodeQuad hx hy1]
    rintro ⟨⟨h1, h2⟩, h3, h4⟩
    constructor
    · rintro ⟨-, h5, h6⟩
      linarith
    · rintro ⟨-, h5, h6⟩
      push_cast at h5
      linarith

/-- Witness of C13 as amended: the connector between the cells `(0, 0)` and `(1, 0)`. -/
theorem connector_spans_gap_witness :
    (∀ pt : ℚ × ℚ, Covers (connectionQuad ⟨0, 0⟩ ⟨0 + 1, 0⟩ Right) pt ↔
      ((50 : ℚ) * (0 : ℕ) + 20 ≤ pt.1 ∧ pt.1 ≤ (50 : ℚ) * ((0 : ℕ) + 1) - 20) ∧
        ((50 : ℚ) * (0 : ℕ) - 20 ≤ pt.2 ∧ pt.2 ≤ (50 : ℚ) * (0 : ℕ) + 20)) ∧
    (∃ p0 p1 p2 p3 q0 q1 q2 q3 : ℚ × ℚ, points (nodeQuad ⟨0, 0⟩) = [p0, p1, p2, p3] ∧
      points (nodeQuad ⟨0 + 1, 0⟩) = [q0, q1, q2, q3] ∧
      points (connectionQuad ⟨0, 0⟩ ⟨0 + 1, 0⟩ Right) = [p2, q3, q0, p1]) ∧
    ∀ pt : ℚ × ℚ, Inside (connectionQuad ⟨0, 0⟩ ⟨0 + 1, 0⟩ Right) pt →
      ¬ Covers (nodeQuad ⟨0, 0⟩) pt ∧ ¬ Covers (nodeQuad ⟨0 + 1, 0⟩) pt :=
  (connector_spans_gap (x := 0) (y := 0) (by decide) (by decide)).2.1 (by decide)

/-- C11, evaluated at a failing input: the distribution `generate` installs is over
`0..4`, not `0..3`.  On `generate({2, 1}, 4)` with the counter library the first exponent
drawn is `4`, so `getRandomDirection` returns `16`, which is none of the four direction
bits; the redraw loop rejects it and the maze is carved by a later draw. -/
theorem random_direction_sixteen :
    (initial counterLib 2 1 4).randomDistribution = (0, 4) ∧
    (getRandomDirection counterLib (initial counterLib 2 1 4)).1 = 16 ∧
    16 ∉ directions ∧
    ∃ m', generate counterLib 8 {} ⟨2, 1⟩ 4 = .ok m' ∧
      m'.trace = [Event.enter ⟨0, 0⟩, Event.test ⟨0, 0⟩ Right, Event.draw 16,
        Event.draw 1, Event.draw 2, Event.draw 4, Event.draw 8,
        Event.carve ⟨0, 0⟩ Right ⟨1, 0⟩, Event.enter ⟨1, 0⟩, Event.test ⟨0, 0⟩ 0] := by
  refine ⟨rfl, rfl, by decide, ?_⟩
  have key : (match generate counterLib 8 {} ⟨2, 1⟩ 4 with
      | .ok m' => m'.trace
      | .error _ => []) = [Event.enter ⟨0, 0⟩, Event.test ⟨0, 0⟩ Right, Event.draw 16,
        Event.draw 1, Event.draw 2, Event.draw 4, Event.draw 8,
        Event.carve ⟨0, 0⟩ Right ⟨1, 0⟩, Event.enter ⟨1, 0⟩, Event.test ⟨0, 0⟩ 0] := by
    decide!
  cases hg : generate counterLib 8 {} ⟨2, 1⟩ 4 with
  | ok m' =>
    rw [hg] at key
    exact ⟨m', rfl, key⟩
  | error e =>
    rw [hg] at key
    cases key

/-- C16, the exit is a leaf: for every grid of more than one cell and every seed,
`generate` returns a maze in whose carving no edge was carved out of the exit cell
`(w-1, h-1)`; exactly one carving goes into the exit cell, and the opposite of its
direction is the one bit set in the `availableDirections` of the exit cell, which is what
`getAvailableDirections` returns there. -/
theorem exit_is_leaf {R : RandomLib} (hfair : Fair R) {w h : Nat} (hd : Dim w h)
    (hwh : 1 < w * h) (m : Maze) (seed : Int) :
    ∃ N, ∀ fuel, N ≤ fuel → ∃ m', generate R fuel m ⟨w, h⟩ seed = .ok m' ∧
      (∀ p d n, Event.carve p d n ∈ m'.trace → p ≠ exitOf w h) ∧
      ∃ p d, d ∈ directions ∧ carvingsInto (exitOf w h) m'.trace = [(p, d, exitOf w h)] ∧
        getAvailableDirections m' (exitOf w h) = .ok (getOppositeDirection d) ∧
        getOppositeDirection d ∈ directions ∧
        ∀ e ∈ directions, dirsAt m'.mazeNodes (exitOf w h) &&& e ≠ 0 ↔
          e = getOppositeDirection d := by
  obtain ⟨N, m2, hrun, hgen⟩ := generate_returns hfair hd m seed
  refine ⟨N, fun fuel hf => ⟨withTexCoords m2, hgen fuel hf, ?_, ?_⟩⟩
  · intro p d n he hp
    have := (carved_of_run hrun).exit_leaf _ he
    exact this (by rw [Event.source, hp])
  · have hx : InGrid w h (exitOf w h) := by
      unfold exitOf InGrid
      have := hd.1
      have := hd.2.2.1
      constructor <;> dsimp only <;> omega
    have hinv := (run_exit_bits hrun (fun hk => by cases hk)).2 (origin_ne_exit hwh)
      (exitEntered_initial R w h seed)
    have hvis := (carved_of_run hrun).visited _ hx
    rcases hinv with ⟨hv, -⟩ | ⟨-, p, d, hdir, hci, hbits⟩
    · have hvis' : visitedAt m2.mazeNodes (exitOf w h) = true := hvis
      rw [hv] at hvis'
      cases hvis'
    · refine ⟨p, d, hdir, hci, ?_, getOppositeDirection_mem hdir, ?_⟩
      · obtain ⟨node, hnode⟩ := nodeAt_of_inGrid (run_shape hrun).2.2.rect hx
        have hb : dirsAt m2.mazeNodes (exitOf w h) = node.availableDirections := by
          unfold dirsAt
          rw [hnode]
        unfold getAvailableDirections
        rw [show (withTexCoords m2).mazeNodes = m2.mazeNodes from rfl, hnode]
        dsimp only
        rw [← hb, hbits]
      · intro e he
        show dirsAt m2.mazeNodes (exitOf w h) &&& e ≠ 0 ↔ _
        rw [hbits, and_direction _ _ (getOppositeDirection_mem hdir) he]
        constructor
        · intro h1
          by_contra h2
          rw [if_neg h2] at h1
          exact h1 rfl
        · intro h1
          rw [if_pos h1]
          exact direction_ne_zero (getOppositeDirection_mem hdir)

/-- Witness of C16: a `3 × 3` grid, seed 42, the counter library. -/
theorem exit_is_leaf_witness :
    ∃ N, ∀ fuel, N ≤ fuel → ∃ m', generate counterLib fuel {} ⟨3, 3⟩ 42 = .ok m' ∧
      (∀ p d n, Event.carve p d n ∈ m'.trace → p ≠ exitOf 3 3) ∧
      ∃ p d, d ∈ directions ∧ carvingsInto (exitOf 3 3) m'.trace = [(p, d, exitOf 3 3)] ∧
        getAvailableDirections m' (exitOf 3 3) = .ok (getOppositeDirection d) ∧
        getOppositeDirection d ∈ directions ∧
        ∀ e ∈ directions, dirsAt m'.mazeNodes (exitOf 3 3) &&& e ≠ 0 ↔
          e = getOppositeDirection d :=
  exit_is_leaf counterLib_fair (by decide) (by decide) {} 42

/-- C7, `regenerate` keeps the dimensions and the invariants: for every width and height
of at least one and every seed `s`, `regenerate()` called on the maze `generate({w, h}, s)`
left is `generate({w, h}, s')`, where `s'` is the next value the engine of that maze
yields under the distribution over `0 .. 2^32 - 1`; it returns a grid of `w` columns of
`h` cells in which every cell is visited, whose graph is a tree (connected, acyclic,
`w * h - 1` edges), which satisfies the symmetry invariant, and whose vertex buffer holds
`4 * (2 * w * h - 1)` points. -/
theorem regenerate_keeps_invariants {R : RandomLib} (hfair : Fair R) {w h : Nat}
    (hd : Dim w h) (m : Maze) (s : Int) :
    ∃ N, ∀ fuel, N ≤ fuel → ∃ m1, generate R fuel m ⟨w, h⟩ s = .ok m1 ∧
      (∀ f, regenerate R f m1 =
        generate R f m1 ⟨w, h⟩ (toInt32 (R.sample 0 4294967295 m1.randomEngine).1)) ∧
      ∃ N2, ∀ f, N2 ≤ f → ∃ m2, regenerate R f m1 = .ok m2 ∧
        Rect w h m2.mazeNodes ∧
        (∀ c, InGrid w h c → visitedAt m2.mazeNodes c = true) ∧
        (mazeGraph w h m2.mazeNodes).IsTree ∧
        (mazeGraph w h m2.mazeNodes).edgeFinset.card = w * h - 1 ∧
        Symmetric w h m2.mazeNodes ∧
        m2.maze.length = 4 * (2 * w * h - 1) := by
  obtain ⟨N, m1, hrun, hgen⟩ := generate_returns hfair hd m s
  have hc1 := carved_of_run hrun
  obtain ⟨N2, hN2⟩ := generate_carved hfair hd (withTexCoords m1)
    (toInt32 (R.sample 0 4294967295 (withTexCoords m1).randomEngine).1)
  refine ⟨N, fun fuel hf => ⟨withTexCoords m1, hgen fuel hf,
    fun f => regenerate_eq R hd hc1.rect f, N2, fun f hf2 => ?_⟩⟩
  obtain ⟨m2, hg2, hc2⟩ := hN2 f hf2
  refine ⟨m2, by rw [regenerate_eq R hd hc1.rect f]; exact hg2, hc2.rect, hc2.visited,
    hc2.tree, ?_, hc2.symmetric, ?_⟩
  · have := hc2.tree.card_edgeFinset
    simp only [Fintype.card_prod, Fintype.card_fin] at this
    omega
  · rw [hc2.length]
    have : 2 * w * h = w * h + w * h := by rw [Nat.mul_assoc, Nat.two_mul]
    rw [this]

/-- Witness of C7: `generate({3, 3}, 42)`, then `regenerate()`, with the counter library. -/
theorem regenerate_keeps_invariants_witness :
    ∃ N, ∀ fuel, N ≤ fuel → ∃ m1, generate counterLib fuel {} ⟨3, 3⟩ 42 = .ok m1 ∧
      (∀ f, regenerate counterLib f m1 = generate counterLib f m1 ⟨3, 3⟩
        (toInt32 (counterLib.sample 0 4294967295 m1.randomEngine).1)) ∧
      ∃ N2, ∀ f, N2 ≤ f → ∃ m2, regenerate counterLib f m1 = .ok m2 ∧
        Rect 3 3 m2.mazeNodes ∧
        (∀ c, InGrid 3 3 c → visitedAt m2.mazeNodes c = true) ∧
        (mazeGraph 3 3 m2.mazeNodes).IsTree ∧
        (mazeGraph 3 3 m2.mazeNodes).edgeFinset.card = 3 * 3 - 1 ∧
        Symmetric 3 3 m2.mazeNodes ∧
        m2.maze.length = 4 * (2 * 3 * 3 - 1) :=
  regenerate_keeps_invariants counterLib_fair (by decide) {} 42

/-- C9, corridor grids: for every grid of width one or height one and every seed,
`generate` returns a maze such that every neighbour test of `exploreNode` found at most
one direction available (the mask is `0` or a single direction bit), and a direction is
open in a cell exactly when the cell has a neighbour of the grid in that direction: each
cell is joined to the next one along the line and there is no other edge.  The graph has
`w * h - 1` edges, the vertex buffer `4 * (2 * w * h - 1)` points, and the visited flags
and open directions are the same for every other seed. -/
theorem corridor_grids {R : RandomLib} (hfair : Fair R) {w h : Nat} (hd : Dim w h)
    (hcor : w = 1 ∨ h = 1) (m : Maze) (seed : Int) :
    ∃ N, ∀ fuel, N ≤ fuel → ∃ m', generate R fuel m ⟨w, h⟩ seed = .ok m' ∧
      (∀ p a, Event.test p a ∈ m'.trace → a = 0 ∨ a ∈ directions) ∧
      (∀ c, ∀ d ∈ directions, dirsAt m'.mazeNodes c &&& d ≠ 0 ↔
        InGrid w h c ∧ ∃ n, neighbourOf c d = some n ∧ InGrid w h n) ∧
      (mazeGraph w h m'.mazeNodes).edgeFinset.card = w * h - 1 ∧
      m'.maze.length = 4 * (2 * w * h - 1) ∧
      ∀ (seed2 : Int) (fuel2 : Nat) (m2 r2 : Maze),
        generate R fuel2 m2 ⟨w, h⟩ seed2 = .ok r2 →
        ∀ c, visitedAt r2.mazeNodes c = visitedAt m'.mazeNodes c ∧
          dirsAt r2.mazeNodes c = dirsAt m'.mazeNodes c := by
  obtain ⟨N, m1, hrun, hgen⟩ := generate_returns hfair hd m seed
  have hc := carved_of_run hrun
  refine ⟨N, fun fuel hf => ⟨withTexCoords m1, hgen fuel hf, ?_, ?_, ?_, ?_, ?_⟩⟩
  · have := run_corridor hcor hrun (fun c _ hlt => by simp at hlt)
      (fun p a hm => by simp [initial] at hm)
    exact this
  · exact fun c d hdd => corridor_bits hd hcor hc c hdd
  · have := hc.tree.card_edgeFinset
    simp only [Fintype.card_prod, Fintype.card_fin] at this
    omega
  · rw [hc.length]
    have : 2 * w * h = w * h + w * h := by rw [Nat.mul_assoc, Nat.two_mul]
    rw [this]
  · intro seed2 fuel2 m2 r2 hg2 c
    have hc2 := carved_of_generate hd hg2
    constructor
    · by_cases hin : InGrid w h c
      · rw [hc2.visited c hin, hc.visited c hin]
      · have h1 : visitedAt r2.mazeNodes c = false := by
          cases hv : visitedAt r2.mazeNodes c
          · rfl
          · exact absurd (visitedAt_inGrid hc2.rect hv) hin
        have h2 : visitedAt (withTexCoords m1).mazeNodes c = false := by
          cases hv : visitedAt (withTexCoords m1).mazeNodes c
          · rfl
          · exact absurd (visitedAt_inGrid hc.rect hv) hin
        rw [h1, h2]
    · apply eq_of_direction_bits (hc2.onlyDirections c) (hc.onlyDirections c)
      intro d hdd
      rw [corridor_bits hd hcor hc2 c hdd, corridor_bits hd hcor hc c hdd]

/-- Witness of C9: `generate({2, 1}, 0)` with the counter library leaves one edge and a
vertex buffer of 12 points. -/
theorem corridor_grids_witness :
    ∃ N, ∀ fuel, N ≤ fuel → ∃ m', generate counterLib fuel {} ⟨2, 1⟩ 0 = .ok m' ∧
      (∀ p a, Event.test p a ∈ m'.trace → a = 0 ∨ a ∈ directions) ∧
      (∀ c, ∀ d ∈ directions, dirsAt m'.mazeNodes c &&& d ≠ 0 ↔
        InGrid 2 1 c ∧ ∃ n, neighbourOf c d = some n ∧ InGrid 2 1 n) ∧
      (mazeGraph 2 1 m'.mazeNodes).edgeFinset.card = 1 ∧
      m'.maze.length = 12 ∧
      ∀ (seed2 : Int) (fuel2 : Nat) (m2 r2 : Maze),
        generate counterLib fuel2 m2 ⟨2, 1⟩ seed2 = .ok r2 →
        ∀ c, visitedAt r2.mazeNodes c = visitedAt m'.mazeNodes c ∧
          dirsAt r2.mazeNodes c = dirsAt m'.mazeNodes c :=
  corridor_grids counterLib_fair (by decide) (Or.inr rfl) {} 0

/-- C15, interleaved emission equals emission from the final grid: for every width and
height of at least one and every seed, `generate` returns a maze whose vertex buffer
consists of whole quads and, read as a multiset of quads (each quad its four points in
order), equals the multiset obtained from the final grid alone: one body quad per cell
and, for every cell and every direction in `{Up, Left}` whose bit is set in the
`availableDirections` of the cell, the connector quad between the cell and its neighbour
in that direction.  Hence the quads are the same for every grid with the same open
directions. -/
theorem interleaved_emission {R : RandomLib} (hfair : Fair R) {w h : Nat} (hd : Dim w h)
    (m : Maze) (seed : Int) :
    ∃ N, ∀ fuel, N ≤ fuel → ∃ m', generate R fuel m ⟨w, h⟩ seed = .ok m' ∧
      m'.maze = (quadsOf m'.maze).flatten ∧
      bufferQuads m'.maze = gridQuads w h m'.mazeNodes ∧
      ∀ g, (∀ c, dirsAt g c = dirsAt m'.mazeNodes c) →
        bufferQuads m'.maze = gridQuads w h g := by
  obtain ⟨N, m2, hrun, hgen⟩ := generate_returns hfair hd m seed
  have hc := carved_of_run hrun
  have hem := run_emitted hrun rfl
  have hlen := length_emitted (ledger_of_run hrun).2.2
  have hbuf := bufferQuads_withTexCoords hem hlen
  have hcon := run_connectors hrun (fun _ => forest_initial R w h seed)
    (fun hk => by cases hk) (connectors_initial R w h seed)
  have hcells : (Multiset.ofList ((entered m2.trace).map fun c => points (nodeQuad c)) :
      Multiset (List (ℚ × ℚ))) = (cells w h).val.map fun c => points (nodeQuad c) := by
    rw [← entered_eq_cells hc]
    rfl
  have hmain : bufferQuads (withTexCoords m2).maze = gridQuads w h m2.mazeNodes := by
    rw [hbuf, emitted_points, hcells, ← hcon]
    rfl
  refine ⟨N, fun fuel hf => ⟨withTexCoords m2, hgen fuel hf, ?_, hmain, ?_⟩⟩
  · have hq : ∀ q ∈ (emitted m2.trace).map (List.map fun v : Vertex =>
        { v with texCoords := v.position }), q.length = 4 := by
      intro q hq
      obtain ⟨q0, hq0, rfl⟩ := List.mem_map.mp hq
      rw [List.length_map]
      exact hlen q0 hq0
    have e : (withTexCoords m2).maze = ((emitted m2.trace).map (List.map fun v : Vertex =>
        { v with texCoords := v.position })).flatten := by
      unfold withTexCoords
      dsimp only
      rw [hem, List.map_flatten]
    rw [e, quadsOf_flatten hq]
  · intro g hg
    rw [hmain]
    unfold gridQuads
    rw [connectors_congr hg]
    rfl

/-- Witness of C15: a `3 × 3` grid, seed 42, the counter library. -/
theorem interleaved_emission_witness :
    ∃ N, ∀ fuel, N ≤ fuel → ∃ m', generate counterLib fuel {} ⟨3, 3⟩ 42 = .ok m' ∧
      m'.maze = (quadsOf m'.maze).flatten ∧
      bufferQuads m'.maze = gridQuads 3 3 m'.mazeNodes ∧
      ∀ g, (∀ c, dirsAt g c = dirsAt m'.mazeNodes c) →
        bufferQuads m'.maze = gridQuads 3 3 g :=
  interleaved_emission counterLib_fair (by decide) {} 42

end DyingIsAnOption
